import Mathlib

/-!
Verification development for the regression-circuit implementation in
`LogisticCircuit/algo/RegressionCircuit.py`.

The Python code is shallowly embedded: floating-point numbers become `ℚ`,
numpy arrays become lists of rationals, Python objects holding circuit nodes
become entries of an explicit arena (lists indexed by position), in-place
mutation becomes explicit state passing, and exceptions (`IndexError`,
`ValueError`, `KeyError`) become `Except String`.  Recursive graph walks use
explicit fuel; all fuel-exhaustion paths return a dedicated error that is
never hit on the concrete inputs used in witnesses.

Each definition carries a comment pointing at the Python source lines it
embeds.  Functions that live in repository files not present under `src/`
(`structure/CircuitNode.py`, `structure/AndGate.py`, `structure/Vtree.py`)
are marked `Modelled from the spec:` and follow the natural-language
specification instead.
-/

namespace RegressionCircuit

/-! ## Basic numeric helpers (numpy counterparts) -/

/-- Dot product of two rational vectors (`np.dot` on 1-d arrays). -/
def dotQ (xs ys : List ℚ) : ℚ := (List.zipWith (· * ·) xs ys).sum

/-- Arithmetic mean (`np.mean`); division by zero in `ℚ` yields 0 for the
empty list, which is never exercised by the program on nonempty data. -/
def meanQ (xs : List ℚ) : ℚ := xs.sum / (xs.length : ℚ)

/-- Population variance (`np.var`): mean of squared deviations. -/
def varQ (xs : List ℚ) : ℚ := meanQ (xs.map (fun x => (x - meanQ xs) ^ 2))

/-- `numpy` transpose of a row-major rectangular matrix: column `j` of the
result collects entry `j` of every row (the column count is read off the
first row, matching a rectangular `ndarray`). -/
def transposeQ (m : List (List ℚ)) : List (List ℚ) :=
  (List.range ((m.head?.map List.length).getD 0)).map
    (fun j => m.map (fun row => row.getD j 0))

/-- Insert into a list sorted by the strict order `lt`, keeping the inserted
element before every element it is not strictly greater than.  Together with
`pySort` this reproduces the stability guarantee of Python's `sorted`. -/
def pyInsert (lt : α → α → Bool) (a : α) : List α → List α
  | [] => [a]
  | b :: bs => if lt b a then b :: pyInsert lt a bs else a :: b :: bs

/-- Stable sort with respect to the strict order `lt` (Python `sorted` /
`list.sort`: equal elements keep their original relative order). -/
def pySort (lt : α → α → Bool) : List α → List α
  | [] => []
  | a :: as => pyInsert lt a (pySort lt as)

/-! ## Split selector

Embeds `_select_element_and_variable_to_split`
(`RegressionCircuit.py` lines 283-370).  The circuit enters the function
only through `self._elements` (identity plus `splittable_variables`),
`self.parameters` and `self._num_variables`, so the embedding takes exactly
those projections as arguments.  Python sets of splittable variables are
modelled as lists fixing one iteration order. -/

/-- The projection of an `AndGate` that the split selector reads: a stable
identifier and its iterable of splittable variables. -/
structure SelElem where
  id : ℕ
  splittable : List ℕ
  deriving Repr, DecidableEq

/-- The projection of `DataSet` read by the selector
(`util/DataSet.py` is external; fields per the spec §6). -/
structure SelData where
  features : List (List ℚ)
  labels : List ℚ
  images : List (List ℚ)
  numSamples : ℕ
  deriving Repr

/-- `predict` (line 530-531): `features · parametersᵗ` for the single
output dimension, one entry per row. -/
def predictQ (parameters : List ℚ) (features : List (List ℚ)) : List ℚ :=
  features.map (fun row => dotQ row parameters)

/-- Lines 288-291: per-row slice of
`-2 * (delta * features + 2·alpha·parameters)` keeping only the element
columns (indices `≥ 2·num_variables + 1`). -/
def elementGradients (numVariables : ℕ) (alpha : ℚ) (parameters : List ℚ)
    (delta : List ℚ) (features : List (List ℚ)) : List (List ℚ) :=
  List.zipWith
    (fun d row =>
      ((List.zipWith (fun f p => d * f + 2 * alpha * p) row parameters).drop
          (2 * numVariables + 1)).map (fun x => (-2) * x))
    delta features

/-- Line 294: `np.var(element_gradients, axis=0)` — column-wise variance. -/
def elementGradientVariance (grads : List (List ℚ)) : List ℚ :=
  (transposeQ grads).map varQ

/-- Lines 338-349: the post-split variance of one candidate variable.
`left_gradient` is the `(K,1)` broadcast `-2·(left_featureᵀ·delta) + 2αPᵀ`,
whose variance is taken over the `K` parameter entries and averaged (a
single number), and symmetrically for the right branch; the two are mixed
with the empirical frequency `w` of the variable. -/
def afterSplitVariance (alpha : ℚ) (parameters : List ℚ) (delta : List ℚ)
    (data : SelData) (originalFeature : List ℚ) (v : ℕ) : ℚ :=
  let leftFeature := List.zipWith (fun f row => f * row.getD (v - 1) 0)
    originalFeature data.images
  let rightFeature := List.zipWith (· - ·) originalFeature leftFeature
  let sLeft := (-2) * dotQ leftFeature delta
  let sRight := (-2) * dotQ rightFeature delta
  let leftGradient := parameters.map (fun p => sLeft + 2 * alpha * p)
  let rightGradient := parameters.map (fun p => sRight + 2 * alpha * p)
  let w := (data.images.map (fun row => row.getD (v - 1) 0)).sum /
    (data.numSamples : ℚ)
  w * varQ leftGradient + (1 - w) * varQ rightGradient

/-- Lines 321-352: the inner loop over an element's splittable variables,
tracking the minimizing variable.  `float("inf")` is modelled by `none`;
the comparison `after < inf` is true, and `inf < original_variance` is
false. -/
def bestVariableToSplit (alpha : ℚ) (parameters : List ℚ) (delta : List ℚ)
    (data : SelData) (originalFeature : List ℚ) (splittable : List ℕ) :
    Option ℕ × Option ℚ :=
  splittable.foldl
    (fun (acc : Option ℕ × Option ℚ) v =>
      let after := afterSplitVariance alpha parameters delta data
        originalFeature v
      match acc.2 with
      | none => (some v, some after)
      | some m => if after < m then (some v, some after) else acc)
    (none, none)

/-- The comparator of `selected.sort(key=lambda x: x[1])` (lines 362, 365):
ascending by improvement amount. -/
def impLt (a b : (SelElem × ℕ) × ℚ) : Bool := a.2 < b.2

/-- Lines 354-365: update of the bounded `selected` list once an element
has produced an improving variable.  When the list is full the code reads
`selected[0]` (an `IndexError` when `num_splits = 0`), admits the new entry
only if it improves on that first — best, most negative — entry, drops the
first entry, and re-sorts ascending by improvement. -/
def updateSelected (numSplits : ℕ)
    (selected : List ((SelElem × ℕ) × ℚ)) (entry : (SelElem × ℕ) × ℚ) :
    Except String (List ((SelElem × ℕ) × ℚ)) :=
  if selected.length = numSplits then
    match selected.head? with
    | none => .error "IndexError: list index out of range"
    | some s0 =>
      if entry.2 < s0.2 then
        .ok (pySort impLt (selected.tail ++ [entry]))
      else
        .ok selected
  else
    .ok (pySort impLt (selected ++ [entry]))

/-- Lines 317-365: the body of the candidate loop for one candidate triple
`(element, original_variance, original_feature)`. -/
def candidateStep (numSplits : ℕ) (alpha : ℚ) (parameters : List ℚ)
    (delta : List ℚ) (data : SelData)
    (selected : List ((SelElem × ℕ) × ℚ))
    (cand : SelElem × ℚ × List ℚ) : Except String (List ((SelElem × ℕ) × ℚ)) :=
  let element := cand.1
  let originalVariance := cand.2.1
  let originalFeature := cand.2.2
  if 0 < element.splittable.length ∧ 25 < originalFeature.sum then
    let best := bestVariableToSplit alpha parameters delta data
      originalFeature element.splittable
    match best.2 with
    | none => .ok selected
    | some minAfter =>
      if minAfter < originalVariance then
        match best.1 with
        | none => .error "AssertionError"
        | some variableToSplit =>
          updateSelected numSplits selected
            ((element, variableToSplit), minAfter - originalVariance)
      else .ok selected
  else .ok selected

/-- The candidate loop (lines 317-365): left fold of `candidateStep` over
the ranked candidates, propagating a raised exception. -/
def selectLoop (numSplits : ℕ) (alpha : ℚ) (parameters : List ℚ)
    (delta : List ℚ) (data : SelData)
    (selected : List ((SelElem × ℕ) × ℚ)) :
    List (SelElem × ℚ × List ℚ) → Except String (List ((SelElem × ℕ) × ℚ))
  | [] => .ok selected
  | c :: cs =>
    match candidateStep numSplits alpha parameters delta data selected c with
    | .error e => .error e
    | .ok selected' => selectLoop numSplits alpha parameters delta data selected' cs

/-- `_select_element_and_variable_to_split` (lines 283-370), end to end:
residuals, per-element gradient variances, the candidate ranking
(descending by variance, Python-stable), truncation to
`min_candidate_list`, and the selection loop. -/
def selectElementAndVariableToSplit (numVariables : ℕ) (parameters : List ℚ)
    (elements : List SelElem) (data : SelData) (numSplits : ℕ) (alpha : ℚ)
    (minCandidateList : ℕ := 5000) : Except String (List (SelElem × ℕ)) :=
  let y := predictQ parameters data.features
  let delta := List.zipWith (· - ·) data.labels y
  let grads := elementGradients numVariables alpha parameters delta data.features
  let egv := elementGradientVariance grads
  let elementColumns := (transposeQ data.features).drop (2 * numVariables + 1)
  let candidates : List (SelElem × ℚ × List ℚ) :=
    pySort (fun a b => b.2.1 < a.2.1)
      ((elements.zip (egv.zip elementColumns)))
  let cands := candidates.take (min minCandidateList candidates.length)
  match selectLoop numSplits alpha parameters delta data [] cands with
  | .error e => .error e
  | .ok selected => .ok (selected.map (·.1))

/-! ## Concrete selector instances used by claims C1 and C2 -/

/-- A dataset on one variable with a single element column: the element's
feature column sums to 26 (above the support threshold 25), its gradient
variance is positive, and with `alpha = 0` the post-split variance is 0, so
the element qualifies for a split. -/
def zeroSplitData : SelData :=
  { features := [[1, 1, 0, 26], [1, 0, 1, 0]]
    labels := [1, 0]
    images := [[1], [0]]
    numSamples := 2 }

/-- The single element of that circuit, splittable on variable 1. -/
def zeroSplitElem : SelElem := { id := 0, splittable := [1] }

/-- Entries for the C2 counterexample: a full 2-entry selection list holding
improvements `-3` (best) and `-2` (worst) and a new candidate with
improvement `-4`. -/
def selBestEntry : (SelElem × ℕ) × ℚ := (({ id := 10, splittable := [1] }, 1), -3)

/-- The worst-improvement entry of the full selection list. -/
def selWorstEntry : (SelElem × ℕ) × ℚ := (({ id := 11, splittable := [1] }, 1), -2)

/-- The strictly better new candidate, improvement `-4`. -/
def selNewEntry : (SelElem × ℕ) × ℚ := (({ id := 12, splittable := [1] }, 1), -4)

/-! ## Text serialization format and `load`

Embeds `load` (`RegressionCircuit.py` lines 620-732).  A circuit file is a
list of already-tokenized lines; `load` dispatches on the first character
of each line, so a line is a constructor carrying the parsed fields, with
`other` covering every line whose first character is none of
`c/T/F/D/B/V` (for example the `Regression Circuit` header).  Python
exceptions (`IndexError` from `line[0]` on the empty string returned at
EOF or from indexing a short `D` line, `KeyError` from dictionary lookups,
`ValueError` raises) become `Except.error`. -/

/-- A line of a circuit file, as `load` sees it. -/
inductive SrcLine where
  | comment
  | T (index vtreeIndex var : ℕ) (param : ℚ)
  | F (index vtreeIndex var : ℕ) (param : ℚ)
  | D (index vtreeIndex numElements : ℕ) (entries : List (ℕ × ℕ × ℚ))
  | B (params : List ℚ)
  | V (values : List ℚ)
  | other
  deriving Repr, DecidableEq

/-- The immutable vtree (`structure/Vtree.py` is not under `src/`).
Modelled from the spec: a binary tree whose leaves carry one variable, with
a node index used by the serialization format. -/
inductive PyVtree where
  | leaf (index : ℕ) (var : ℕ)
  | node (index : ℕ) (left right : PyVtree)
  deriving Repr, DecidableEq

/-- Modelled from the spec: the index of a vtree node. -/
def PyVtree.index : PyVtree → ℕ
  | .leaf i _ => i
  | .node i _ _ => i

/-- Modelled from the spec: `var_count`, the number of variables (leaves). -/
def PyVtree.varCount : PyVtree → ℕ
  | .leaf _ _ => 1
  | .node _ l r => l.varCount + r.varCount

/-- Number of vtree nodes, used as traversal fuel. -/
def PyVtree.size : PyVtree → ℕ
  | .leaf _ _ => 1
  | .node _ l r => l.size + r.size + 1

/-- Python `dict` assignment `d[k] = v`: replaces the value at an existing
key in place (keeping its insertion position) or appends a new binding. -/
def insertReplace (l : List (ℕ × α)) (k : ℕ) (v : α) : List (ℕ × α) :=
  match l with
  | [] => [(k, v)]
  | (k0, v0) :: rest =>
    if k0 = k then (k, v) :: rest else (k0, v0) :: insertReplace rest k v

/-- Python `dict` read `d[k]`: the value bound to `k`, if any. -/
def lookupAssoc (l : List (ℕ × α)) (k : ℕ) : Option α :=
  match l with
  | [] => none
  | (k0, v0) :: rest => if k0 = k then some v0 else lookupAssoc rest k

/-- Lines 628-636: breadth-first collection of the vtree nodes into a
dictionary keyed by vtree index. -/
def collectVtreeNodes : ℕ → List PyVtree → List (ℕ × PyVtree) →
    List (ℕ × PyVtree)
  | _, [], acc => acc
  | 0, _, acc => acc
  | fuel + 1, n :: rest, acc =>
    let acc := insertReplace acc n.index n
    match n with
    | .leaf _ _ => collectVtreeNodes fuel rest acc
    | .node _ l r => collectVtreeNodes fuel (rest ++ [l, r]) acc

/-- A `CircuitTerminal` as reconstructed by `load` (the class itself lives
in `structure/CircuitNode.py`, not under `src/`).  Modelled from the spec:
index, bound vtree leaf, variable, polarity (`LITERAL_IS_TRUE ↦ true`,
`LITERAL_IS_FALSE ↦ false`) and parameter. -/
structure PyTerminal where
  index : ℕ
  vtreeIndex : ℕ
  varIndex : ℕ
  varValue : Bool
  parameter : ℚ
  deriving Repr, DecidableEq

/-- A node stored in the `nodes` dictionary of `load`: either a terminal or
a position into the list of already-reconstructed OR-gates. -/
inductive LoadedNode where
  | term (t : PyTerminal)
  | gate (pos : ℕ)
  deriving Repr, DecidableEq

/-- An `AndGate` as reconstructed by `load` (lines 700-701). -/
structure LoadedElement where
  prime : LoadedNode
  sub : LoadedNode
  parameter : ℚ
  splittable : List ℕ
  deriving Repr, DecidableEq

/-- An `OrGate` as reconstructed by `load` (line 702). -/
structure LoadedGate where
  index : ℕ
  vtreeIndex : ℕ
  elements : List LoadedElement
  deriving Repr, DecidableEq

/-- Python set union of signed-literal sets, as a duplicate-free list;
only the set content is relevant downstream. -/
def unionVars (a b : List ℤ) : List ℤ :=
  a ++ b.filter (fun x => ¬ a.contains x)

/-- Lines 691-694: the splittable variables of a reconstructed element —
the absolute values of the literals occurring with both signs. -/
def computeSplittable (vars : List ℤ) : List ℕ :=
  ((vars.filter (fun v => vars.contains (-v))).map Int.natAbs).dedup

/-- Lines 622-625: skip leading comment lines; reading `line[0]` of the
empty string returned at EOF raises `IndexError`. -/
def skipComments : List SrcLine → Except String (List SrcLine)
  | [] => .error "IndexError: string index out of range"
  | .comment :: rest => skipComments rest
  | l :: rest => .ok (l :: rest)

/-- Lines 640-661: the terminal-reading loop.  Each `T`/`F` line is parsed,
its vtree index resolved (`KeyError` when absent), and the terminal stored
in an insertion-ordered dictionary keyed by the node index, together with
its literal set `{var}` or `{-var}`. -/
def parseTerminals (vtreeNodes : List (ℕ × PyVtree)) :
    List SrcLine → List (ℕ × (PyTerminal × List ℤ)) →
    Except String ((List (ℕ × (PyTerminal × List ℤ))) × List SrcLine)
  | [], _ => .error "IndexError: string index out of range"
  | .T idx vidx var p :: rest, acc =>
    match lookupAssoc vtreeNodes vidx with
    | none => .error "KeyError: vtree index"
    | some _ =>
      parseTerminals vtreeNodes rest
        (insertReplace acc idx
          ({ index := idx, vtreeIndex := vidx, varIndex := var,
             varValue := true, parameter := p }, [(var : ℤ)]))
  | .F idx vidx var p :: rest, acc =>
    match lookupAssoc vtreeNodes vidx with
    | none => .error "KeyError: vtree index"
    | some _ =>
      parseTerminals vtreeNodes rest
        (insertReplace acc idx
          ({ index := idx, vtreeIndex := vidx, varIndex := var,
             varValue := false, parameter := p }, [-(var : ℤ)]))
  | l :: rest, acc => .ok (acc, l :: rest)

/-- Line 664: the sort key `(-x.var_value, x.var_index)` — positive
literals first (ascending variable), then negative literals (ascending
variable).  Modelled from the spec for the numeric literal constants:
`LITERAL_IS_TRUE = 1 > LITERAL_IS_FALSE = 0`. -/
def termSortLt (a b : PyTerminal) : Bool :=
  (a.varValue && !b.varValue) ||
    ((a.varValue == b.varValue) && decide (a.varIndex < b.varIndex))

/-- Lines 682-701: reconstruct `num_elements` elements of a `D` line from
the parenthesized `(prime sub param)` groups.  Indexing past the available
groups is the Python `IndexError`; an unknown prime or sub index is the
`KeyError` of `nodes[prime_index]`.  Returns the elements and the union of
their literal sets. -/
def buildElements (nodes : List (ℕ × (LoadedNode × List ℤ))) :
    ℕ → List (ℕ × ℕ × ℚ) → Except String (List LoadedElement × List ℤ)
  | 0, _ => .ok ([], [])
  | _ + 1, [] => .error "IndexError: list index out of range"
  | n + 1, (pIdx, sIdx, param) :: es =>
    match lookupAssoc nodes pIdx, lookupAssoc nodes sIdx with
    | some (pNode, pVars), some (sNode, sVars) =>
      let elementVariables := unionVars pVars sVars
      let splittable := computeSplittable elementVariables
      match buildElements nodes n es with
      | .error e => .error e
      | .ok (els, vars) =>
        .ok ({ prime := pNode, sub := sNode, parameter := param,
               splittable := splittable } :: els,
             unionVars elementVariables vars)
    | _, _ => .error "KeyError: node index"

/-- Lines 677-705: the decision-reading loop.  Each `D` line appends a
fresh `OrGate` to the arena, records it in the node dictionary under its
index, and becomes the current root; EOF during the loop is the
`IndexError` of `line[0]` on the empty string. -/
def parseDecisions (vtreeNodes : List (ℕ × PyVtree)) :
    List SrcLine → List (ℕ × (LoadedNode × List ℤ)) → List LoadedGate →
    Option ℕ →
    Except String
      ((List (ℕ × (LoadedNode × List ℤ))) × List LoadedGate × Option ℕ ×
        List SrcLine)
  | [], _, _, _ => .error "IndexError: string index out of range"
  | .D idx vidx nElems entries :: rest, nodes, gates, _ =>
    match buildElements nodes nElems entries with
    | .error e => .error e
    | .ok (els, vars) =>
      match lookupAssoc vtreeNodes vidx with
      | none => .error "KeyError: vtree index"
      | some _ =>
        let pos := gates.length
        parseDecisions vtreeNodes rest
          (insertReplace nodes idx (.gate pos, vars))
          (gates ++ [{ index := idx, vtreeIndex := vidx, elements := els }])
          (some pos)
  | l :: rest, nodes, gates, root => .ok (nodes, gates, root, l :: rest)

/-- Line 720-721: `math.sqrt(n).is_integer()` — `n` is a perfect square
(exact for every array size a float can index). -/
def isSquare (n : ℕ) : Bool := Nat.sqrt n * Nat.sqrt n = n

/-- `vector.reshape((k, k))`: cut a flat row-major vector into rows of
`k` entries. -/
def chunkRows : ℕ → ℕ → List ℚ → List (List ℚ)
  | 0, _, _ => []
  | _, _, [] => []
  | fuel + 1, k, l => l.take k :: chunkRows fuel k (l.drop k)

/-- `vector.reshape((matrixSize, matrixSize))` with
`matrixSize = sqrt(vector.size)`. -/
def reshapeSquare (vals : List ℚ) : List (List ℚ) :=
  chunkRows vals.length (Nat.sqrt vals.length) vals

/-- Lines 716-728: the covariance-reading loop.  A `V` line whose value
count is not a perfect square is reported and skipped; a well-formed one is
reshaped to a square matrix; the loop stops at EOF (`line` falsy) or at the
first non-`V` line.  This phase can never fail. -/
def parseCovariances : List SrcLine → List (List (List ℚ))
  | .V vals :: rest =>
    if isSquare vals.length then reshapeSquare vals :: parseCovariances rest
    else parseCovariances rest
  | _ => []

/-- Everything `load` produces (the returned root plus the fields it
assigns on `self`). -/
structure LoadResult where
  terminalNodes : List PyTerminal
  gates : List LoadedGate
  rootPos : ℕ
  bias : List ℚ
  covariance : List (List (List ℚ))
  deriving Repr, DecidableEq

/-- `load` without the covariance phase (lines 620-713): comment skipping,
unconditional consumption of the line after the comments (line 640 reads
the next line without inspecting the current one, so the header is never
validated), vtree serialization, terminal parsing, the terminal-count
check (line 666), decision parsing, the missing-root check (line 708) and
the bias-line check (line 711).  Returns the remaining lines for the
covariance phase. -/
def loadUpToBias (vt : PyVtree) (lines : List SrcLine) :
    Except String
      ((List PyTerminal × List LoadedGate × ℕ × List ℚ) × List SrcLine) :=
  match skipComments lines with
  | .error e => .error e
  | .ok afterComments =>
    let body := afterComments.tail
    let vtreeNodes := collectVtreeNodes vt.size [vt] []
    match parseTerminals vtreeNodes body [] with
    | .error e => .error e
    | .ok (termDict, rest) =>
      let sortedTerms := pySort termSortLt (termDict.map (fun kv => kv.2.1))
      if sortedTerms.length = 2 * vt.varCount then
        match parseDecisions vtreeNodes rest
            (termDict.map (fun kv => (kv.1, (LoadedNode.term kv.2.1, kv.2.2))))
            [] none with
        | .error e => .error e
        | .ok (_, gates, rootOpt, rest2) =>
          match rootOpt with
          | none =>
            .error "ValueError: Circuit must have at least one decision node to represent the root node"
          | some rootPos =>
            match rest2 with
            | .B ps :: rest3 => .ok ((sortedTerms, gates, rootPos, ps), rest3)
            | _ :: _ =>
              .error "ValueError: The last line in a circuit file must record the bias parameters."
            | [] => .error "IndexError: string index out of range"
      else
        .error "ValueError: Number of terminal nodes recorded in the circuit file does not match 2 * number of variables in the provided vtree."

/-- `load` (lines 620-732): the pre-covariance phases followed by the
never-failing covariance phase. -/
def loadLines (vt : PyVtree) (lines : List SrcLine) :
    Except String LoadResult :=
  match loadUpToBias vt lines with
  | .error e => .error e
  | .ok ((terms, gates, rootPos, bias), rest) =>
    .ok { terminalNodes := terms, gates := gates, rootPos := rootPos,
          bias := bias, covariance := parseCovariances rest }

/-- Whether a line is a comment line (first character `c`). -/
def isCommentLine : SrcLine → Bool
  | .comment => true
  | _ => false

/-- Whether a line is a terminal line (first character `T` or `F`). -/
def isTFLine : SrcLine → Bool
  | .T _ _ _ _ => true
  | .F _ _ _ _ => true
  | _ => false

/-- Whether a line is a decision line (first character `D`). -/
def isDLine : SrcLine → Bool
  | .D _ _ _ _ => true
  | _ => false

/-- The node index carried by a terminal line. -/
def tfLineIndex : SrcLine → ℕ
  | .T i _ _ _ => i
  | .F i _ _ _ => i
  | _ => 0

/-- The number of `T`/`F` lines anywhere in a file. -/
def countTerminalLines (lines : List SrcLine) : ℕ :=
  (lines.filter isTFLine).length

/-- The body of a circuit file: the lines after the leading comments and
the one unconditionally discarded header line. -/
def fileBody (lines : List SrcLine) : List SrcLine :=
  ((lines.dropWhile isCommentLine).tail)

/-- A one-variable vtree: a single leaf with index 0 bound to variable 1. -/
def exampleLeafVtree : PyVtree := .leaf 0 1

/-- A well-formed one-variable circuit file: header, the two terminals,
one decision line and the bias line. -/
def goodCircuitFile : List SrcLine :=
  [.comment, .other, .T 0 0 1 1, .F 1 0 1 0, .D 2 0 1 [(0, 1, 1)], .B [1]]

/-- A circuit file with three terminal lines, two of which share index 0:
the dictionary keyed by index retains only two terminals, so the
terminal-count check of line 666 passes even though the file has
`3 ≠ 2 × num_variables` terminal lines. -/
def dupTerminalFile : List SrcLine :=
  [.comment, .other, .T 0 0 1 1, .F 1 0 1 0, .T 0 0 1 0,
   .D 2 0 1 [(0, 1, 1)], .B [1]]

/-! ## The circuit graph as an explicit arena

Python circuit nodes (`structure/CircuitNode.py`, `structure/AndGate.py`,
not under `src/`) are objects mutated in place and shared between parents.
The embedding stores every OR-gate in an arena (`gates : List ArenaGate`)
addressed by position; an object reference becomes a `NodeRef`; in-place
mutation becomes updating one arena slot.  Fields follow the spec §3 data
model: nodes carry their circuit-wide `index`, the vtree node they
implement (its index and variable set), `num_parents` bookkeeping, and
elements carry `(prime, sub)`, a parameter, `splittable_variables` and the
`flag` marking elements produced by a split. -/

/-- A reference held by an `AndGate` child slot: a terminal (position into
the terminal array) or an OR-gate (position into the gate arena). -/
inductive NodeRef where
  | term (i : ℕ)
  | gate (p : ℕ)
  deriving Repr, DecidableEq

/-- Modelled from the spec: a literal terminal node. -/
structure ArenaTerm where
  index : ℕ
  vtreeIndex : ℕ
  vtreeVars : List ℕ
  varIndex : ℕ
  varValue : Bool
  parameter : ℚ
  numParents : ℕ
  deriving Repr, DecidableEq

/-- Modelled from the spec: an AND-element. -/
structure ArenaElem where
  prime : NodeRef
  sub : NodeRef
  parameter : ℚ
  splittable : List ℕ
  flag : Bool
  deriving Repr, DecidableEq

/-- Modelled from the spec: an OR-gate (decision node). -/
structure ArenaGate where
  index : ℕ
  vtreeIndex : ℕ
  vtreeVars : List ℕ
  elements : List ArenaElem
  numParents : ℕ
  deriving Repr, DecidableEq

/-- The circuit state owned by a `RegressionCircuit` object: terminal
array, gate arena, root position, bias vector, covariance list and the
`_largest_index` counter. -/
structure Circuit where
  numVariables : ℕ
  terms : List ArenaTerm
  gates : List ArenaGate
  root : ℕ
  bias : List ℚ
  covariance : List (List (List ℚ))
  largestIndex : ℕ
  deriving Repr, DecidableEq

/-- The circuit-wide index of a referenced node (used by `save`). -/
def refIndex (c : Circuit) : NodeRef → ℕ
  | .term i => ((c.terms[i]?).map (·.index)).getD 0
  | .gate p => ((c.gates[p]?).map (·.index)).getD 0

/-- The vtree variable set of a referenced node
(`node.vtree.variables`). -/
def refVtreeVars (c : Circuit) : NodeRef → List ℕ
  | .term i => ((c.terms[i]?).map (·.vtreeVars)).getD []
  | .gate p => ((c.gates[p]?).map (·.vtreeVars)).getD []

/-- The gate index stored at an arena position (0 when dangling; the
well-formedness hypotheses of the theorems keep every reference in
bounds). -/
def gateIndexAt (c : Circuit) (p : ℕ) : ℕ :=
  ((c.gates[p]?).map (·.index)).getD 0

/-- The element list of the gate at an arena position (`node.elements`;
empty when dangling). -/
def gateElems (c : Circuit) (p : ℕ) : List ArenaElem :=
  ((c.gates[p]?).map (·.elements)).getD []

/-- The vtree variable set of the gate at an arena position (empty when
dangling). -/
def gateVars (c : Circuit) (p : ℕ) : List ℕ :=
  ((c.gates[p]?).map (·.vtreeVars)).getD []

/-- `_serialize` (lines 216-234), inner loop: walk the elements of the
gate just popped from the queue, append every element, and discover
unvisited child gates (dedup by their circuit-wide `index`, line 227).
Returns the updated decision list, visited index set, queue and element
list. -/
def visitElements (c : Circuit) (p : ℕ) :
    List ℕ → List ℕ → List ℕ → List (ℕ × ℕ) →
    (List ℕ × List ℕ × List ℕ × List (ℕ × ℕ)) :=
  fun decisions visited queue elems =>
    match c.gates[p]? with
    | none => (decisions, visited, queue, elems)
    | some g =>
      (List.range g.elements.length).foldl
        (fun (st : List ℕ × List ℕ × List ℕ × List (ℕ × ℕ)) i =>
          let (decisions, visited, queue, elems) := st
          let elems := elems ++ [(p, i)]
          match g.elements[i]? with
          | none => (decisions, visited, queue, elems)
          | some e =>
            let st1 :=
              match e.prime with
              | .term _ => (decisions, visited, queue)
              | .gate q =>
                if gateIndexAt c q ∈ visited then (decisions, visited, queue)
                else (decisions ++ [q], visited ++ [gateIndexAt c q],
                  queue ++ [q])
            let (decisions, visited, queue) := st1
            match e.sub with
            | .term _ => (decisions, visited, queue, elems)
            | .gate q =>
              if gateIndexAt c q ∈ visited then (decisions, visited, queue, elems)
              else (decisions ++ [q], visited ++ [gateIndexAt c q],
                queue ++ [q], elems))
        (decisions, visited, queue, elems)

/-- `_serialize` (lines 216-234), outer breadth-first loop with explicit
fuel (the Python loop runs until the queue empties; every enqueue is a
fresh gate index, so `|gates| + 1` iterations always suffice). -/
def serializeStep (c : Circuit) :
    ℕ → List ℕ → List ℕ → List ℕ → List (ℕ × ℕ) →
    (List ℕ × List (ℕ × ℕ))
  | 0, _, decisions, _, elems => (decisions, elems)
  | _ + 1, [], decisions, _, elems => (decisions, elems)
  | fuel + 1, p :: rest, decisions, visited, elems =>
    let (decisions, visited, queue, elems) :=
      visitElements c p decisions visited rest elems
    serializeStep c fuel queue decisions visited elems

/-- `_serialize` (lines 216-234): the breadth-first decision-node list
(arena positions, discovery order) and the element list (gate position ×
element index, traversal order). -/
def serializeCircuit (c : Circuit) : List ℕ × List (ℕ × ℕ) :=
  serializeStep c (c.gates.length + 1) [c.root] [c.root]
    [gateIndexAt c c.root] []

/-- The discovered decision-node positions. -/
def serializeDecisions (c : Circuit) : List ℕ := (serializeCircuit c).1

/-- The discovered elements in traversal order. -/
def serializeElements (c : Circuit) : List (ℕ × ℕ) := (serializeCircuit c).2

/-- The element stored at a (gate position, element index) address. -/
def getElem (c : Circuit) (pe : ℕ × ℕ) : Option ArenaElem :=
  (c.gates[pe.1]?).bind (fun g => g.elements[pe.2]?)

/-- The parameter of the element at an address (0 when dangling). -/
def elemParam (c : Circuit) (pe : ℕ × ℕ) : ℚ :=
  ((getElem c pe).map (·.parameter)).getD 0

/-- Lines 235-240: the flattened `parameters` row — bias first, then one
entry per terminal in terminal-array order, then one entry per element in
traversal order. -/
def parametersVec (c : Circuit) : List ℚ :=
  c.bias ++ c.terms.map (·.parameter) ++
    (serializeElements c).map (elemParam c)

/-- `CircuitTerminal.save` (called from line 606; the method itself lives
in `structure/CircuitNode.py`, not under `src/`).  Modelled from the spec
serialization format: `T <index> <vtree-id> <var> <param>` for a positive
literal, `F …` for a negative one. -/
def termSaveLine (t : ArenaTerm) : SrcLine :=
  if t.varValue then .T t.index t.vtreeIndex t.varIndex t.parameter
  else .F t.index t.vtreeIndex t.varIndex t.parameter

/-- `OrGate.save` (called from line 608; the method itself lives in
`structure/CircuitNode.py`, not under `src/`).  Modelled from the spec
serialization format:
`D <index> <vtree-id> <n-elements> (<prime-id> <sub-id> <param>) …`. -/
def gateSaveLine (c : Circuit) (p : ℕ) : SrcLine :=
  match c.gates[p]? with
  | none => .other
  | some g =>
    .D g.index g.vtreeIndex g.elements.length
      (g.elements.map (fun e => (refIndex c e.prime, refIndex c e.sub,
        e.parameter)))

/-- `save` (lines 600-618): the `FORMAT` comment block, the
`Regression Circuit` header, the terminals in array order, the decision
nodes in reverse discovery order (children before parents), one `B` line,
and one `V` line per covariance matrix (row-major flattening). -/
def saveLines (c : Circuit) : List SrcLine :=
  [.comment, .other] ++
    c.terms.map termSaveLine ++
    ((serializeDecisions c).reverse.map (gateSaveLine c)) ++
    [.B c.bias] ++
    c.covariance.map (fun m => .V m.flatten)

/-! ## The structural mutator

Embeds `_split`, `_copy_and_modify_element_for_split`,
`_copy_and_modify_node_for_split`, `_deep_copy_node` and
`_deep_copy_element` (lines 373-512) and the split loop of
`change_structure` (lines 592-598).  The four walks are mutually recursive
on the graph; the embedding uses one shared fuel argument that strictly
decreases on every call, with a dedicated error for exhaustion (never hit
on the concrete inputs of the witnesses: the Python recursion terminates
on vtree-respecting circuits).  Reference-count bookkeeping is modelled
from the spec invariant — `num_parents` equals the exact count of live
references: a node explicitly decremented on visit (line 429) is
re-acquired when the surviving original element re-attaches it, and every
`AndGate` construction acquires its two children. -/

/-- Apply a function to the terminal at a position (no-op when out of
bounds, which well-formedness rules out). -/
def modifyTermAt (c : Circuit) (i : ℕ) (f : ArenaTerm → ArenaTerm) :
    Circuit :=
  { c with terms := match c.terms[i]? with
      | none => c.terms
      | some t => c.terms.set i (f t) }

/-- Apply a function to the gate at a position (no-op when out of
bounds). -/
def modifyGateAt (c : Circuit) (p : ℕ) (f : ArenaGate → ArenaGate) :
    Circuit :=
  { c with gates := match c.gates[p]? with
      | none => c.gates
      | some g => c.gates.set p (f g) }

/-- `num_parents` of a referenced node. -/
def refNumParents (c : Circuit) : NodeRef → ℕ
  | .term i => ((c.terms[i]?).map (·.numParents)).getD 0
  | .gate p => ((c.gates[p]?).map (·.numParents)).getD 0

/-- `decrease_num_parents_by_one` (line 429; method modelled from the
spec's reference-count invariant). -/
def decRefParents (c : Circuit) : NodeRef → Circuit
  | .term i => modifyTermAt c i (fun t => { t with numParents := t.numParents - 1 })
  | .gate p => modifyGateAt c p (fun g => { g with numParents := g.numParents - 1 })

/-- Acquiring a reference to a node (modelled from the spec invariant:
`num_parents` counts live references, so attaching a child to an element
increments it). -/
def incRefParents (c : Circuit) : NodeRef → Circuit
  | .term i => modifyTermAt c i (fun t => { t with numParents := t.numParents + 1 })
  | .gate p => modifyGateAt c p (fun g => { g with numParents := g.numParents + 1 })

/-- `AndGate(prime, sub, parameter)` (constructor in
`structure/AndGate.py`, modelled from the spec): a fresh element holding
its two children, acquiring one reference to each. -/
def mkAndGate (c : Circuit) (prime sub : NodeRef) (param : ℚ) :
    Circuit × ArenaElem :=
  (incRefParents (incRefParents c prime) sub,
    { prime := prime, sub := sub, parameter := param, splittable := [],
      flag := false })

/-- `remove_splittable_variable` (line 386; method modelled from the
spec): drop the variable from the element's splittable set. -/
def removeSplittable (e : ArenaElem) (v : ℕ) : ArenaElem :=
  { e with splittable := e.splittable.filter (fun x => x ≠ v) }

/-- The tail of `_copy_and_modify_node_for_split` (lines 455-469): write
the surviving elements back into the gate, wrap the copied elements into a
fresh gate over the same vtree when any exist, and return the original
node (dropped when no element survived) and the copied node. -/
def cmNodeTail (c2 : Circuit) (p1 : ℕ)
    (survivors copies : List ArenaElem) :
    Circuit × Option NodeRef × Option NodeRef :=
  let c2b := modifyGateAt c2 p1 (fun g1 => { g1 with elements := survivors })
  let (c3, copiedNode) :=
    if copies.isEmpty then (c2b, none)
    else
      let idx := c2b.largestIndex + 1
      let vtreeIndex := ((c2b.gates[p1]?).map (·.vtreeIndex)).getD 0
      let vtreeVars := ((c2b.gates[p1]?).map (·.vtreeVars)).getD []
      ({ c2b with
          largestIndex := idx,
          gates := c2b.gates ++
            [{ index := idx, vtreeIndex := vtreeIndex,
               vtreeVars := vtreeVars, elements := copies,
               numParents := 0 }] },
        some (NodeRef.gate c2b.gates.length))
  let originalNode :=
    if survivors.isEmpty then none else some (NodeRef.gate p1)
  (c3, originalNode, copiedNode)

mutual

/-- `_copy_and_modify_element_for_split` (lines 383-422): flag the
element, remove the split variable from its splittable set, walk the
children (only the child whose vtree contains the variable once past the
depth budget), rebuild the copied element when both copied children exist
and the retained original when both original children exist.  A child that
was visited is re-acquired by the surviving original element (the visit
released it at line 429). -/
def cmElement : ℕ → Circuit → ArenaElem → ℕ → ℕ → ℕ →
    Except String (Circuit × Option ArenaElem × Option ArenaElem)
  | 0, _, _, _, _, _ => .error "fuel exhausted"
  | fuel + 1, c, el, v, depth, maxDepth =>
    let el := { removeSplittable el v with flag := true }
    let originalPrime := el.prime
    let originalSub := el.sub
    let walk :
        Except String
          (Circuit × (Option NodeRef × Bool) × (Option NodeRef × Bool) ×
            Option NodeRef × Option NodeRef) :=
      if maxDepth ≤ depth then
        if v ∈ refVtreeVars c originalPrime then
          match cmNode fuel c originalPrime v depth maxDepth with
          | .error e => .error e
          | .ok (c1, op, cp) =>
            .ok (c1, (op, true), (some originalSub, false), cp,
              some originalSub)
        else if v ∈ refVtreeVars c originalSub then
          match cmNode fuel c originalSub v depth maxDepth with
          | .error e => .error e
          | .ok (c1, os, cs) =>
            .ok (c1, (some originalPrime, false), (os, true),
              some originalPrime, cs)
        else
          .ok (c, (some originalPrime, false), (some originalSub, false),
            some originalPrime, some originalSub)
      else
        match cmNode fuel c originalPrime v depth maxDepth with
        | .error e => .error e
        | .ok (c1, op, cp) =>
          match cmNode fuel c1 originalSub v depth maxDepth with
          | .error e => .error e
          | .ok (c2, os, cs) => .ok (c2, (op, true), (os, true), cp, cs)
    match walk with
    | .error e => .error e
    | .ok (c1, origPrime, origSub, copiedPrime, copiedSub) =>
      let (c2, copiedElement) :=
        match copiedPrime, copiedSub with
        | some p, some s =>
          let (c2, e2) := mkAndGate c1 p s el.parameter
          (c2, some { e2 with splittable := el.splittable })
        | _, _ => (c1, none)
      match origPrime, origSub with
      | (some p, pWalked), (some s, sWalked) =>
        let c3 := if pWalked then incRefParents c2 p else c2
        let c4 := if sWalked then incRefParents c3 s else c3
        .ok (c4, some { el with prime := p, sub := s }, copiedElement)
      | _, _ => .ok (c2, none, copiedElement)
  termination_by structural fuel => fuel

/-- `_copy_and_modify_node_for_split` (lines 425-469): release the node
(raising when it has no parent), flip or drop a terminal matching the
split variable, deep-copy a gate still referenced elsewhere, then rewrite
each of its elements in place, dropping the ones that became invalid and
collecting the copies into a fresh gate. -/
def cmNode : ℕ → Circuit → NodeRef → ℕ → ℕ → ℕ →
    Except String (Circuit × Option NodeRef × Option NodeRef)
  | 0, _, _, _, _, _ => .error "fuel exhausted"
  | fuel + 1, c, r, v, depth, maxDepth =>
    if refNumParents c r = 0 then
      .error "ValueError: Some node does not have a parent."
    else
      let c := decRefParents c r
      match r with
      | .term i =>
        match c.terms[i]? with
        | none => .error "invalid terminal reference"
        | some t =>
          if t.varIndex = v then
            if t.varValue then .ok (c, some r, none)
            else .ok (c, none, some (.term (c.numVariables + v - 1)))
          else .ok (c, some r, some r)
      | .gate p =>
        let step : Except String (Circuit × ℕ) :=
          if 0 < refNumParents c (.gate p) then
            match dcNode fuel c (.gate p) v depth maxDepth with
            | .error e => .error e
            | .ok (c1, .gate p1) => .ok (c1, p1)
            | .ok (_, .term _) => .error "deep copy of a gate is a gate"
          else .ok (c, p)
        match step with
        | .error e => .error e
        | .ok (c1, p1) =>
          match cmElements fuel c1 (gateElems c1 p1) v depth maxDepth with
          | .error e => .error e
          | .ok (c2, survivors, copiedElements) =>
            .ok (cmNodeTail c2 p1 survivors copiedElements)
  termination_by structural fuel => fuel

/-- The `while i < len(original_node.elements)` loop of
`_copy_and_modify_node_for_split` (lines 450-461): rewrite each element of
the gate, drop the ones whose original side vanished, and collect the
copied elements.  The embedding processes the snapshot of the element list
taken when the loop starts and writes the surviving originals back in one
step; the Python loop reads and writes the live list, which coincides with
the snapshot on every circuit in which the recursive walk cannot reach the
gate whose elements are being rewritten (all vtree-respecting circuits,
where a gate references only gates over strictly smaller variable
sets). -/
def cmElements : ℕ → Circuit → List ArenaElem → ℕ → ℕ → ℕ →
    Except String (Circuit × List ArenaElem × List ArenaElem)
  | 0, _, _, _, _, _ => .error "fuel exhausted"
  | _ + 1, c, [], _, _, _ => .ok (c, [], [])
  | fuel + 1, c, e :: es, v, depth, maxDepth =>
    match cmElement fuel c e v (depth + 1) maxDepth with
    | .error e1 => .error e1
    | .ok (c1, origEl, copiedEl) =>
      match cmElements fuel c1 es v depth maxDepth with
      | .error e1 => .error e1
      | .ok (c2, survivors, copies) =>
        .ok (c2,
          (match origEl with | none => survivors | some oe => oe :: survivors),
          (match copiedEl with | none => copies | some ce => ce :: copies))
  termination_by structural fuel => fuel

/-- `_deep_copy_node` (lines 472-483): terminals are shared; a gate is
duplicated element by element into a fresh arena slot (raising when it has
no elements). -/
def dcNode : ℕ → Circuit → NodeRef → ℕ → ℕ → ℕ →
    Except String (Circuit × NodeRef)
  | 0, _, _, _, _, _ => .error "fuel exhausted"
  | fuel + 1, c, r, v, depth, maxDepth =>
    match r with
    | .term i => .ok (c, .term i)
    | .gate p =>
      match c.gates[p]? with
      | none => .error "invalid gate reference"
      | some g =>
        if g.elements.isEmpty then
          .error "ValueError: Decision nodes should have at least one elements."
        else
          match dcElements fuel c g.elements v depth maxDepth with
          | .error e => .error e
          | .ok (c1, copiedElements) =>
            let idx := c1.largestIndex + 1
            .ok ({ c1 with
                    largestIndex := idx,
                    gates := c1.gates ++
                      [{ index := idx, vtreeIndex := g.vtreeIndex,
                         vtreeVars := g.vtreeVars,
                         elements := copiedElements, numParents := 0 }] },
              .gate c1.gates.length)
  termination_by structural fuel => fuel

/-- The `for element in node.elements` loop of `_deep_copy_node`
(lines 478-481). -/
def dcElements : ℕ → Circuit → List ArenaElem → ℕ → ℕ → ℕ →
    Except String (Circuit × List ArenaElem)
  | 0, _, _, _, _, _ => .error "fuel exhausted"
  | _ + 1, c, [], _, _, _ => .ok (c, [])
  | fuel + 1, c, e :: es, v, depth, maxDepth =>
    match dcElement fuel c e v (depth + 1) maxDepth with
    | .error e1 => .error e1
    | .ok (c1, ce) =>
      match dcElements fuel c1 es v depth maxDepth with
      | .error e1 => .error e1
      | .ok (c2, ces) => .ok (c2, ce :: ces)
  termination_by structural fuel => fuel

/-- `_deep_copy_element` (lines 486-512): duplicate both children within
the depth budget, only the child whose vtree contains the variable past
it, sharing the rest; the copy inherits the element's splittable set
verbatim. -/
def dcElement : ℕ → Circuit → ArenaElem → ℕ → ℕ → ℕ →
    Except String (Circuit × ArenaElem)
  | 0, _, _, _, _, _ => .error "fuel exhausted"
  | fuel + 1, c, el, v, depth, maxDepth =>
    let build : Except String (Circuit × NodeRef × NodeRef) :=
      if maxDepth ≤ depth then
        if v ∈ refVtreeVars c el.prime then
          match dcNode fuel c el.prime v depth maxDepth with
          | .error e => .error e
          | .ok (c1, p1) => .ok (c1, p1, el.sub)
        else if v ∈ refVtreeVars c el.sub then
          match dcNode fuel c el.sub v depth maxDepth with
          | .error e => .error e
          | .ok (c1, s1) => .ok (c1, el.prime, s1)
        else .ok (c, el.prime, el.sub)
      else
        match dcNode fuel c el.prime v depth maxDepth with
        | .error e => .error e
        | .ok (c1, p1) =>
          match dcNode fuel c1 el.sub v depth maxDepth with
          | .error e => .error e
          | .ok (c2, s1) => .ok (c2, p1, s1)
    match build with
    | .error e => .error e
    | .ok (c1, p1, s1) =>
      let (c2, e2) := mkAndGate c1 p1 s1 el.parameter
      .ok (c2, { e2 with splittable := el.splittable })
  termination_by structural fuel => fuel

end

/-- `_split` (lines 373-380): run the copy-and-modify walk on the element
at `loc = (parent gate position, element index)`, raise when either the
retained original or the copy collapsed, otherwise write the original back
and append the copy to the parent gate. -/
def splitElement (c : Circuit) (loc : ℕ × ℕ) (v : ℕ) (depth fuel : ℕ) :
    Except String Circuit :=
  match getElem c loc with
  | none => .error "invalid element location"
  | some el =>
    match cmElement fuel c el v 0 depth with
    | .error e => .error e
    | .ok (c1, origEl, copiedEl) =>
      match origEl, copiedEl with
      | some oe, some ce =>
        .ok (modifyGateAt c1 loc.1 (fun g =>
          { g with elements := (g.elements.set loc.2 oe) ++ [ce] }))
      | _, _ => .error "ValueError: Split elements become invalid."

/-- The split loop of `change_structure` (lines 595-597): apply each
selected split in order, skipping elements already flagged by an earlier
split of the round; an exception raised by `_split` is not caught, so it
aborts the remaining splits. -/
def applySplits (c : Circuit) : List ((ℕ × ℕ) × ℕ) → ℕ → ℕ →
    Except String Circuit
  | [], _, _ => .ok c
  | (loc, v) :: rest, depth, fuel =>
    if ((getElem c loc).map (·.flag)).getD false then
      applySplits c rest depth fuel
    else
      match splitElement c loc v depth fuel with
      | .error e => .error e
      | .ok c1 => applySplits c1 rest depth fuel

/-! ## Feature extraction

Embeds `calculate_features` (lines 259-280 of `RegressionCircuit.py`).
The per-node computations (`CircuitTerminal.calculate_prob`,
`OrGate.calculate_prob`, `OrGate.calculate_feature`) live in
`structure/CircuitNode.py`, which is not under `src/`; they are modelled
from the spec §4.2: a positive literal's per-row probability is the input
column and a negative literal's its complement; a gate's probability is
the sum over its elements of prime-probability × sub-probability; features
propagate top-down from a root feature of 1, each element receiving the
gate feature scaled by the ratio of its probability to the gate total, and
each child accumulating its elements' features.  The per-row scratch
buffers stored on the nodes are held in `FeatBuffers`. -/

/-- The per-row scratch buffers that the pass stores on nodes (`None`
models an unset or cleared buffer). -/
structure FeatBuffers where
  termProb : List (Option (List ℚ))
  termFeature : List (Option (List ℚ))
  gateProb : List (Option (List ℚ))
  gateFeature : List (Option (List ℚ))
  elemProb : List (List (Option (List ℚ)))
  elemFeature : List (List (Option (List ℚ)))
  deriving Repr, DecidableEq

/-- All buffers unset. -/
def initBuffers (c : Circuit) : FeatBuffers :=
  { termProb := List.replicate c.terms.length none,
    termFeature := List.replicate c.terms.length none,
    gateProb := List.replicate c.gates.length none,
    gateFeature := List.replicate c.gates.length none,
    elemProb := c.gates.map (fun g => List.replicate g.elements.length none),
    elemFeature := c.gates.map (fun g => List.replicate g.elements.length none) }

/-- Pointwise sum of two rows. -/
def addRows (a b : List ℚ) : List ℚ := List.zipWith (· + ·) a b

/-- Pointwise product of two rows. -/
def mulRows (a b : List ℚ) : List ℚ := List.zipWith (· * ·) a b

/-- Modelled from the spec: `CircuitTerminal.calculate_prob` on binary
inputs — the input column for a positive literal, its complement for a
negative one. -/
def termProbRow (images : List (List ℚ)) (t : ArenaTerm) : List ℚ :=
  images.map (fun row =>
    if t.varValue then row.getD (t.varIndex - 1) 0
    else 1 - row.getD (t.varIndex - 1) 0)

/-- The probability buffer of a referenced child (a row of zeros when the
buffer is unset, which well-formed traversal orders prevent). -/
def refProb (b : FeatBuffers) (rows : ℕ) : NodeRef → List ℚ
  | .term i => ((b.termProb.getD i none).getD (List.replicate rows 0))
  | .gate p => ((b.gateProb.getD p none).getD (List.replicate rows 0))

/-- Modelled from the spec: `OrGate.calculate_prob` — each element's
probability is prime × sub pointwise, the gate's is their sum. -/
def gateCalcProb (c : Circuit) (rows : ℕ) (b : FeatBuffers) (p : ℕ) :
    FeatBuffers :=
  match c.gates[p]? with
  | none => b
  | some g =>
    let eprobs := g.elements.map (fun e =>
      mulRows (refProb b rows e.prime) (refProb b rows e.sub))
    let gprob := eprobs.foldl addRows (List.replicate rows 0)
    { b with
      elemProb := b.elemProb.set p (eprobs.map some),
      gateProb := b.gateProb.set p (some gprob) }

/-- Accumulate an element feature onto a child's feature buffer. -/
def refAddFeature (b : FeatBuffers) (rows : ℕ) (ef : List ℚ) :
    NodeRef → FeatBuffers
  | .term i =>
    let old := (b.termFeature.getD i none).getD (List.replicate rows 0)
    { b with termFeature := b.termFeature.set i (some (addRows old ef)) }
  | .gate p =>
    let old := (b.gateFeature.getD p none).getD (List.replicate rows 0)
    { b with gateFeature := b.gateFeature.set p (some (addRows old ef)) }

/-- One step of `OrGate.calculate_feature` for element `i` of gate `p`
(modelled from the spec): the element receives the gate feature scaled by
its share of the gate probability and pushes it onto both children. -/
def gateCalcFeatureStep (rows : ℕ) (p : ℕ) (g : ArenaGate)
    (b : FeatBuffers) (i : ℕ) : FeatBuffers :=
  match g.elements[i]? with
  | none => b
  | some e =>
    let gf := (b.gateFeature.getD p none).getD (List.replicate rows 0)
    let gp := (b.gateProb.getD p none).getD (List.replicate rows 0)
    let ep := ((b.elemProb.getD p []).getD i none).getD
      (List.replicate rows 0)
    let ef := List.zipWith (fun fp tot => fp.1 * fp.2 / tot) (gf.zip ep) gp
    let newRow := (b.elemFeature.getD p []).set i (some ef)
    let b := { b with elemFeature := b.elemFeature.set p newRow }
    refAddFeature (refAddFeature b rows ef e.prime) rows ef e.sub

/-- Modelled from the spec: `OrGate.calculate_feature` over all elements
of one gate. -/
def gateCalcFeature (c : Circuit) (rows : ℕ) (b : FeatBuffers) (p : ℕ) :
    FeatBuffers :=
  match c.gates[p]? with
  | none => b
  | some g =>
    (List.range g.elements.length).foldl (gateCalcFeatureStep rows p g) b

/-- The feature buffer of the element at an address (zeros when unset). -/
def elemFeatureValue (b : FeatBuffers) (rows : ℕ) (pe : ℕ × ℕ) : List ℚ :=
  ((b.elemFeature.getD pe.1 []).getD pe.2 none).getD (List.replicate rows 0)

/-- The feature buffer of terminal `i` (zeros when unset). -/
def termFeatureValue (b : FeatBuffers) (rows : ℕ) (i : ℕ) : List ℚ :=
  (b.termFeature.getD i none).getD (List.replicate rows 0)

/-- Lines 259-267: the buffer state after the bottom-up probability pass
(decision nodes in reverse discovery order), the root feature of ones
(line 265) and the top-down feature pass (discovery order). -/
def featureBuffers (c : Circuit) (images : List (List ℚ)) : FeatBuffers :=
  let rows := images.length
  let b0 := { initBuffers c with
    termProb := c.terms.map (fun t => some (termProbRow images t)) }
  let decisions := serializeDecisions c
  let b1 := decisions.reverse.foldl (gateCalcProb c rows) b0
  let rootFeature := some (List.replicate rows (1 : ℚ))
  let b2 := { b1 with gateFeature := b1.gateFeature.set c.root rootFeature }
  decisions.foldl (gateCalcFeature c rows) b2

/-- Lines 268-273: the feature columns before the final transpose — the
bias column of ones first, then one column per terminal in terminal-array
order, then one column per element in traversal order. -/
def featureColumns (c : Circuit) (images : List (List ℚ)) :
    List (List ℚ) :=
  List.replicate images.length (1 : ℚ) ::
    ((List.range c.terms.length).map
        (termFeatureValue (featureBuffers c images) images.length) ++
      (serializeElements c).map
        (elemFeatureValue (featureBuffers c images) images.length))

/-- Clearing the per-row buffer of one element address (`element.feature =
None` / `element.prob = None`, lines 277-279). -/
def clearElemAt (eb : List (List (Option (List ℚ)))) (pe : ℕ × ℕ) :
    List (List (Option (List ℚ))) :=
  eb.set pe.1 ((eb.getD pe.1 []).set pe.2 none)

/-- Lines 274-279: the cleanup — terminal probability and feature buffers
dropped, the buffers of every element of `self._elements` dropped; the
OR-gate buffers are not touched. -/
def cleanupBuffers (c : Circuit) (b : FeatBuffers) : FeatBuffers :=
  { b with
    termProb := List.replicate c.terms.length none,
    termFeature := List.replicate c.terms.length none,
    elemProb := (serializeElements c).foldl clearElemAt b.elemProb,
    elemFeature := (serializeElements c).foldl clearElemAt b.elemFeature }

/-- Lines 259-280: `calculate_features` — compute the columns, transpose
to per-image rows, then clear the terminal and element buffers; the
OR-gate buffers (including the root feature set at line 265) survive. -/
def calculateFeatures (c : Circuit) (images : List (List ℚ)) :
    List (List ℚ) × FeatBuffers :=
  (transposeQ (featureColumns c images),
    cleanupBuffers c (featureBuffers c images))

/-! ## Concrete circuits used by claims C3, C7, C8 and C9 -/

/-- A literal terminal with the given index, vtree index, variable,
polarity and parent count, parameter 0. -/
def literalTerm (i idx var : ℕ) (pol : Bool) (np : ℕ) : ArenaTerm :=
  { index := i, vtreeIndex := idx, vtreeVars := [var], varIndex := var,
    varValue := pol, parameter := 0, numParents := np }

/-- A two-variable circuit whose root gate holds the single element
`(+1, +2)`: splitting it on variable 1 keeps the retained original element
(the positive literal stays on the original side) but collapses the copied
side (the positive literal contributes no copy), so `_split` raises even
though one side is valid. -/
def splitFailCircuit : Circuit :=
  { numVariables := 2,
    terms := [literalTerm 0 1 1 true 1, literalTerm 1 2 2 true 1,
              literalTerm 2 1 1 false 0, literalTerm 3 2 2 false 0],
    gates := [{ index := 4, vtreeIndex := 0, vtreeVars := [1, 2],
                elements := [{ prime := .term 0, sub := .term 1,
                               parameter := 1, splittable := [1],
                               flag := false }],
                numParents := 0 }],
    root := 0, bias := [0], covariance := [], largestIndex := 4 }

/-- The element at address `(0, 0)` of `splitFailCircuit`. -/
def splitFailElem : ArenaElem :=
  { prime := .term 0, sub := .term 1, parameter := 1, splittable := [1],
    flag := false }

/-- A three-variable circuit whose root `(+1, g)` and `(-1, g)` elements
share the gate `g` over variables 2 and 3: splitting the first element on
variable 2 must deep-copy `g` so the second element is untouched. -/
def sharedGateCircuit : Circuit :=
  { numVariables := 3,
    terms := [literalTerm 0 1 1 true 1, literalTerm 1 2 2 true 1,
              literalTerm 2 3 3 true 2,
              literalTerm 10 1 1 false 1, literalTerm 11 2 2 false 1,
              literalTerm 12 3 3 false 0],
    gates := [{ index := 20, vtreeIndex := 5, vtreeVars := [1, 2, 3],
                elements := [{ prime := .term 0, sub := .gate 1,
                               parameter := 1, splittable := [2, 3],
                               flag := false },
                             { prime := .term 3, sub := .gate 1,
                               parameter := 2, splittable := [2, 3],
                               flag := false }],
                numParents := 0 },
              { index := 21, vtreeIndex := 6, vtreeVars := [2, 3],
                elements := [{ prime := .term 1, sub := .term 2,
                               parameter := 3, splittable := [],
                               flag := false },
                             { prime := .term 4, sub := .term 2,
                               parameter := 4, splittable := [],
                               flag := false }],
                numParents := 2 }],
    root := 0, bias := [0], covariance := [], largestIndex := 21 }

/-- A concrete input batch of two rows over three variables. -/
def featImages : List (List ℚ) := [[1, 0, 1], [0, 1, 1]]

/-! ## Splittable-variable hygiene of the split walk (claim C9)

The predicates below state, over the arena embedding, that a variable no
longer occurs in the `splittable` set of an element nor of any element
reachable below it, together with the well-formedness facts about the
circuit that the walk relies on: vtree variable sets nest along the
structure, the split variable never occurs on both sides of an element,
references stay in bounds, and the terminal array holds the matching
negative literal at the position used by the flip at line 437. -/

/-- The child of an element selected by a side flag (`true` = prime). -/
def childRef (side : Bool) (e : ArenaElem) : NodeRef :=
  if side then e.prime else e.sub

/-- Navigate from a node along a path of (element index, side) steps and
return the element reached by the final step, if any. -/
def pathElem (c : Circuit) : NodeRef → List (ℕ × Bool) → Option ArenaElem
  | _, [] => none
  | .term _, _ :: _ => none
  | .gate p, (j, side) :: rest =>
    match (gateElems c p)[j]? with
    | none => none
    | some e =>
      match rest with
      | [] => some e
      | _ :: _ => pathElem c (childRef side e) rest

/-- Every element reachable from the node lacks `v` in its splittable
set. -/
def PathVClean (c : Circuit) (v : ℕ) (n : NodeRef) : Prop :=
  ∀ path e, pathElem c n path = some e → v ∉ e.splittable

/-- The element and everything reachable below it lack `v`. -/
def CleanEl (c : Circuit) (v : ℕ) (e : ArenaElem) : Prop :=
  v ∉ e.splittable ∧ PathVClean c v e.prime ∧ PathVClean c v e.sub

/-- A reference that points at an existing arena slot (terminal references
are never navigated into by `pathElem`, so they count as valid here). -/
def ValidR (c : Circuit) : NodeRef → Prop
  | .term _ => True
  | .gate p => (c.gates[p]?).isSome = true

/-- Facts about one element of a well-formed circuit that the walk needs:
the split variable does not occur on both sides and both children are in
bounds. -/
def ElemFacts (c : Circuit) (v : ℕ) (el : ArenaElem) : Prop :=
  ¬(v ∈ refVtreeVars c el.prime ∧ v ∈ refVtreeVars c el.sub) ∧
  ValidR c el.prime ∧ ValidR c el.sub

/-- Vtree well-formedness at the split variable: each element's children
variables and splittable entries stay inside its gate's variable set, and
the variable never occurs on both sides of an element. -/
def WfSplit (c : Circuit) (v : ℕ) : Prop :=
  ∀ p, ∀ e ∈ gateElems c p,
    (∀ x ∈ refVtreeVars c e.prime, x ∈ gateVars c p) ∧
    (∀ x ∈ refVtreeVars c e.sub, x ∈ gateVars c p) ∧
    (∀ x ∈ e.splittable, x ∈ gateVars c p) ∧
    ¬(v ∈ refVtreeVars c e.prime ∧ v ∈ refVtreeVars c e.sub)

/-- Every gate whose vtree variables avoid `v` is hygienic below: no
reachable element keeps `v` splittable. -/
def HFreeP (c : Circuit) (v : ℕ) : Prop :=
  ∀ p, v ∉ gateVars c p → PathVClean c v (.gate p)

/-- No stored element references a missing arena slot. -/
def NoDangling (c : Circuit) : Prop :=
  ∀ p, ∀ e ∈ gateElems c p, ValidR c e.prime ∧ ValidR c e.sub

/-- The signature of a terminal slot; the walk only ever changes a
terminal's `num_parents`, never its signature. -/
def termSig (c : Circuit) (i : ℕ) : Option (ℕ × Bool × List ℕ) :=
  (c.terms[i]?).map (fun t => (t.varIndex, t.varValue, t.vtreeVars))

/-- The terminal-array layout relied on by the flip at line 437: for a
negative literal of variable `x`, position `num_variables + x - 1` holds a
terminal over the same vtree leaf. -/
def FlipConsistent (c : Circuit) : Prop :=
  ∀ (i : ℕ) (t : ArenaTerm), c.terms[i]? = some t → t.varValue = false →
    ((c.terms[c.numVariables + t.varIndex - 1]?).map (·.vtreeVars)) =
      some t.vtreeVars

/-- The well-formedness invariant carried through the whole walk. -/
def MutInv (c : Circuit) (v : ℕ) : Prop :=
  WfSplit c v ∧ HFreeP c v ∧ NoDangling c ∧ FlipConsistent c

/-- Shape facts preserved by every step of the walk: terminal signatures,
the variable count, and existence and vtree variables of every
pre-existing gate slot. -/
def VarsPres (c c' : Circuit) : Prop :=
  (∀ i, termSig c' i = termSig c i) ∧
  c'.numVariables = c.numVariables ∧
  (∀ p, (c.gates[p]?).isSome = true →
    (c'.gates[p]?).isSome = true ∧ gateVars c' p = gateVars c p)

/-- What each step of the walk guarantees about its state change: the
invariant still holds afterwards, hygiene of valid references transfers,
and the shape facts are preserved. -/
def Pres (v : ℕ) (c c' : Circuit) : Prop :=
  MutInv c' v ∧
  (∀ n, ValidR c n → PathVClean c v n → PathVClean c' v n) ∧
  VarsPres c c'

/-- How an element produced by the walk relates to the element it was
derived from: the children's variable sets and the splittable set only
shrink, and the children are in bounds. -/
def ElemDeriv (c c' : Circuit) (e e' : ArenaElem) : Prop :=
  (∀ x ∈ refVtreeVars c' e'.prime, x ∈ refVtreeVars c e.prime) ∧
  (∀ x ∈ refVtreeVars c' e'.sub, x ∈ refVtreeVars c e.sub) ∧
  (∀ x ∈ e'.splittable, x ∈ e.splittable) ∧
  ValidR c' e'.prime ∧ ValidR c' e'.sub

/-- Specification of `_copy_and_modify_element_for_split`: the invariant
and hygiene are preserved, and each produced element (retained original
and copy) is hygienic for `v` and derived from the input element. -/
def CmElemSpec (v fuel : ℕ) : Prop :=
  ∀ c el depth maxDepth c' oe ce, MutInv c v → ElemFacts c v el →
    cmElement fuel c el v depth maxDepth = .ok (c', oe, ce) →
    Pres v c c' ∧
    (∀ e', oe = some e' → CleanEl c' v e' ∧ ElemDeriv c c' el e') ∧
    (∀ e', ce = some e' → CleanEl c' v e' ∧ ElemDeriv c c' el e')

/-- Specification of `_copy_and_modify_node_for_split`: both returned
references are hygienic, valid, and their variables shrink. -/
def CmNodeSpec (v fuel : ℕ) : Prop :=
  ∀ c r depth maxDepth c' rn cn, MutInv c v →
    cmNode fuel c r v depth maxDepth = .ok (c', rn, cn) →
    Pres v c c' ∧
    (∀ r', rn = some r' → PathVClean c' v r' ∧ ValidR c' r' ∧
      (∀ x ∈ refVtreeVars c' r', x ∈ refVtreeVars c r)) ∧
    (∀ r', cn = some r' → PathVClean c' v r' ∧ ValidR c' r' ∧
      (∀ x ∈ refVtreeVars c' r', x ∈ refVtreeVars c r))

/-- Specification of the element-rewriting loop: every surviving original
and every copy is hygienic and derived from some input element. -/
def CmElemsSpec (v fuel : ℕ) : Prop :=
  ∀ c els depth maxDepth c' survivors copies, MutInv c v →
    (∀ e ∈ els, ElemFacts c v e) →
    cmElements fuel c els v depth maxDepth = .ok (c', survivors, copies) →
    Pres v c c' ∧
    (∀ e' ∈ survivors, CleanEl c' v e' ∧ ∃ e ∈ els, ElemDeriv c c' e e') ∧
    (∀ e' ∈ copies, CleanEl c' v e' ∧ ∃ e ∈ els, ElemDeriv c c' e e')

/-- Specification of `_deep_copy_node`: the copy is valid and sits over
the same vtree variables. -/
def DcNodeSpec (v fuel : ℕ) : Prop :=
  ∀ c r depth maxDepth c' r', MutInv c v →
    dcNode fuel c r v depth maxDepth = .ok (c', r') →
    Pres v c c' ∧ ValidR c' r' ∧ refVtreeVars c' r' = refVtreeVars c r

/-- Specification of the deep-copy element loop. -/
def DcElemsSpec (v fuel : ℕ) : Prop :=
  ∀ c els depth maxDepth c' els', MutInv c v →
    (∀ e ∈ els, ValidR c e.prime ∧ ValidR c e.sub) →
    dcElements fuel c els v depth maxDepth = .ok (c', els') →
    Pres v c c' ∧ (∀ e' ∈ els', ∃ e ∈ els, ElemDeriv c c' e e')

/-- Specification of `_deep_copy_element`. -/
def DcElemSpec (v fuel : ℕ) : Prop :=
  ∀ c el depth maxDepth c' el', MutInv c v →
    ValidR c el.prime → ValidR c el.sub →
    dcElement fuel c el v depth maxDepth = .ok (c', el') →
    Pres v c c' ∧ ElemDeriv c c' el el'

/-- Bool form of `ValidR`, decidable on concrete circuits. -/
def validRB (c : Circuit) : NodeRef → Bool
  | .term _ => true
  | .gate p => (c.gates[p]?).isSome

/-- Bool form of the terminal-layout condition at one index, decidable on
concrete circuits. -/
def flipOkB (c : Circuit) (i : ℕ) : Bool :=
  match c.terms[i]? with
  | none => true
  | some t =>
    t.varValue ||
      (((c.terms[c.numVariables + t.varIndex - 1]?).map (·.vtreeVars)) ==
        some t.vtreeVars)

/-- The element at address `(0, 0)` of `sharedGateCircuit`. -/
def c9TopElem : ArenaElem :=
  { prime := .term 0, sub := .gate 1, parameter := 1, splittable := [2, 3],
    flag := false }

/-- The state of `sharedGateCircuit` after the copy-and-modify walk of a
split of its element `(0, 0)` on variable 2 with depth budget 20: the
shared gate was deep-copied (arena positions 2 and 3), the copies were
walked, and all reference counts were maintained. -/
def c9Walked : Circuit :=
  { numVariables := 3,
    terms := [literalTerm 0 1 1 true 2, literalTerm 1 2 2 true 2,
              literalTerm 2 3 3 true 4,
              literalTerm 10 1 1 false 1, literalTerm 11 2 2 false 2,
              literalTerm 12 3 3 false 0],
    gates := [{ index := 20, vtreeIndex := 5, vtreeVars := [1, 2, 3],
                elements := [{ prime := .term 0, sub := .gate 1,
                               parameter := 1, splittable := [2, 3],
                               flag := false },
                             { prime := .term 3, sub := .gate 1,
                               parameter := 2, splittable := [2, 3],
                               flag := false }],
                numParents := 0 },
              { index := 21, vtreeIndex := 6, vtreeVars := [2, 3],
                elements := [{ prime := .term 1, sub := .term 2,
                               parameter := 3, splittable := [],
                               flag := false },
                             { prime := .term 4, sub := .term 2,
                               parameter := 4, splittable := [],
                               flag := false }],
                numParents := 1 },
              { index := 22, vtreeIndex := 6, vtreeVars := [2, 3],
                elements := [{ prime := .term 1, sub := .term 2,
                               parameter := 3, splittable := [],
                               flag := true }],
                numParents := 1 },
              { index := 23, vtreeIndex := 6, vtreeVars := [2, 3],
                elements := [{ prime := .term 4, sub := .term 2,
                               parameter := 4, splittable := [],
                               flag := false }],
                numParents := 1 }],
    root := 0, bias := [0], covariance := [], largestIndex := 23 }

/-- The retained original element of the concrete split: its splittable
set lost variable 2 and its sub child is the walked deep copy. -/
def c9Orig : ArenaElem :=
  { prime := .term 0, sub := .gate 2, parameter := 1, splittable := [3],
    flag := true }

/-- The copied sibling element of the concrete split. -/
def c9Copy : ArenaElem :=
  { prime := .term 0, sub := .gate 3, parameter := 1, splittable := [3],
    flag := false }

/-- The final circuit produced by the concrete split: the original is
written back at `(0, 0)` and the copy appended to the root gate. -/
def c9Final : Circuit :=
  modifyGateAt c9Walked 0 (fun g =>
    { g with elements := (g.elements.set 0 c9Orig) ++ [c9Copy] })

/-- The `PyTerminal` view of an arena terminal: exactly what `save` writes
for it and `load` reads back. -/
def toPyTerminal (t : ArenaTerm) : PyTerminal :=
  { index := t.index, vtreeIndex := t.vtreeIndex, varIndex := t.varIndex,
    varValue := t.varValue, parameter := t.parameter }

/-- The literal set `load` stores with a reloaded terminal. -/
def termLit (t : ArenaTerm) : List ℤ :=
  if t.varValue then [(t.varIndex : ℤ)] else [-(t.varIndex : ℤ)]

/-- The vtree index of the gate at an arena position. -/
def gateVtreeIdxAt (c : Circuit) (p : ℕ) : ℕ :=
  ((c.gates[p]?).map (·.vtreeIndex)).getD 0

/-- A two-variable vtree whose leaf indices match the terminal vtree
indices of `splitFailCircuit`. -/
def c6Vtree : PyVtree := .node 0 (.leaf 1 1) (.leaf 2 2)

/-! ## Sorting lemmas for the selection list -/

theorem pyInsert_length (lt : α → α → Bool) (a : α) (l : List α) :
    (pyInsert lt a l).length = l.length + 1 := by
  induction l with
  | nil => rfl
  | cons b bs ih =>
    unfold pyInsert
    by_cases h : lt b a = true
    · simp [h, ih]
    · simp [h]

theorem pySort_length (lt : α → α → Bool) (l : List α) :
    (pySort lt l).length = l.length := by
  induction l with
  | nil => rfl
  | cons a as ih => simp [pySort, pyInsert_length, ih]

theorem pyInsert_perm (lt : α → α → Bool) (a : α) (l : List α) :
    (pyInsert lt a l).Perm (a :: l) := by
  induction l with
  | nil => simp [pyInsert]
  | cons b bs ih =>
    unfold pyInsert
    by_cases h : lt b a = true
    · simp only [h, if_true]
      exact (ih.cons b).trans (List.Perm.swap a b bs)
    · simp [h]

theorem pySort_perm (lt : α → α → Bool) (l : List α) :
    (pySort lt l).Perm l := by
  induction l with
  | nil => simp [pySort]
  | cons a as ih =>
    exact (pyInsert_perm lt a (pySort lt as)).trans (ih.cons a)

theorem pyInsert_sorted_impLe (a : (SelElem × ℕ) × ℚ)
    (l : List ((SelElem × ℕ) × ℚ))
    (hl : l.Sorted (fun x y => x.2 ≤ y.2)) :
    (pyInsert impLt a l).Sorted (fun x y => x.2 ≤ y.2) := by
  induction l with
  | nil => simp [pyInsert]
  | cons b bs ih =>
    rw [List.sorted_cons] at hl
    unfold pyInsert
    by_cases h : impLt b a = true
    · simp only [h, if_true, List.sorted_cons]
      refine ⟨?_, ih hl.2⟩
      intro x hx
      rcases List.mem_cons.mp ((pyInsert_perm impLt a bs).mem_iff.mp hx) with
        hxa | hxbs
      · subst hxa
        exact le_of_lt (by simpa [impLt] using h)
      · exact hl.1 x hxbs
    · have hba : a.2 ≤ b.2 := by
        simpa [impLt, not_lt] using h
      have hfalse : impLt b a = false := by
        simpa using h
      simp only [hfalse, Bool.false_eq_true, if_false, List.sorted_cons]
      refine ⟨?_, hl⟩
      intro x hx
      rcases List.mem_cons.mp hx with hxb | hxbs
      · subst hxb; exact hba
      · exact hba.trans (hl.1 x hxbs)

theorem pySort_sorted_impLe (l : List ((SelElem × ℕ) × ℚ)) :
    (pySort impLt l).Sorted (fun x y => x.2 ≤ y.2) := by
  induction l with
  | nil => simp [pySort]
  | cons a as ih => exact pyInsert_sorted_impLe a _ ih

/-! ## Claims C1 and C2 -/

/-- C1: calling the split selector with `num_splits = 0` on a dataset where
one element qualifies for a split does not return an empty list — it
raises an `IndexError`: with `selected` empty and `len(selected) ==
num_splits`, line 359 evaluates `selected[0][1]` on the empty list.  The
claim that it always returns an empty list regardless of the data is
contradicted by this input. -/
theorem C1_numSplitsZero_raisesIndexError :
    selectElementAndVariableToSplit 1 [0, 0, 0, 0] [zeroSplitElem]
        zeroSplitData 0 0 =
      .error "IndexError: list index out of range" := by
  norm_num [selectElementAndVariableToSplit, selectLoop, candidateStep,
    updateSelected, bestVariableToSplit, afterSplitVariance,
    elementGradientVariance, elementGradients, predictQ, zeroSplitElem,
    zeroSplitData, pySort, pyInsert, dotQ, varQ, meanQ, transposeQ,
    impLt]

/-- C2 counterexample: when the cap (2) is exceeded by a strictly better
candidate (improvement -4), the list update of lines 358-362 evicts the
**best** current entry (improvement -3, the head of the ascending-sorted
list), not the worst (-2): the result keeps -2 and has lost -3, so it does
not consist of the best candidates encountered. -/
theorem C2_updateSelected_evictsBest_counterexample :
    updateSelected 2 [selBestEntry, selWorstEntry] selNewEntry =
        .ok [selNewEntry, selWorstEntry] ∧
      selBestEntry ∉ [selNewEntry, selWorstEntry] ∧
      selBestEntry.2 < selWorstEntry.2 := by
  refine ⟨?_, ?_, ?_⟩
  · norm_num [updateSelected, pySort, pyInsert, impLt, selBestEntry,
      selWorstEntry, selNewEntry]
  · norm_num [selBestEntry, selWorstEntry, selNewEntry, SelElem.mk.injEq]
  · norm_num [selBestEntry, selWorstEntry]

/-- C2 (amended): the selector maintains a list of at most `num_splits`
pairs sorted ascending by improvement; the head of the sorted list is the
best (most improving) entry; when the list is full, a new candidate is
admitted exactly when its improvement is strictly smaller than the head's,
and in that case the head — the best entry — is evicted: the result is a
sorted permutation of the previous entries minus the head plus the new
candidate, and the cap is maintained. -/
theorem C2_updateSelected_bounded_admitsOnlyBetterThanBest
    (s0 : (SelElem × ℕ) × ℚ) (rest : List ((SelElem × ℕ) × ℚ))
    (entry : (SelElem × ℕ) × ℚ)
    (hsorted : (s0 :: rest).Sorted (fun x y => x.2 ≤ y.2)) :
    (∀ x ∈ s0 :: rest, s0.2 ≤ x.2) ∧
      (entry.2 < s0.2 →
        updateSelected (s0 :: rest).length (s0 :: rest) entry =
          .ok (pySort impLt (rest ++ [entry])) ∧
        (pySort impLt (rest ++ [entry])).length = (s0 :: rest).length ∧
        (pySort impLt (rest ++ [entry])).Sorted (fun x y => x.2 ≤ y.2) ∧
        (pySort impLt (rest ++ [entry])).Perm (rest ++ [entry])) ∧
      (¬ entry.2 < s0.2 →
        updateSelected (s0 :: rest).length (s0 :: rest) entry =
          .ok (s0 :: rest)) := by
  rw [List.sorted_cons] at hsorted
  refine ⟨?_, ?_, ?_⟩
  · intro x hx
    rcases List.mem_cons.mp hx with hx0 | hxr
    · subst hx0; exact le_refl _
    · exact hsorted.1 x hxr
  · intro hlt
    refine ⟨?_, ?_, pySort_sorted_impLe _, pySort_perm _ _⟩
    · unfold updateSelected
      simp [hlt]
    · simp [pySort_length]
  · intro hge
    unfold updateSelected
    simp [hge]

/-- Witness for the amended C2 theorem at a concrete full list: the better
candidate (-6) is admitted and the best entry (-5) is evicted. -/
theorem C2_updateSelected_witness :
    updateSelected 2 [selBestEntry, selWorstEntry]
        (({ id := 13, splittable := [1] }, 1), -6) =
      .ok (pySort impLt ([selWorstEntry] ++
        [(({ id := 13, splittable := [1] }, 1), -6)])) := by
  exact (C2_updateSelected_bounded_admitsOnlyBetterThanBest selBestEntry
    [selWorstEntry] (({ id := 13, splittable := [1] }, 1), -6)
    (by decide)).2.1 (by norm_num [selBestEntry]) |>.1

/-! ## Lemmas about the load phases -/

theorem skipComments_cons_of_nonComment (l : SrcLine) (rest : List SrcLine)
    (h : isCommentLine l = false) :
    skipComments (l :: rest) = .ok (l :: rest) := by
  cases l
  case comment => simp [isCommentLine] at h
  all_goals rfl

theorem skipComments_eq_dropWhile (lines ac : List SrcLine)
    (h : skipComments lines = .ok ac) :
    ac = lines.dropWhile isCommentLine := by
  induction lines with
  | nil => simp [skipComments] at h
  | cons l rest ih =>
    cases hl : isCommentLine l
    · rw [skipComments_cons_of_nonComment l rest hl] at h
      rw [List.dropWhile_cons_of_neg (by simp [hl])]
      exact (Except.ok.injEq _ _ ▸ h).symm
    · have hc : l = SrcLine.comment := by
        cases l <;> simp_all [isCommentLine]
      subst hc
      rw [List.dropWhile_cons_of_pos (by simp [isCommentLine])]
      exact ih h

theorem insertReplace_keys_toFinset (l : List (ℕ × α)) (k : ℕ) (v : α) :
    ((insertReplace l k v).map Prod.fst).toFinset =
      insert k (l.map Prod.fst).toFinset := by
  induction l with
  | nil => simp [insertReplace]
  | cons kv rest ih =>
    by_cases hk : kv.1 = k
    · simp [insertReplace, hk]
    · simp only [insertReplace, hk, if_false]
      simp only [List.map_cons, List.toFinset_cons, ih]
      rw [Finset.Insert.comm]

theorem insertReplace_keys_nodup (l : List (ℕ × α)) (k : ℕ) (v : α)
    (h : (l.map Prod.fst).Nodup) :
    ((insertReplace l k v).map Prod.fst).Nodup := by
  induction l with
  | nil => simp [insertReplace]
  | cons kv rest ih =>
    simp only [List.map_cons, List.nodup_cons] at h
    by_cases hk : kv.1 = k
    · simp only [insertReplace, hk, if_true, List.map_cons, List.nodup_cons]
      exact ⟨hk ▸ h.1, h.2⟩
    · simp only [insertReplace, hk, if_false, List.map_cons, List.nodup_cons]
      refine ⟨?_, ih h.2⟩
      intro hmem
      have := List.mem_toFinset.mpr hmem
      rw [insertReplace_keys_toFinset] at this
      rcases Finset.mem_insert.mp this with h1 | h2
      · exact hk h1
      · exact h.1 (List.mem_toFinset.mp h2)

theorem parseTerminals_spec (vtn : List (ℕ × PyVtree)) (lines : List SrcLine)
    (acc dict : List (ℕ × (PyTerminal × List ℤ))) (rest : List SrcLine)
    (h : parseTerminals vtn lines acc = .ok (dict, rest)) :
    (dict.map Prod.fst).toFinset =
        (acc.map Prod.fst).toFinset ∪
          ((lines.takeWhile isTFLine).map tfLineIndex).toFinset ∧
      ((acc.map Prod.fst).Nodup → (dict.map Prod.fst).Nodup) ∧
      rest = lines.dropWhile isTFLine := by
  induction lines generalizing acc with
  | nil => simp [parseTerminals] at h
  | cons l tl ih =>
    cases l with
    | T idx vidx var p =>
      simp only [parseTerminals] at h
      cases hv : lookupAssoc vtn vidx with
      | none => rw [hv] at h; simp at h
      | some x =>
        rw [hv] at h
        obtain ⟨h1, h2, h3⟩ := ih _ h
        refine ⟨?_, ?_, ?_⟩
        · rw [h1, insertReplace_keys_toFinset]
          rw [List.takeWhile_cons_of_pos (by simp [isTFLine])]
          simp only [List.map_cons, List.toFinset_cons, tfLineIndex]
          rw [Finset.insert_union, Finset.union_insert]
        · intro hnd
          exact h2 (insertReplace_keys_nodup _ _ _ hnd)
        · rw [h3, List.dropWhile_cons_of_pos (by simp [isTFLine])]
    | F idx vidx var p =>
      simp only [parseTerminals] at h
      cases hv : lookupAssoc vtn vidx with
      | none => rw [hv] at h; simp at h
      | some x =>
        rw [hv] at h
        obtain ⟨h1, h2, h3⟩ := ih _ h
        refine ⟨?_, ?_, ?_⟩
        · rw [h1, insertReplace_keys_toFinset]
          rw [List.takeWhile_cons_of_pos (by simp [isTFLine])]
          simp only [List.map_cons, List.toFinset_cons, tfLineIndex]
          rw [Finset.insert_union, Finset.union_insert]
        · intro hnd
          exact h2 (insertReplace_keys_nodup _ _ _ hnd)
        · rw [h3, List.dropWhile_cons_of_pos (by simp [isTFLine])]
    | comment =>
      simp only [parseTerminals, Except.ok.injEq, Prod.mk.injEq] at h
      refine ⟨?_, fun hnd => h.1 ▸ hnd, ?_⟩
      · rw [List.takeWhile_cons_of_neg (by simp [isTFLine])]
        simp [h.1]
      · rw [List.dropWhile_cons_of_neg (by simp [isTFLine])]
        exact h.2.symm
    | D idx vidx n es =>
      simp only [parseTerminals, Except.ok.injEq, Prod.mk.injEq] at h
      refine ⟨?_, fun hnd => h.1 ▸ hnd, ?_⟩
      · rw [List.takeWhile_cons_of_neg (by simp [isTFLine])]
        simp [h.1]
      · rw [List.dropWhile_cons_of_neg (by simp [isTFLine])]
        exact h.2.symm
    | B ps =>
      simp only [parseTerminals, Except.ok.injEq, Prod.mk.injEq] at h
      refine ⟨?_, fun hnd => h.1 ▸ hnd, ?_⟩
      · rw [List.takeWhile_cons_of_neg (by simp [isTFLine])]
        simp [h.1]
      · rw [List.dropWhile_cons_of_neg (by simp [isTFLine])]
        exact h.2.symm
    | V vs =>
      simp only [parseTerminals, Except.ok.injEq, Prod.mk.injEq] at h
      refine ⟨?_, fun hnd => h.1 ▸ hnd, ?_⟩
      · rw [List.takeWhile_cons_of_neg (by simp [isTFLine])]
        simp [h.1]
      · rw [List.dropWhile_cons_of_neg (by simp [isTFLine])]
        exact h.2.symm
    | other =>
      simp only [parseTerminals, Except.ok.injEq, Prod.mk.injEq] at h
      refine ⟨?_, fun hnd => h.1 ▸ hnd, ?_⟩
      · rw [List.takeWhile_cons_of_neg (by simp [isTFLine])]
        simp [h.1]
      · rw [List.dropWhile_cons_of_neg (by simp [isTFLine])]
        exact h.2.symm

theorem parseDecisions_first_line_isD (vtn : List (ℕ × PyVtree))
    (lines : List SrcLine) (nodes : List (ℕ × (LoadedNode × List ℤ)))
    (gates : List LoadedGate) (out : (List (ℕ × (LoadedNode × List ℤ))) ×
      List LoadedGate × Option ℕ × List SrcLine) (p : ℕ)
    (h : parseDecisions vtn lines nodes gates none = .ok out)
    (hroot : out.2.2.1 = some p) :
    isDLine (lines.headD .other) = true := by
  cases lines with
  | nil => simp [parseDecisions] at h
  | cons l tl =>
    cases l with
    | D idx vidx n es => rfl
    | comment =>
      simp only [parseDecisions, Except.ok.injEq] at h
      rw [← h] at hroot
      simp at hroot
    | T i v w q =>
      simp only [parseDecisions, Except.ok.injEq] at h
      rw [← h] at hroot
      simp at hroot
    | F i v w q =>
      simp only [parseDecisions, Except.ok.injEq] at h
      rw [← h] at hroot
      simp at hroot
    | B ps =>
      simp only [parseDecisions, Except.ok.injEq] at h
      rw [← h] at hroot
      simp at hroot
    | V vs =>
      simp only [parseDecisions, Except.ok.injEq] at h
      rw [← h] at hroot
      simp at hroot
    | other =>
      simp only [parseDecisions, Except.ok.injEq] at h
      rw [← h] at hroot
      simp at hroot

/-! ## Claim C10 -/

/-- C10: after skipping the leading comment lines, `load` reads the next
line and discards it without inspecting it (line 640 overwrites `line`
before any use): replacing the first non-comment line of the file — the
expected `Regression Circuit` header — by any other non-comment line,
including a terminal line, leaves the result of `load` unchanged, so a
file that omits the header has its first terminal line silently consumed
as the header. -/
theorem C10_load_discards_header_line_unvalidated (vt : PyVtree)
    (l l' : SrcLine) (rest : List SrcLine)
    (h : isCommentLine l = false) (h' : isCommentLine l' = false) :
    loadLines vt (l :: rest) = loadLines vt (l' :: rest) := by
  unfold loadLines loadUpToBias
  rw [skipComments_cons_of_nonComment l rest h,
    skipComments_cons_of_nonComment l' rest h']
  rfl

/-- Witness: swapping the header line for a terminal line (the first
terminal of a header-less file) gives the same load result. -/
theorem C10_load_discards_header_witness :
    loadLines exampleLeafVtree
        (SrcLine.T 5 0 1 1 ::
          [SrcLine.F 1 0 1 0, SrcLine.D 2 0 1 [(0, 1, 1)], SrcLine.B [1]]) =
      loadLines exampleLeafVtree
        (SrcLine.other ::
          [SrcLine.F 1 0 1 0, SrcLine.D 2 0 1 [(0, 1, 1)], SrcLine.B [1]]) := by
  exact C10_load_discards_header_line_unvalidated exampleLeafVtree
    (SrcLine.T 5 0 1 1) SrcLine.other
    [SrcLine.F 1 0 1 0, SrcLine.D 2 0 1 [(0, 1, 1)], SrcLine.B [1]]
    (by decide) (by decide)

/-! ## Claim C4 -/

/-- C4 counterexample: a file with three terminal lines (3 ≠ 2 ×
num_variables = 2), two of which share node index 0, loads successfully:
the terminal dictionary is keyed by index, so the duplicate overwrites the
first entry and the count check at line 666 sees exactly two terminals.
The claim that load fails whenever the number of terminal lines differs
from `2 × num_variables` is therefore false. -/
theorem C4_terminal_count_counterexample :
    countTerminalLines dupTerminalFile = 3 ∧
      2 * exampleLeafVtree.varCount = 2 ∧
      (loadLines exampleLeafVtree dupTerminalFile).isOk = true := by
  refine ⟨by decide, by decide, by decide⟩

/-- C4 (amended): `load` succeeds only when the number of **distinct node
indices** among the leading terminal (`T`/`F`) lines equals `2 ×
num_variables` of the bound vtree (duplicate indices collapse in the
dictionary keyed by index, so duplicated lines are not counted), and only
when the line following the terminal section is a decision (`D`) line (in
particular a file with zero decision lines fails with an error, and no
circuit root is produced in either failure). -/
theorem C4_load_checks_distinct_terminal_indices_and_root (vt : PyVtree)
    (lines : List SrcLine) (h : (loadLines vt lines).isOk = true) :
    ((((fileBody lines).takeWhile isTFLine).map tfLineIndex).toFinset.card =
        2 * vt.varCount) ∧
      isDLine (((fileBody lines).dropWhile isTFLine).headD .other) = true := by
  unfold loadLines at h
  cases hup : loadUpToBias vt lines with
  | error e => rw [hup] at h; simp [Except.isOk, Except.toBool] at h
  | ok out =>
    obtain ⟨⟨terms, gates, rootPos, bias⟩, rest⟩ := out
    clear h
    unfold loadUpToBias at hup
    cases hsc : skipComments lines with
    | error e => rw [hsc] at hup; simp at hup
    | ok ac =>
      rw [hsc] at hup
      simp only at hup
      cases hpt : parseTerminals (collectVtreeNodes vt.size [vt] []) ac.tail []
        with
      | error e => rw [hpt] at hup; simp at hup
      | ok tout =>
        obtain ⟨termDict, rest1⟩ := tout
        rw [hpt] at hup
        simp only at hup
        by_cases hlen :
            (pySort termSortLt (termDict.map (fun kv => kv.2.1))).length =
              2 * vt.varCount
        · rw [if_pos hlen] at hup
          obtain ⟨hkeys, hnodup, hrest⟩ := parseTerminals_spec _ _ _ _ _ hpt
          have hbody : ac.tail = fileBody lines := by
            rw [skipComments_eq_dropWhile lines ac hsc]; rfl
          have hcard :
              (((fileBody lines).takeWhile isTFLine).map
                  tfLineIndex).toFinset.card = 2 * vt.varCount := by
            rw [← hbody]
            have hdictlen : termDict.length =
                ((ac.tail.takeWhile isTFLine).map tfLineIndex).toFinset.card := by
              have hnd : (termDict.map Prod.fst).Nodup := hnodup (by simp)
              have hcardkeys : (termDict.map Prod.fst).toFinset.card =
                  termDict.length := by
                rw [List.toFinset_card_of_nodup hnd, List.length_map]
              rw [← hcardkeys, hkeys]
              simp
            rw [← hdictlen, ← hlen, pySort_length, List.length_map]
          refine ⟨hcard, ?_⟩
          cases hpd : parseDecisions (collectVtreeNodes vt.size [vt] []) rest1
              (termDict.map (fun kv => (kv.1, (LoadedNode.term kv.2.1, kv.2.2))))
              [] none with
          | error e => rw [hpd] at hup; simp at hup
          | ok dout =>
            obtain ⟨nodes2, gates2, rootOpt, rest2⟩ := dout
            rw [hpd] at hup
            simp only at hup
            cases rootOpt with
            | none => simp at hup
            | some rp =>
              have hD := parseDecisions_first_line_isD _ _ _ _ _ rp hpd rfl
              rw [← hbody, ← hrest]
              exact hD
        · rw [if_neg hlen] at hup
          simp at hup

/-- Witness for the amended C4 theorem on a well-formed one-variable file:
two distinct terminal indices and a decision line right after the
terminal section. -/
theorem C4_load_checks_witness :
    ((((fileBody goodCircuitFile).takeWhile isTFLine).map
          tfLineIndex).toFinset.card =
        2 * exampleLeafVtree.varCount) ∧
      isDLine (((fileBody goodCircuitFile).dropWhile isTFLine).headD
          .other) = true := by
  exact C4_load_checks_distinct_terminal_indices_and_root exampleLeafVtree
    goodCircuitFile (by decide)

/-! ## Claim C5 -/

theorem sqrt_three_eq : Nat.sqrt 3 = 1 := by
  norm_num

theorem sqrt_four_eq : Nat.sqrt 4 = 2 := by
  norm_num

theorem isSquare_three : isSquare ([1, 2, 3] : List ℚ).length = false := by
  show isSquare 3 = false
  simp [isSquare, sqrt_three_eq]

theorem isSquare_four : isSquare ([1, 2, 3, 4] : List ℚ).length = true := by
  show isSquare 4 = true
  simp [isSquare, sqrt_four_eq]

theorem chunkRows_spec (k : ℕ) (hk : 0 < k) :
    ∀ (m fuel : ℕ) (l : List ℚ), l.length = k * m → l.length ≤ fuel →
      (chunkRows fuel k l).length = m ∧
        (∀ row ∈ chunkRows fuel k l, row.length = k) ∧
        (chunkRows fuel k l).flatten = l := by
  intro m
  induction m with
  | zero =>
    intro fuel l hl _
    have : l = [] := List.length_eq_zero.mp (by simpa using hl)
    subst this
    cases fuel <;> simp [chunkRows]
  | succ m ih =>
    intro fuel l hl hfuel
    have hkl : k ≤ l.length := by
      rw [hl, Nat.mul_succ]; omega
    have hlpos : 0 < l.length := lt_of_lt_of_le hk hkl
    obtain ⟨x, xs, rfl⟩ : ∃ x xs, l = x :: xs := by
      cases l with
      | nil => simp at hlpos
      | cons x xs => exact ⟨x, xs, rfl⟩
    obtain ⟨f, rfl⟩ : ∃ f, fuel = f + 1 := by
      cases fuel with
      | zero => omega
      | succ f => exact ⟨f, rfl⟩
    have hstep : chunkRows (f + 1) k (x :: xs) =
        (x :: xs).take k :: chunkRows f k ((x :: xs).drop k) := rfl
    have hdroplen : ((x :: xs).drop k).length = k * m := by
      rw [List.length_drop, hl, Nat.mul_succ]; omega
    have hdropfuel : ((x :: xs).drop k).length ≤ f := by
      rw [List.length_drop]; omega
    obtain ⟨ihlen, ihrows, ihjoin⟩ := ih f _ hdroplen hdropfuel
    refine ⟨?_, ?_, ?_⟩
    · rw [hstep]; simp [ihlen]
    · intro row hrow
      rw [hstep] at hrow
      rcases List.mem_cons.mp hrow with h1 | h2
      · subst h1
        rw [List.length_take]
        omega
      · exact ihrows row h2
    · rw [hstep]
      simp only [List.flatten_cons, ihjoin]
      exact List.take_append_drop k (x :: xs)

/-- C5: the covariance phase of `load` never fails — once the bias line is
reached, `load` returns successfully with the covariances produced by the
`V`-loop — and that loop skips a `V` line whose value count is not a
perfect square while still processing the following lines, and stores each
well-formed `V` line with `k²` values as a `k × k` row-major matrix. -/
theorem C5_malformed_covariance_skipped (vt : PyVtree)
    (lines : List SrcLine)
    (core : List PyTerminal × List LoadedGate × ℕ × List ℚ)
    (rest vrest : List SrcLine) (bad good : List ℚ)
    (hbad : isSquare bad.length = false)
    (hgood : isSquare good.length = true) :
    (loadUpToBias vt lines = .ok (core, rest) →
      loadLines vt lines =
        .ok { terminalNodes := core.1, gates := core.2.1,
              rootPos := core.2.2.1, bias := core.2.2.2,
              covariance := parseCovariances rest }) ∧
      parseCovariances (.V bad :: vrest) = parseCovariances vrest ∧
      parseCovariances (.V good :: vrest) =
        reshapeSquare good :: parseCovariances vrest ∧
      (reshapeSquare good).length = Nat.sqrt good.length ∧
      (∀ row ∈ reshapeSquare good, row.length = Nat.sqrt good.length) ∧
      (reshapeSquare good).flatten = good := by
  obtain ⟨terms, gates, rootPos, bias⟩ := core
  have hsq : Nat.sqrt good.length * Nat.sqrt good.length = good.length := by
    simpa [isSquare] using hgood
  have hreshape : (reshapeSquare good).length = Nat.sqrt good.length ∧
      (∀ row ∈ reshapeSquare good, row.length = Nat.sqrt good.length) ∧
      (reshapeSquare good).flatten = good := by
    by_cases h0 : good.length = 0
    · have : good = [] := List.length_eq_zero.mp h0
      subst this
      simp [reshapeSquare, chunkRows]
    · have hk : 0 < Nat.sqrt good.length := by
        rcases Nat.eq_zero_or_pos (Nat.sqrt good.length) with hz | hp
        · rw [hz] at hsq; omega
        · exact hp
      exact chunkRows_spec (Nat.sqrt good.length) hk (Nat.sqrt good.length)
        good.length good hsq.symm le_rfl
  refine ⟨?_, ?_, ?_, hreshape.1, hreshape.2.1, hreshape.2.2⟩
  · intro h
    unfold loadLines
    rw [h]
  · simp [parseCovariances, hbad]
  · simp [parseCovariances, hgood]

/-- Witness for C5: the malformed `V` line with 3 values is skipped while
the following well-formed one is processed; 4 values become a 2×2 matrix. -/
theorem C5_malformed_covariance_witness :
    parseCovariances [SrcLine.V [1, 2, 3], SrcLine.V [1, 2, 3, 4]] =
        parseCovariances [SrcLine.V [1, 2, 3, 4]] ∧
      parseCovariances (SrcLine.V [1, 2, 3, 4] :: [SrcLine.V [1, 2, 3, 4]]) =
        reshapeSquare [1, 2, 3, 4] ::
          parseCovariances [SrcLine.V [1, 2, 3, 4]] := by
  have h := C5_malformed_covariance_skipped exampleLeafVtree []
    ([], [], 0, []) [] [SrcLine.V [1, 2, 3, 4]] [1, 2, 3] [1, 2, 3, 4]
    isSquare_three isSquare_four
  exact ⟨h.2.1, h.2.2.1⟩

/-! ## Claim C3 -/

/-- C3 counterexample: splitting the element `(+1, +2)` of
`splitFailCircuit` on variable 1 leaves the retained original element
intact (`some`) while only the copied element collapses (`none`) —
i.e. **not** both sides are empty — yet `_split` raises
`ValueError: Split elements become invalid.`: the check at line 378 fires
when *either* side is `None`, not only when both are. -/
theorem C3_split_raises_with_valid_original_counterexample :
    (cmElement 100 splitFailCircuit splitFailElem 1 0 0).map
        (fun r => (r.2.1.isSome, r.2.2.isSome)) = .ok (true, false) ∧
      splitElement splitFailCircuit (0, 0) 1 0 100 =
        .error "ValueError: Split elements become invalid." := by
  refine ⟨by rfl, by rfl⟩

/-- C3 (amended): `_split` fails exactly when **either** the retained
original element or the copied element of the duplication walk is empty
(not only when both are), and `change_structure` does not catch the
failure: a raised split error aborts the loop, so the remaining candidate
splits of the round are not applied. -/
theorem C3_split_either_empty_raises_and_aborts_round (c : Circuit)
    (loc : ℕ × ℕ) (v depth fuel : ℕ) (el : ArenaElem)
    (out : Circuit × Option ArenaElem × Option ArenaElem)
    (hel : getElem c loc = some el)
    (hflag : el.flag = false)
    (hcm : cmElement fuel c el v 0 depth = .ok out) :
    ((∃ e, splitElement c loc v depth fuel = .error e) ↔
        (out.2.1 = none ∨ out.2.2 = none)) ∧
      ∀ msg rest, splitElement c loc v depth fuel = .error msg →
        applySplits c ((loc, v) :: rest) depth fuel = .error msg := by
  obtain ⟨c1, origEl, copiedEl⟩ := out
  have hsplit : splitElement c loc v depth fuel =
      match origEl, copiedEl with
      | some oe, some ce =>
        .ok (modifyGateAt c1 loc.1 (fun g =>
          { g with elements := (g.elements.set loc.2 oe) ++ [ce] }))
      | _, _ => .error "ValueError: Split elements become invalid." := by
    unfold splitElement
    rw [hel]
    simp only [hcm]
    cases origEl <;> cases copiedEl <;> rfl
  constructor
  · constructor
    · intro ⟨e, he⟩
      cases origEl with
      | none => exact Or.inl rfl
      | some oe =>
        cases copiedEl with
        | none => exact Or.inr rfl
        | some ce =>
          rw [hsplit] at he
          simp at he
    · intro hor
      cases origEl with
      | none => exact ⟨_, by rw [hsplit]⟩
      | some oe =>
        cases copiedEl with
        | none => exact ⟨_, by rw [hsplit]⟩
        | some ce =>
          rcases hor with h1 | h1 <;> simp at h1
  · intro msg rest herr
    unfold applySplits
    rw [hel]
    simp only [Option.map_some', Option.getD_some, hflag, Bool.false_eq_true,
      if_false, herr]

/-- Witness for the amended C3 theorem: a round with two candidate splits
whose first split fails aborts, leaving the second candidate unapplied —
the loop returns the propagated `ValueError`. -/
theorem C3_split_aborts_round_witness :
    applySplits splitFailCircuit [((0, 0), 1), ((0, 0), 1)] 0 100 =
      .error "ValueError: Split elements become invalid." := by
  exact (C3_split_either_empty_raises_and_aborts_round splitFailCircuit
    (0, 0) 1 0 100 splitFailElem
    (splitFailCircuit,
      some { prime := .term 0, sub := .term 1, parameter := 1,
             splittable := [], flag := true }, none)
    (by rfl) (by rfl) (by rfl)).2
    "ValueError: Split elements become invalid." [((0, 0), 1)] (by rfl)

/-! ## Claims C7 and C8 -/

theorem transposeQ_length (m : List (List ℚ)) :
    (transposeQ m).length = (m.head?.map List.length).getD 0 := by
  simp [transposeQ]

theorem transposeQ_row_length (m : List (List ℚ)) (row : List ℚ)
    (h : row ∈ transposeQ m) : row.length = m.length := by
  unfold transposeQ at h
  obtain ⟨j, _, rfl⟩ := List.mem_map.mp h
  simp

theorem transposeQ_getD (m : List (List ℚ)) (i : ℕ)
    (h : i < (m.head?.map List.length).getD 0) :
    (transposeQ m).getD i [] = m.map (fun col => col.getD i 0) := by
  unfold transposeQ
  rw [List.getD_eq_getElem?_getD, List.getElem?_map, List.getElem?_range h]
  rfl

/-- C7: `calculate_features(X)` returns one row per input row, each of
width `1 + 2·num_variables + |elements|`; the columns are ordered bias
first (the constant 1), then the terminals in terminal-array order, then
the elements in traversal order — the same order in which `_serialize`
lays out the flattened `parameters` row (bias, terminal parameters in
terminal-array order, element parameters in traversal order). -/
theorem C7_feature_width_and_column_order (c : Circuit)
    (images : List (List ℚ))
    (hterms : c.terms.length = 2 * c.numVariables) :
    (calculateFeatures c images).1.length = images.length ∧
      (∀ row ∈ (calculateFeatures c images).1,
        row.length = 1 + 2 * c.numVariables + (serializeElements c).length) ∧
      parametersVec c =
        c.bias ++ c.terms.map (·.parameter) ++
          (serializeElements c).map (elemParam c) ∧
      ∀ i, i < images.length →
        (calculateFeatures c images).1.getD i [] =
          1 :: ((List.range c.terms.length).map (fun k =>
              (termFeatureValue (featureBuffers c images) images.length
                k).getD i 0) ++
            (serializeElements c).map (fun pe =>
              (elemFeatureValue (featureBuffers c images) images.length
                pe).getD i 0)) := by
  have hhead : ((featureColumns c images).head?.map List.length).getD 0 =
      images.length := by
    simp [featureColumns]
  refine ⟨?_, ?_, rfl, ?_⟩
  · show (transposeQ (featureColumns c images)).length = images.length
    rw [transposeQ_length, hhead]
  · intro row hrow
    have h1 : row.length = (featureColumns c images).length :=
      transposeQ_row_length _ _ hrow
    rw [h1]
    simp [featureColumns, hterms]
    ring
  · intro i hi
    show (transposeQ (featureColumns c images)).getD i [] = _
    rw [transposeQ_getD _ i (by rw [hhead]; exact hi)]
    unfold featureColumns
    simp only [List.map_cons, List.map_append, List.map_map]
    congr 1
    rw [List.getD_eq_getElem?_getD, List.getElem?_replicate_of_lt hi]
    rfl

/-- Witness for C7 on the concrete three-variable circuit and two-row
input batch. -/
theorem C7_feature_width_witness :
    (calculateFeatures sharedGateCircuit featImages).1.length =
        featImages.length ∧
      (∀ row ∈ (calculateFeatures sharedGateCircuit featImages).1,
        row.length = 1 + 2 * sharedGateCircuit.numVariables +
          (serializeElements sharedGateCircuit).length) ∧
      parametersVec sharedGateCircuit =
        sharedGateCircuit.bias ++
          sharedGateCircuit.terms.map (·.parameter) ++
          (serializeElements sharedGateCircuit).map
            (elemParam sharedGateCircuit) ∧
      ∀ i, i < featImages.length →
        (calculateFeatures sharedGateCircuit featImages).1.getD i [] =
          1 :: ((List.range sharedGateCircuit.terms.length).map (fun k =>
              (termFeatureValue (featureBuffers sharedGateCircuit featImages)
                featImages.length k).getD i 0) ++
            (serializeElements sharedGateCircuit).map (fun pe =>
              (elemFeatureValue (featureBuffers sharedGateCircuit featImages)
                featImages.length pe).getD i 0)) := by
  exact C7_feature_width_and_column_order sharedGateCircuit featImages
    (by rfl)

/-- C8 counterexample: after `calculate_features` on the concrete
three-variable circuit, the root OR-gate still holds its per-row feature
buffer (set at line 265) and an inner OR-gate still holds its per-row
probability buffer: the cleanup at lines 274-279 visits terminals and
AND-elements only, so OR-gate scratch buffers are retained, contradicting
the claim that no node keeps a buffer. -/
theorem C8_gate_buffers_retained_counterexample :
    ((calculateFeatures sharedGateCircuit featImages).2.gateFeature.getD 0
        none).isSome = true ∧
      ((calculateFeatures sharedGateCircuit featImages).2.gateProb.getD 1
        none).isSome = true ∧
      ((calculateFeatures sharedGateCircuit
        featImages).2.termFeature.getD 0 none).isSome = false := by
  refine ⟨by rfl, by rfl, by rfl⟩

theorem clearElemAt_self (eb : List (List (Option (List ℚ))))
    (pe : ℕ × ℕ) :
    ((clearElemAt eb pe).getD pe.1 []).getD pe.2 none = none := by
  obtain ⟨p1, p2⟩ := pe
  unfold clearElemAt
  simp only [List.getD_eq_getElem?_getD, List.getElem?_set,
    eq_self_iff_true, if_true]
  by_cases h1 : p1 < eb.length
  · simp only [h1, if_true, Option.getD_some]
    by_cases h2 : p2 < (eb[p1]?.getD []).length
    · simp [h2]
    · rw [List.getElem?_eq_none (by simpa using Nat.le_of_not_lt h2)]
      · rfl
  · simp only [h1, if_false]
    have : (eb[p1]?).getD [] = ([] : List (Option (List ℚ))) := by
      rw [List.getElem?_eq_none (Nat.le_of_not_lt (by simpa using h1))]
      rfl
    simp [this]

theorem clearElemAt_preserve (eb : List (List (Option (List ℚ))))
    (pe q : ℕ × ℕ)
    (h : (eb.getD q.1 []).getD q.2 none = none) :
    ((clearElemAt eb pe).getD q.1 []).getD q.2 none = none := by
  obtain ⟨p1, p2⟩ := pe
  obtain ⟨q1, q2⟩ := q
  simp only at h ⊢
  unfold clearElemAt
  simp only [List.getD_eq_getElem?_getD, List.getElem?_set] at h ⊢
  by_cases h1 : p1 = q1
  · subst h1
    simp only [eq_self_iff_true, if_true]
    by_cases hb : p1 < eb.length
    · simp only [hb, if_true, Option.getD_some]
      by_cases h2 : p2 = q2
      · subst h2
        by_cases h3 : p2 < (eb[p1]?.getD []).length
        · simp [h3]
        · rw [List.getElem?_eq_none (by simpa using Nat.le_of_not_lt h3)]
          rfl
      · rw [List.getElem?_set_ne h2]
        exact h
    · simp only [hb, if_false]
      rfl
  · simp only [h1, if_false]
    exact h

theorem foldClear_preserve (l : List (ℕ × ℕ))
    (eb : List (List (Option (List ℚ)))) (q : ℕ × ℕ)
    (h : (eb.getD q.1 []).getD q.2 none = none) :
    ((l.foldl clearElemAt eb).getD q.1 []).getD q.2 none = none := by
  induction l generalizing eb with
  | nil => exact h
  | cons p ps ih => exact ih _ (clearElemAt_preserve eb p q h)

theorem foldClear_mem (l : List (ℕ × ℕ))
    (eb : List (List (Option (List ℚ)))) (pe : ℕ × ℕ) (hpe : pe ∈ l) :
    ((l.foldl clearElemAt eb).getD pe.1 []).getD pe.2 none = none := by
  induction l generalizing eb with
  | nil => simp at hpe
  | cons p ps ih =>
    rcases List.mem_cons.mp hpe with h1 | h1
    · subst h1
      exact foldClear_preserve ps _ pe (clearElemAt_self eb pe)
    · exact ih _ h1

theorem gateCalcProb_gateFeature (c : Circuit) (rows : ℕ)
    (b : FeatBuffers) (p : ℕ) :
    (gateCalcProb c rows b p).gateFeature = b.gateFeature := by
  unfold gateCalcProb
  cases c.gates[p]? <;> rfl

theorem foldProb_gateFeature (c : Circuit) (rows : ℕ) (l : List ℕ)
    (b : FeatBuffers) :
    (l.foldl (gateCalcProb c rows) b).gateFeature = b.gateFeature := by
  induction l generalizing b with
  | nil => rfl
  | cons p ps ih => rw [List.foldl_cons, ih, gateCalcProb_gateFeature]

theorem isSome_getD_set_some (l : List (Option (List ℚ))) (q r : ℕ)
    (x : List ℚ) (h : (l.getD r none).isSome = true) :
    ((l.set q (some x)).getD r none).isSome = true := by
  by_cases hq : q = r
  · subst hq
    by_cases hb : q < l.length
    · rw [List.getD_eq_getElem?_getD, List.getElem?_set_self hb]
      rfl
    · rw [List.set_eq_of_length_le (by omega)]
      exact h
  · rw [List.getD_eq_getElem?_getD, List.getElem?_set_ne (by omega)]
    rw [List.getD_eq_getElem?_getD] at h
    exact h

theorem refAddFeature_root_isSome (b : FeatBuffers) (rows : ℕ)
    (ef : List ℚ) (r : NodeRef) (root : ℕ)
    (h : (b.gateFeature.getD root none).isSome = true) :
    ((refAddFeature b rows ef r).gateFeature.getD root none).isSome =
      true := by
  cases r with
  | term i => exact h
  | gate p => exact isSome_getD_set_some _ p root _ h

theorem gateCalcFeatureStep_root_isSome (rows p : ℕ) (g : ArenaGate)
    (b : FeatBuffers) (i root : ℕ)
    (h : (b.gateFeature.getD root none).isSome = true) :
    ((gateCalcFeatureStep rows p g b i).gateFeature.getD root
      none).isSome = true := by
  unfold gateCalcFeatureStep
  cases hge : g.elements[i]? with
  | none => simp only [hge]; exact h
  | some e =>
    simp only [hge]
    exact refAddFeature_root_isSome _ _ _ _ _
      (refAddFeature_root_isSome _ _ _ _ _ h)

theorem gateCalcFeature_root_isSome (c : Circuit) (rows : ℕ)
    (b : FeatBuffers) (p root : ℕ)
    (h : (b.gateFeature.getD root none).isSome = true) :
    ((gateCalcFeature c rows b p).gateFeature.getD root none).isSome =
      true := by
  unfold gateCalcFeature
  cases hgp : c.gates[p]? with
  | none => simp only [hgp]; exact h
  | some g =>
    simp only [hgp]
    generalize List.range g.elements.length = l
    induction l generalizing b with
    | nil => exact h
    | cons i is ih =>
      exact ih _ (gateCalcFeatureStep_root_isSome rows p g b i root h)

theorem foldFeature_root_isSome (c : Circuit) (rows : ℕ) (l : List ℕ)
    (b : FeatBuffers) (root : ℕ)
    (h : (b.gateFeature.getD root none).isSome = true) :
    ((l.foldl (gateCalcFeature c rows) b).gateFeature.getD root
      none).isSome = true := by
  induction l generalizing b with
  | nil => exact h
  | cons p ps ih => exact ih _ (gateCalcFeature_root_isSome c rows b p root h)

/-- C8 (amended): after `calculate_features` returns, the terminal and
AND-element scratch buffers are discarded (every terminal probability and
feature buffer, and the probability and feature buffers of every element
of the traversal), but the OR-gate buffers are **not**: in particular the
root gate still holds its per-row feature buffer. -/
theorem C8_cleanup_clears_terminals_and_elements_only (c : Circuit)
    (images : List (List ℚ)) (hroot : c.root < c.gates.length) :
    (∀ i, (calculateFeatures c images).2.termProb.getD i none = none) ∧
      (∀ i, (calculateFeatures c images).2.termFeature.getD i none = none) ∧
      (∀ pe ∈ serializeElements c,
        ((calculateFeatures c images).2.elemFeature.getD pe.1 []).getD
            pe.2 none = none ∧
          ((calculateFeatures c images).2.elemProb.getD pe.1 []).getD
            pe.2 none = none) ∧
      ((calculateFeatures c images).2.gateFeature.getD c.root
        none).isSome = true := by
  refine ⟨?_, ?_, ?_, ?_⟩
  · intro i
    show (List.replicate c.terms.length none).getD i none = none
    rw [List.getD_eq_getElem?_getD, List.getElem?_replicate]
    split <;> rfl
  · intro i
    show (List.replicate c.terms.length none).getD i none = none
    rw [List.getD_eq_getElem?_getD, List.getElem?_replicate]
    split <;> rfl
  · intro pe hpe
    exact ⟨foldClear_mem _ _ pe hpe, foldClear_mem _ _ pe hpe⟩
  · have key : ∀ b1f : List (Option (List ℚ)),
        b1f = List.replicate c.gates.length none →
        (((b1f.set c.root
            (some (List.replicate images.length (1 : ℚ)))).getD c.root
          none).isSome) = true := by
      intro b1f hb
      rw [hb, List.getD_eq_getElem?_getD,
        List.getElem?_set_self (by simpa using hroot)]
      rfl
    show ((featureBuffers c images).gateFeature.getD c.root none).isSome =
      true
    unfold featureBuffers
    apply foldFeature_root_isSome
    exact key _ (by rw [foldProb_gateFeature]; rfl)

/-- Witness for the amended C8 theorem on the concrete circuit. -/
theorem C8_cleanup_scope_witness :
    (∀ i, (calculateFeatures sharedGateCircuit
        featImages).2.termProb.getD i none = none) ∧
      (∀ i, (calculateFeatures sharedGateCircuit
        featImages).2.termFeature.getD i none = none) ∧
      (∀ pe ∈ serializeElements sharedGateCircuit,
        ((calculateFeatures sharedGateCircuit
            featImages).2.elemFeature.getD pe.1 []).getD pe.2 none = none ∧
          ((calculateFeatures sharedGateCircuit
            featImages).2.elemProb.getD pe.1 []).getD pe.2 none = none) ∧
      ((calculateFeatures sharedGateCircuit featImages).2.gateFeature.getD
        sharedGateCircuit.root none).isSome = true := by
  exact C8_cleanup_clears_terminals_and_elements_only sharedGateCircuit
    featImages (by decide)

/-! ## C9: path navigation lemmas -/

theorem pathElem_nil (c : Circuit) (n : NodeRef) : pathElem c n [] = none := by
  cases n <;> rfl

theorem pathElem_cons (c : Circuit) (p j : ℕ) (side : Bool)
    (rest : List (ℕ × Bool)) :
    pathElem c (.gate p) ((j, side) :: rest) =
      match (gateElems c p)[j]? with
      | none => none
      | some e =>
        match rest with
        | [] => some e
        | _ :: _ => pathElem c (childRef side e) rest := rfl

theorem pathVClean_term (c : Circuit) (v i : ℕ) :
    PathVClean c v (.term i) := by
  intro path e he
  cases path with
  | nil => rw [pathElem_nil] at he; cases he
  | cons a rest => obtain ⟨j, side⟩ := a; simp [pathElem] at he

theorem gateElems_oob (c : Circuit) (p : ℕ) (h : c.gates.length ≤ p) :
    gateElems c p = [] := by
  simp [gateElems, List.getElem?_eq_none h]

theorem pathVClean_of_elems_nil (c : Circuit) (v p : ℕ)
    (h : gateElems c p = []) : PathVClean c v (.gate p) := by
  intro path e he
  cases path with
  | nil => rw [pathElem_nil] at he; cases he
  | cons a rest => obtain ⟨j, side⟩ := a; simp [pathElem, h] at he

theorem pathVClean_gate_iff (c : Circuit) (v p : ℕ) :
    PathVClean c v (.gate p) ↔ ∀ e ∈ gateElems c p, CleanEl c v e := by
  constructor
  · intro h e he
    obtain ⟨j, hj⟩ := List.getElem?_of_mem he
    refine ⟨h [(j, true)] e (by simp [pathElem, hj]), ?_, ?_⟩
    · intro path e2 he2
      cases path with
      | nil => rw [pathElem_nil] at he2; cases he2
      | cons a rest =>
        refine h ((j, true) :: a :: rest) e2 ?_
        rw [pathElem_cons]
        simpa [hj, childRef] using he2
    · intro path e2 he2
      cases path with
      | nil => rw [pathElem_nil] at he2; cases he2
      | cons a rest =>
        refine h ((j, false) :: a :: rest) e2 ?_
        rw [pathElem_cons]
        simpa [hj, childRef] using he2
  · intro h path e he
    cases path with
    | nil => rw [pathElem_nil] at he; cases he
    | cons a rest =>
      obtain ⟨j, side⟩ := a
      rw [pathElem_cons] at he
      cases hj : (gateElems c p)[j]? with
      | none => rw [hj] at he; cases he
      | some e0 =>
        rw [hj] at he
        have he0 := h e0 (List.getElem?_mem hj)
        cases rest with
        | nil =>
          simp only [Option.some.injEq] at he
          exact he ▸ he0.1
        | cons b rest2 =>
          cases side with
          | true => exact he0.2.1 _ _ (by simpa [childRef] using he)
          | false => exact he0.2.2 _ _ (by simpa [childRef] using he)

theorem pathElem_congr (c c' : Circuit)
    (h : ∀ q, gateElems c' q = gateElems c q) :
    ∀ (path : List (ℕ × Bool)) (n : NodeRef),
      pathElem c' n path = pathElem c n path := by
  intro path
  induction path with
  | nil => intro n; rw [pathElem_nil, pathElem_nil]
  | cons a rest ih =>
    intro n
    obtain ⟨j, side⟩ := a
    cases n with
    | term i => simp [pathElem]
    | gate p =>
      rw [pathElem_cons, pathElem_cons, h p]
      cases hj : (gateElems c p)[j]? with
      | none => rfl
      | some e =>
        cases rest with
        | nil => rfl
        | cons b r2 =>
          simp only
          exact ih (childRef side e)

/-! ## C9: shape congruence lemmas -/

theorem refVtreeVars_gate (c : Circuit) (p : ℕ) :
    refVtreeVars c (.gate p) = gateVars c p := rfl

theorem termVars_of_termSig (c c' : Circuit) (i : ℕ)
    (h : termSig c' i = termSig c i) :
    (c'.terms[i]?).map (·.vtreeVars) = (c.terms[i]?).map (·.vtreeVars) := by
  have h2 := congrArg
    (fun o => Option.map (fun s : ℕ × Bool × List ℕ => s.2.2) o) h
  simpa [termSig, Option.map_map, Function.comp] using h2

theorem refVars_congr (c c' : Circuit)
    (ht : ∀ i, termSig c' i = termSig c i)
    (hg : ∀ q, gateVars c' q = gateVars c q) :
    ∀ n, refVtreeVars c' n = refVtreeVars c n := by
  intro n
  cases n with
  | term i =>
    show ((c'.terms[i]?).map (·.vtreeVars)).getD [] =
      ((c.terms[i]?).map (·.vtreeVars)).getD []
    rw [termVars_of_termSig c c' i (ht i)]
  | gate p => rw [refVtreeVars_gate, refVtreeVars_gate, hg p]

theorem validR_congr (c c' : Circuit)
    (h : ∀ q : ℕ, (c'.gates[q]?).isSome = (c.gates[q]?).isSome) (n : NodeRef)
    (hv : ValidR c n) : ValidR c' n := by
  cases n with
  | term i => trivial
  | gate p => show (c'.gates[p]?).isSome = true; rw [h p]; exact hv

theorem flipConsistent_congr (c c' : Circuit)
    (ht : ∀ i, termSig c' i = termSig c i)
    (hn : c'.numVariables = c.numVariables)
    (h : FlipConsistent c) : FlipConsistent c' := by
  intro i t hti htv
  have hsig : termSig c i = some (t.varIndex, t.varValue, t.vtreeVars) := by
    rw [← ht i]; simp [termSig, hti]
  cases h0 : c.terms[i]? with
  | none => rw [termSig, h0] at hsig; cases hsig
  | some t0 =>
    rw [termSig, h0] at hsig
    simp only [Option.map_some', Option.some.injEq, Prod.mk.injEq] at hsig
    obtain ⟨hvi, hvv, hvt⟩ := hsig
    have := h i t0 h0 (by rw [hvv]; exact htv)
    rw [hn, ← hvi, ← hvt,
      termVars_of_termSig c c' (c.numVariables + t0.varIndex - 1)
        (ht (c.numVariables + t0.varIndex - 1))]
    exact this

theorem pres_shape (c c' : Circuit) (v : ℕ)
    (hge : ∀ q, gateElems c' q = gateElems c q)
    (hgv : ∀ q, gateVars c' q = gateVars c q)
    (hgs : ∀ q : ℕ, (c'.gates[q]?).isSome = (c.gates[q]?).isSome)
    (ht : ∀ i, termSig c' i = termSig c i)
    (hn : c'.numVariables = c.numVariables)
    (hinv : MutInv c v) : Pres v c c' := by
  obtain ⟨hw, hf, hd, hfc⟩ := hinv
  have hrv : ∀ n, refVtreeVars c' n = refVtreeVars c n :=
    refVars_congr c c' ht hgv
  have hpc : ∀ n, PathVClean c v n → PathVClean c' v n := by
    intro n h path e he
    exact h path e (by rw [← pathElem_congr c c' hge path n]; exact he)
  refine ⟨⟨?_, ?_, ?_, flipConsistent_congr c c' ht hn hfc⟩, ?_, ?_, hn, ?_⟩
  · intro p e he
    rw [hge p] at he
    obtain ⟨h1, h2, h3, h4⟩ := hw p e he
    rw [hrv e.prime, hrv e.sub, hgv p]
    exact ⟨h1, h2, h3, h4⟩
  · intro p hvp
    rw [hgv p] at hvp
    exact hpc _ (hf p hvp)
  · intro p e he
    rw [hge p] at he
    obtain ⟨h1, h2⟩ := hd p e he
    exact ⟨validR_congr c c' hgs _ h1, validR_congr c c' hgs _ h2⟩
  · intro n _ h
    exact hpc n h
  · intro i; exact ht i
  · intro p hp
    refine ⟨?_, hgv p⟩
    rw [hgs p]; exact hp

/-! ## C9: shape preservation of the primitive mutations -/

theorem gateElems_modifyGateAt (c : Circuit) (p : ℕ)
    (f : ArenaGate → ArenaGate) (hf : ∀ g, (f g).elements = g.elements)
    (q : ℕ) : gateElems (modifyGateAt c p f) q = gateElems c q := by
  unfold modifyGateAt gateElems
  cases hp : c.gates[p]? with
  | none => rfl
  | some g =>
    obtain ⟨hlt, -⟩ := List.getElem?_eq_some.mp hp
    by_cases hq : p = q
    · subst hq
      simp [List.getElem?_set_self hlt, hp, hf g]
    · simp [List.getElem?_set_ne hq]

theorem gateVars_modifyGateAt (c : Circuit) (p : ℕ)
    (f : ArenaGate → ArenaGate) (hf : ∀ g, (f g).vtreeVars = g.vtreeVars)
    (q : ℕ) : gateVars (modifyGateAt c p f) q = gateVars c q := by
  unfold modifyGateAt gateVars
  cases hp : c.gates[p]? with
  | none => rfl
  | some g =>
    obtain ⟨hlt, -⟩ := List.getElem?_eq_some.mp hp
    by_cases hq : p = q
    · subst hq
      simp [List.getElem?_set_self hlt, hp, hf g]
    · simp [List.getElem?_set_ne hq]

theorem isSome_modifyGateAt (c : Circuit) (p : ℕ)
    (f : ArenaGate → ArenaGate) (q : ℕ) :
    (((modifyGateAt c p f).gates[q]?).isSome) = (c.gates[q]?).isSome := by
  unfold modifyGateAt
  cases hp : c.gates[p]? with
  | none => rfl
  | some g =>
    obtain ⟨hlt, -⟩ := List.getElem?_eq_some.mp hp
    by_cases hq : p = q
    · subst hq
      simp [List.getElem?_set_self hlt, hp]
    · simp [List.getElem?_set_ne hq]

theorem termSig_modifyGateAt (c : Circuit) (p : ℕ)
    (f : ArenaGate → ArenaGate) (i : ℕ) :
    termSig (modifyGateAt c p f) i = termSig c i := rfl

theorem termSig_modifyTermAt (c : Circuit) (i : ℕ)
    (f : ArenaTerm → ArenaTerm)
    (hf : ∀ t, (f t).varIndex = t.varIndex ∧ (f t).varValue = t.varValue ∧
      (f t).vtreeVars = t.vtreeVars) (j : ℕ) :
    termSig (modifyTermAt c i f) j = termSig c j := by
  unfold modifyTermAt termSig
  cases hi : c.terms[i]? with
  | none => rfl
  | some t =>
    obtain ⟨hlt, -⟩ := List.getElem?_eq_some.mp hi
    by_cases hj : i = j
    · subst hj
      simp [List.getElem?_set_self hlt, hi, (hf t).1, (hf t).2.1, (hf t).2.2]
    · simp [List.getElem?_set_ne hj]

theorem pres_modifyTermAt (c : Circuit) (v i : ℕ)
    (f : ArenaTerm → ArenaTerm)
    (hf : ∀ t, (f t).varIndex = t.varIndex ∧ (f t).varValue = t.varValue ∧
      (f t).vtreeVars = t.vtreeVars)
    (hinv : MutInv c v) : Pres v c (modifyTermAt c i f) :=
  pres_shape c (modifyTermAt c i f) v (fun _ => rfl) (fun _ => rfl)
    (fun _ => rfl) (termSig_modifyTermAt c i f hf) rfl hinv

theorem pres_modifyGateNP (c : Circuit) (v p : ℕ)
    (f : ArenaGate → ArenaGate)
    (hf : ∀ g, (f g).elements = g.elements ∧ (f g).vtreeVars = g.vtreeVars)
    (hinv : MutInv c v) : Pres v c (modifyGateAt c p f) :=
  pres_shape c (modifyGateAt c p f) v
    (gateElems_modifyGateAt c p f (fun g => (hf g).1))
    (gateVars_modifyGateAt c p f (fun g => (hf g).2))
    (isSome_modifyGateAt c p f)
    (termSig_modifyGateAt c p f) rfl hinv

theorem validR_of_varsPres (c c' : Circuit) (h : VarsPres c c') (n : NodeRef)
    (hv : ValidR c n) : ValidR c' n := by
  cases n with
  | term i => trivial
  | gate p => exact (h.2.2 p hv).1

theorem refVars_of_varsPres (c c' : Circuit) (h : VarsPres c c')
    (n : NodeRef) (hv : ValidR c n) :
    refVtreeVars c' n = refVtreeVars c n := by
  cases n with
  | term i =>
    show ((c'.terms[i]?).map (·.vtreeVars)).getD [] =
      ((c.terms[i]?).map (·.vtreeVars)).getD []
    rw [termVars_of_termSig c c' i (h.1 i)]
  | gate p => rw [refVtreeVars_gate, refVtreeVars_gate, (h.2.2 p hv).2]

theorem pres_trans (v : ℕ) (c1 c2 c3 : Circuit) (h1 : Pres v c1 c2)
    (h2 : Pres v c2 c3) : Pres v c1 c3 := by
  obtain ⟨hi2, ht2, hv2⟩ := h1
  obtain ⟨hi3, ht3, hv3⟩ := h2
  refine ⟨hi3, ?_, ?_, ?_, ?_⟩
  · intro n hn hp
    exact ht3 n (validR_of_varsPres _ _ hv2 n hn) (ht2 n hn hp)
  · intro i; rw [hv3.1 i, hv2.1 i]
  · rw [hv3.2.1, hv2.2.1]
  · intro p hp
    obtain ⟨hp2, hg2⟩ := hv2.2.2 p hp
    obtain ⟨hp3, hg3⟩ := hv3.2.2 p hp2
    exact ⟨hp3, by rw [hg3, hg2]⟩

theorem pres_refl (c : Circuit) (v : ℕ) (hinv : MutInv c v) : Pres v c c :=
  ⟨hinv, fun _ _ h => h, fun _ => rfl, rfl, fun _ hp => ⟨hp, rfl⟩⟩

theorem pres_decRef (c : Circuit) (v : ℕ) (r : NodeRef)
    (hinv : MutInv c v) : Pres v c (decRefParents c r) := by
  cases r with
  | term i => exact pres_modifyTermAt c v i _ (fun t => ⟨rfl, rfl, rfl⟩) hinv
  | gate p => exact pres_modifyGateNP c v p _ (fun g => ⟨rfl, rfl⟩) hinv

theorem pres_incRef (c : Circuit) (v : ℕ) (r : NodeRef)
    (hinv : MutInv c v) : Pres v c (incRefParents c r) := by
  cases r with
  | term i => exact pres_modifyTermAt c v i _ (fun t => ⟨rfl, rfl, rfl⟩) hinv
  | gate p => exact pres_modifyGateNP c v p _ (fun g => ⟨rfl, rfl⟩) hinv

theorem pres_mkAndGate (c : Circuit) (v : ℕ) (p s : NodeRef) (param : ℚ)
    (hinv : MutInv c v) : Pres v c (mkAndGate c p s param).1 := by
  show Pres v c (incRefParents (incRefParents c p) s)
  exact pres_trans v c _ _ (pres_incRef c v p hinv)
    (pres_incRef _ v s (pres_incRef c v p hinv).1)

theorem cleanEl_transport (v : ℕ) (c c' : Circuit) (h : Pres v c c')
    (e : ArenaElem) (hp : ValidR c e.prime) (hs : ValidR c e.sub)
    (he : CleanEl c v e) : CleanEl c' v e :=
  ⟨he.1, h.2.1 _ hp he.2.1, h.2.1 _ hs he.2.2⟩

theorem elemFacts_transport (v : ℕ) (c c' : Circuit) (h : Pres v c c')
    (el : ArenaElem) (hf : ElemFacts c v el) : ElemFacts c' v el := by
  obtain ⟨hd, hvp, hvs⟩ := hf
  refine ⟨?_, validR_of_varsPres _ _ h.2.2 _ hvp,
    validR_of_varsPres _ _ h.2.2 _ hvs⟩
  rw [refVars_of_varsPres _ _ h.2.2 _ hvp, refVars_of_varsPres _ _ h.2.2 _ hvs]
  exact hd

theorem elemDeriv_transport (v : ℕ) (c c1 c2 : Circuit) (h : Pres v c1 c2)
    (e e' : ArenaElem) (hd : ElemDeriv c c1 e e') : ElemDeriv c c2 e e' := by
  obtain ⟨h1, h2, h3, h4, h5⟩ := hd
  refine ⟨?_, ?_, h3, validR_of_varsPres _ _ h.2.2 _ h4,
    validR_of_varsPres _ _ h.2.2 _ h5⟩
  · rw [refVars_of_varsPres _ _ h.2.2 _ h4]; exact h1
  · rw [refVars_of_varsPres _ _ h.2.2 _ h5]; exact h2

theorem elemFacts_of_mem (c : Circuit) (v p : ℕ) (e : ArenaElem)
    (hinv : MutInv c v) (he : e ∈ gateElems c p) : ElemFacts c v e :=
  ⟨(hinv.1 p e he).2.2.2, (hinv.2.2.1 p e he).1, (hinv.2.2.1 p e he).2⟩

theorem pathVClean_of_not_mem_vars (c : Circuit) (v : ℕ) (n : NodeRef)
    (hinv : MutInv c v) (h : v ∉ refVtreeVars c n) : PathVClean c v n := by
  cases n with
  | term i => exact pathVClean_term c v i
  | gate p => exact hinv.2.1 p h

/-! ## C9: transfer across an element-list rewrite -/

theorem modifyGateAt_invalid (c : Circuit) (p : ℕ)
    (f : ArenaGate → ArenaGate) (h : c.gates[p]? = none) :
    modifyGateAt c p f = c := by
  unfold modifyGateAt
  rw [h]

theorem gateElems_rewrite_self (c : Circuit) (p : ℕ)
    (newEls : List ArenaElem) (hp : (c.gates[p]?).isSome = true) :
    gateElems
      (modifyGateAt c p (fun g => { g with elements := newEls })) p =
      newEls := by
  obtain ⟨g, hg⟩ := Option.isSome_iff_exists.mp hp
  obtain ⟨hlt, -⟩ := List.getElem?_eq_some.mp hg
  unfold modifyGateAt gateElems
  rw [hg]
  simp [List.getElem?_set_self hlt]

theorem gateElems_rewrite_ne (c : Circuit) (p : ℕ)
    (newEls : List ArenaElem) (q : ℕ) (hq : p ≠ q) :
    gateElems
      (modifyGateAt c p (fun g => { g with elements := newEls })) q =
      gateElems c q := by
  unfold modifyGateAt gateElems
  cases hg : c.gates[p]? with
  | none => rfl
  | some g => simp [List.getElem?_set_ne hq]

theorem pathVClean_rewrite (c : Circuit) (v p : ℕ)
    (newEls : List ArenaElem)
    (hnew : ∀ e ∈ newEls, e ∈ gateElems c p ∨ CleanEl c v e) :
    ∀ (n : NodeRef), PathVClean c v n →
      PathVClean
        (modifyGateAt c p (fun g => { g with elements := newEls })) v n := by
  have main : ∀ (path : List (ℕ × Bool)) (n : NodeRef), PathVClean c v n →
      ∀ e, pathElem
        (modifyGateAt c p (fun g => { g with elements := newEls })) n path =
        some e → v ∉ e.splittable := by
    intro path
    induction path with
    | nil => intro n _ e he; rw [pathElem_nil] at he; cases he
    | cons a rest ih =>
      intro n hn e he
      obtain ⟨j, side⟩ := a
      cases n with
      | term i => simp [pathElem] at he
      | gate q =>
        rw [pathElem_cons] at he
        cases hj : (gateElems
            (modifyGateAt c p (fun g => { g with elements := newEls }))
            q)[j]? with
        | none => rw [hj] at he; cases he
        | some e0 =>
          rw [hj] at he
          have he0 : v ∉ e0.splittable ∧ PathVClean c v e0.prime ∧
              PathVClean c v e0.sub := by
            by_cases hq : p = q
            · subst hq
              by_cases hps : (c.gates[p]?).isSome = true
              · rw [gateElems_rewrite_self c p newEls hps] at hj
                cases hnew e0 (List.getElem?_mem hj) with
                | inl hold => exact (pathVClean_gate_iff c v p).mp hn e0 hold
                | inr hclean => exact hclean
              · rw [modifyGateAt_invalid c p _
                    (Option.not_isSome_iff_eq_none.mp hps)] at hj
                exact (pathVClean_gate_iff c v p).mp hn e0
                  (List.getElem?_mem hj)
            · rw [gateElems_rewrite_ne c p newEls q hq] at hj
              exact (pathVClean_gate_iff c v q).mp hn e0
                (List.getElem?_mem hj)
          cases rest with
          | nil =>
            simp only [Option.some.injEq] at he
            exact he ▸ he0.1
          | cons b r2 =>
            cases side with
            | true => exact ih e0.prime he0.2.1 e (by simpa [childRef] using he)
            | false => exact ih e0.sub he0.2.2 e (by simpa [childRef] using he)
  intro n hn path e he
  exact main path n hn e he

theorem pres_rewrite (c : Circuit) (v p : ℕ) (newEls : List ArenaElem)
    (hclean : ∀ e ∈ newEls, CleanEl c v e)
    (hw : ∀ e ∈ newEls,
      (∀ x ∈ refVtreeVars c e.prime, x ∈ gateVars c p) ∧
      (∀ x ∈ refVtreeVars c e.sub, x ∈ gateVars c p) ∧
      (∀ x ∈ e.splittable, x ∈ gateVars c p) ∧
      ¬(v ∈ refVtreeVars c e.prime ∧ v ∈ refVtreeVars c e.sub) ∧
      ValidR c e.prime ∧ ValidR c e.sub)
    (hinv : MutInv c v) :
    Pres v c (modifyGateAt c p (fun g => { g with elements := newEls })) := by
  have hgv := gateVars_modifyGateAt c p
    (fun g => { g with elements := newEls }) (fun _ => rfl)
  have hgs := isSome_modifyGateAt c p (fun g => { g with elements := newEls })
  have hts : ∀ i, termSig
      (modifyGateAt c p (fun g => { g with elements := newEls })) i =
      termSig c i := fun _ => rfl
  have hrv := refVars_congr c _ hts hgv
  have hpc := pathVClean_rewrite c v p newEls (fun e he => .inr (hclean e he))
  obtain ⟨hwf, hfr, hnd, hfc⟩ := hinv
  refine ⟨⟨?_, ?_, ?_, flipConsistent_congr c _ hts rfl hfc⟩,
    fun n _ h => hpc n h, hts, rfl, fun q hq => ⟨by rw [hgs q]; exact hq, hgv q⟩⟩
  · intro q e he
    rw [hrv e.prime, hrv e.sub, hgv q]
    by_cases hq : p = q
    · subst hq
      by_cases hps : (c.gates[p]?).isSome = true
      · rw [gateElems_rewrite_self c p newEls hps] at he
        obtain ⟨h1, h2, h3, h4, -, -⟩ := hw e he
        exact ⟨h1, h2, h3, h4⟩
      · rw [modifyGateAt_invalid c p _
          (Option.not_isSome_iff_eq_none.mp hps)] at he
        obtain ⟨h1, h2, h3, h4⟩ := hwf p e he
        exact ⟨h1, h2, h3, h4⟩
    · rw [gateElems_rewrite_ne c p newEls q hq] at he
      exact hwf q e he
  · intro q hvq
    rw [hgv q] at hvq
    exact hpc _ (hfr q hvq)
  · intro q e he
    by_cases hq : p = q
    · subst hq
      by_cases hps : (c.gates[p]?).isSome = true
      · rw [gateElems_rewrite_self c p newEls hps] at he
        obtain ⟨-, -, -, -, h5, h6⟩ := hw e he
        exact ⟨validR_congr c _ hgs _ h5, validR_congr c _ hgs _ h6⟩
      · rw [modifyGateAt_invalid c p _
          (Option.not_isSome_iff_eq_none.mp hps)] at he
        obtain ⟨h1, h2⟩ := hnd p e he
        exact ⟨validR_congr c _ hgs _ h1, validR_congr c _ hgs _ h2⟩
    · rw [gateElems_rewrite_ne c p newEls q hq] at he
      obtain ⟨h1, h2⟩ := hnd q e he
      exact ⟨validR_congr c _ hgs _ h1, validR_congr c _ hgs _ h2⟩

/-! ## C9: transfer across a gate append -/

theorem gateElems_append_lt (c : Circuit) (la : ℕ) (g : ArenaGate) (q : ℕ)
    (h : q < c.gates.length) :
    gateElems { c with largestIndex := la, gates := c.gates ++ [g] } q =
      gateElems c q := by
  unfold gateElems
  rw [show ({ c with largestIndex := la, gates := c.gates ++ [g]} :
    Circuit).gates = c.gates ++ [g] from rfl, List.getElem?_append_left h]

theorem gateElems_append_new (c : Circuit) (la : ℕ) (g : ArenaGate) :
    gateElems { c with largestIndex := la, gates := c.gates ++ [g] }
      c.gates.length = g.elements := by
  unfold gateElems
  rw [show ({ c with largestIndex := la, gates := c.gates ++ [g]} :
    Circuit).gates = c.gates ++ [g] from rfl,
    List.getElem?_append_right (Nat.le_refl _)]
  simp

theorem gateElems_append_gt (c : Circuit) (la : ℕ) (g : ArenaGate) (q : ℕ)
    (h : c.gates.length < q) :
    gateElems { c with largestIndex := la, gates := c.gates ++ [g] } q =
      [] := by
  unfold gateElems
  rw [show ({ c with largestIndex := la, gates := c.gates ++ [g]} :
    Circuit).gates = c.gates ++ [g] from rfl,
    List.getElem?_append_right (Nat.le_of_lt h)]
  rw [List.getElem?_eq_none (by simp; omega)]
  rfl

theorem gateVars_append_lt (c : Circuit) (la : ℕ) (g : ArenaGate) (q : ℕ)
    (h : q < c.gates.length) :
    gateVars { c with largestIndex := la, gates := c.gates ++ [g] } q =
      gateVars c q := by
  unfold gateVars
  rw [show ({ c with largestIndex := la, gates := c.gates ++ [g]} :
    Circuit).gates = c.gates ++ [g] from rfl, List.getElem?_append_left h]

theorem gateVars_append_new (c : Circuit) (la : ℕ) (g : ArenaGate) :
    gateVars { c with largestIndex := la, gates := c.gates ++ [g] }
      c.gates.length = g.vtreeVars := by
  unfold gateVars
  rw [show ({ c with largestIndex := la, gates := c.gates ++ [g]} :
    Circuit).gates = c.gates ++ [g] from rfl,
    List.getElem?_append_right (Nat.le_refl _)]
  simp

theorem isSome_append_new (c : Circuit) (la : ℕ) (g : ArenaGate) :
    ((({ c with largestIndex := la, gates := c.gates ++ [g] } :
      Circuit).gates[c.gates.length]?).isSome) = true := by
  rw [show ({ c with largestIndex := la, gates := c.gates ++ [g]} :
    Circuit).gates = c.gates ++ [g] from rfl,
    List.getElem?_append_right (Nat.le_refl _)]
  simp

theorem varsPres_append (c : Circuit) (la : ℕ) (g : ArenaGate) :
    VarsPres c { c with largestIndex := la, gates := c.gates ++ [g] } := by
  refine ⟨fun _ => rfl, rfl, fun p hp => ?_⟩
  have hlt : p < c.gates.length := by
    cases hg : c.gates[p]? with
    | none => rw [hg] at hp; cases hp
    | some g0 => exact (List.getElem?_eq_some.mp hg).1
  constructor
  · show ((c.gates ++ [g])[p]?).isSome = true
    rw [List.getElem?_append_left hlt]; exact hp
  · exact gateVars_append_lt c la g p hlt

theorem pathElem_append (c : Circuit) (la : ℕ) (g : ArenaGate)
    (hd : NoDangling c) :
    ∀ (path : List (ℕ × Bool)) (n : NodeRef), ValidR c n →
      pathElem { c with largestIndex := la, gates := c.gates ++ [g] } n
        path = pathElem c n path := by
  intro path
  induction path with
  | nil => intro n _; rw [pathElem_nil, pathElem_nil]
  | cons a rest ih =>
    intro n hn
    obtain ⟨j, side⟩ := a
    cases n with
    | term i => simp [pathElem]
    | gate q =>
      have hlt : q < c.gates.length := by
        cases hg : c.gates[q]? with
        | none => rw [ValidR, hg] at hn; cases hn
        | some g0 => exact (List.getElem?_eq_some.mp hg).1
      rw [pathElem_cons, pathElem_cons, gateElems_append_lt c la g q hlt]
      cases hj : (gateElems c q)[j]? with
      | none => rfl
      | some e =>
        cases rest with
        | nil => rfl
        | cons b r2 =>
          simp only
          have hmem := List.getElem?_mem hj
          obtain ⟨hvp, hvs⟩ := hd q e hmem
          cases side with
          | true => exact ih e.prime hvp
          | false => exact ih e.sub hvs

theorem pres_append (c : Circuit) (v la : ℕ) (g : ArenaGate)
    (helems : ∀ e ∈ g.elements,
      (∀ x ∈ refVtreeVars c e.prime, x ∈ g.vtreeVars) ∧
      (∀ x ∈ refVtreeVars c e.sub, x ∈ g.vtreeVars) ∧
      (∀ x ∈ e.splittable, x ∈ g.vtreeVars) ∧
      ¬(v ∈ refVtreeVars c e.prime ∧ v ∈ refVtreeVars c e.sub) ∧
      ValidR c e.prime ∧ ValidR c e.sub)
    (hgclean : v ∉ g.vtreeVars → ∀ e ∈ g.elements, CleanEl c v e)
    (hinv : MutInv c v) :
    Pres v c { c with largestIndex := la, gates := c.gates ++ [g] } := by
  obtain ⟨hwf, hfr, hnd, hfc⟩ := hinv
  have hvp := varsPres_append c la g
  have hrv : ∀ n, ValidR c n →
      refVtreeVars { c with largestIndex := la, gates := c.gates ++ [g] } n =
        refVtreeVars c n := fun n hn => refVars_of_varsPres c _ hvp n hn
  have hpc : ∀ n, ValidR c n → PathVClean c v n →
      PathVClean { c with largestIndex := la, gates := c.gates ++ [g] } v
        n := by
    intro n hn h path e he
    rw [pathElem_append c la g hnd path n hn] at he
    exact h path e he
  have hclean' : v ∉ g.vtreeVars →
      PathVClean { c with largestIndex := la, gates := c.gates ++ [g] } v
        (.gate c.gates.length) := by
    intro hvg
    rw [pathVClean_gate_iff, gateElems_append_new]
    intro e he
    obtain ⟨h1, h2, h3⟩ := hgclean hvg e he
    obtain ⟨-, -, -, -, h5, h6⟩ := helems e he
    exact ⟨h1, hpc _ h5 h2, hpc _ h6 h3⟩
  refine ⟨⟨?_, ?_, ?_, hfc⟩, fun n hn h => hpc n hn h, hvp⟩
  · intro q e he
    rcases Nat.lt_trichotomy q c.gates.length with hlt | heq | hgt
    · rw [gateElems_append_lt c la g q hlt] at he
      have hq : (c.gates[q]?).isSome = true := by
        cases hg0 : c.gates[q]? with
        | none =>
          rw [gateElems, hg0] at he; cases he
        | some g0 => rfl
      obtain ⟨h1, h2, h3, h4⟩ := hwf q e he
      obtain ⟨h5, h6⟩ := hnd q e he
      rw [hrv e.prime h5, hrv e.sub h6, (hvp.2.2 q hq).2]
      exact ⟨h1, h2, h3, h4⟩
    · subst heq
      rw [gateElems_append_new] at he
      obtain ⟨h1, h2, h3, h4, h5, h6⟩ := helems e he
      rw [hrv e.prime h5, hrv e.sub h6, gateVars_append_new]
      exact ⟨h1, h2, h3, h4⟩
    · rw [gateElems_append_gt c la g q hgt] at he
      cases he
  · intro q hvq
    rcases Nat.lt_trichotomy q c.gates.length with hlt | heq | hgt
    · have hq : (c.gates[q]?).isSome = true := by
        rw [List.getElem?_eq_getElem hlt]; rfl
      rw [(hvp.2.2 q hq).2] at hvq
      exact hpc _ hq (hfr q hvq)
    · subst heq
      rw [gateVars_append_new] at hvq
      exact hclean' hvq
    · exact pathVClean_of_elems_nil _ v q (gateElems_append_gt c la g q hgt)
  · intro q e he
    rcases Nat.lt_trichotomy q c.gates.length with hlt | heq | hgt
    · rw [gateElems_append_lt c la g q hlt] at he
      obtain ⟨h1, h2⟩ := hnd q e he
      exact ⟨validR_of_varsPres c _ hvp _ h1, validR_of_varsPres c _ hvp _ h2⟩
    · subst heq
      rw [gateElems_append_new] at he
      obtain ⟨-, -, -, -, h5, h6⟩ := helems e he
      exact ⟨validR_of_varsPres c _ hvp _ h5, validR_of_varsPres c _ hvp _ h6⟩
    · rw [gateElems_append_gt c la g q hgt] at he
      cases he

/-! ## C9: the induction step of each walk function -/

theorem elemDeriv_precompose (v : ℕ) (c c1 c2 : Circuit)
    (h : VarsPres c c1) (e e' : ArenaElem) (hvp : ValidR c e.prime)
    (hvs : ValidR c e.sub) (hd : ElemDeriv c1 c2 e e') :
    ElemDeriv c c2 e e' := by
  obtain ⟨h1, h2, h3, h4, h5⟩ := hd
  refine ⟨?_, ?_, h3, h4, h5⟩
  · rw [← refVars_of_varsPres c c1 h e.prime hvp]; exact h1
  · rw [← refVars_of_varsPres c c1 h e.sub hvs]; exact h2

theorem isSome_of_refNumParents_pos (c : Circuit) (p : ℕ)
    (h : refNumParents c (.gate p) ≠ 0) : (c.gates[p]?).isSome = true := by
  cases hg : c.gates[p]? with
  | none =>
    exfalso
    apply h
    rw [refNumParents, hg]
    rfl
  | some g => rfl

theorem dcElemStep (v fuel : ℕ) (ihDN : DcNodeSpec v fuel) :
    DcElemSpec v (fuel + 1) := by
  intro c el depth maxDepth c' el' hinv hvp hvs hok
  unfold dcElement at hok
  have assemble : ∀ (cw : Circuit) (p1 s1 : NodeRef), Pres v c cw →
      ValidR cw p1 → ValidR cw s1 →
      (∀ x ∈ refVtreeVars cw p1, x ∈ refVtreeVars c el.prime) →
      (∀ x ∈ refVtreeVars cw s1, x ∈ refVtreeVars c el.sub) →
      Pres v c (incRefParents (incRefParents cw p1) s1) ∧
        ElemDeriv c (incRefParents (incRefParents cw p1) s1) el
          { prime := p1, sub := s1, parameter := el.parameter,
            splittable := el.splittable, flag := false } := by
    intro cw p1 s1 hP hV1 hV2 hsub1 hsub2
    have hPmk : Pres v cw (incRefParents (incRefParents cw p1) s1) :=
      pres_mkAndGate cw v p1 s1 el.parameter hP.1
    have hPtot := pres_trans v c cw _ hP hPmk
    refine ⟨hPtot, ?_, ?_, fun x hx => hx,
      validR_of_varsPres cw _ hPmk.2.2 p1 hV1,
      validR_of_varsPres cw _ hPmk.2.2 s1 hV2⟩
    · show ∀ x ∈ refVtreeVars (incRefParents (incRefParents cw p1) s1) p1, _
      rw [refVars_of_varsPres cw _ hPmk.2.2 p1 hV1]
      exact hsub1
    · show ∀ x ∈ refVtreeVars (incRefParents (incRefParents cw p1) s1) s1, _
      rw [refVars_of_varsPres cw _ hPmk.2.2 s1 hV2]
      exact hsub2
  by_cases hdep : maxDepth ≤ depth
  · rw [if_pos hdep] at hok
    by_cases hvpr : v ∈ refVtreeVars c el.prime
    · rw [if_pos hvpr] at hok
      cases hdc : dcNode fuel c el.prime v depth maxDepth with
      | error e1 => rw [hdc] at hok; simp at hok
      | ok pr =>
        obtain ⟨cw, p1⟩ := pr
        rw [hdc] at hok
        simp only [mkAndGate, Except.ok.injEq, Prod.mk.injEq] at hok
        obtain ⟨hc', hel'⟩ := hok
        obtain ⟨S1, S2, S3⟩ := ihDN c el.prime depth maxDepth cw p1 hinv hdc
        subst hc'
        subst hel'
        refine assemble cw p1 el.sub S1 S2 ?_ ?_ ?_
        · exact validR_of_varsPres c cw S1.2.2 el.sub hvs
        · rw [S3]; exact fun x hx => hx
        · rw [refVars_of_varsPres c cw S1.2.2 el.sub hvs]
          exact fun x hx => hx
    · rw [if_neg hvpr] at hok
      by_cases hvs2 : v ∈ refVtreeVars c el.sub
      · rw [if_pos hvs2] at hok
        cases hdc : dcNode fuel c el.sub v depth maxDepth with
        | error e1 => rw [hdc] at hok; simp at hok
        | ok pr =>
          obtain ⟨cw, s1⟩ := pr
          rw [hdc] at hok
          simp only [mkAndGate, Except.ok.injEq, Prod.mk.injEq] at hok
          obtain ⟨hc', hel'⟩ := hok
          obtain ⟨S1, S2, S3⟩ := ihDN c el.sub depth maxDepth cw s1 hinv hdc
          subst hc'
          subst hel'
          refine assemble cw el.prime s1 S1 ?_ S2 ?_ ?_
          · exact validR_of_varsPres c cw S1.2.2 el.prime hvp
          · rw [refVars_of_varsPres c cw S1.2.2 el.prime hvp]
            exact fun x hx => hx
          · rw [S3]; exact fun x hx => hx
      · rw [if_neg hvs2] at hok
        simp only [mkAndGate, Except.ok.injEq, Prod.mk.injEq] at hok
        obtain ⟨hc', hel'⟩ := hok
        subst hc'
        subst hel'
        exact assemble c el.prime el.sub (pres_refl c v hinv) hvp hvs
          (fun x hx => hx) (fun x hx => hx)
  · rw [if_neg hdep] at hok
    cases hdc1 : dcNode fuel c el.prime v depth maxDepth with
    | error e1 => rw [hdc1] at hok; simp at hok
    | ok pr =>
      obtain ⟨c1, p1⟩ := pr
      rw [hdc1] at hok
      dsimp only at hok
      cases hdc2 : dcNode fuel c1 el.sub v depth maxDepth with
      | error e1 => rw [hdc2] at hok; simp at hok
      | ok pr2 =>
        obtain ⟨c2, s1⟩ := pr2
        rw [hdc2] at hok
        simp only [mkAndGate, Except.ok.injEq, Prod.mk.injEq] at hok
        obtain ⟨hc', hel'⟩ := hok
        obtain ⟨S1, S2, S3⟩ := ihDN c el.prime depth maxDepth c1 p1 hinv hdc1
        obtain ⟨T1, T2, T3⟩ := ihDN c1 el.sub depth maxDepth c2 s1 S1.1 hdc2
        subst hc'
        subst hel'
        refine assemble c2 p1 s1 (pres_trans v c c1 c2 S1 T1)
          (validR_of_varsPres c1 c2 T1.2.2 p1 S2) T2 ?_ ?_
        · rw [refVars_of_varsPres c1 c2 T1.2.2 p1 S2, S3]
          exact fun x hx => hx
        · rw [T3, refVars_of_varsPres c c1 S1.2.2 el.sub hvs]
          exact fun x hx => hx

theorem dcElemsStep (v fuel : ℕ) (ihDE : DcElemSpec v fuel)
    (ihDEs : DcElemsSpec v fuel) : DcElemsSpec v (fuel + 1) := by
  intro c els depth maxDepth c' els' hinv hvr hok
  cases els with
  | nil =>
    simp only [dcElements, Except.ok.injEq, Prod.mk.injEq] at hok
    obtain ⟨hc', he'⟩ := hok
    subst hc'
    subst he'
    exact ⟨pres_refl c v hinv, fun e' he' => absurd he' (List.not_mem_nil e')⟩
  | cons e es =>
    simp only [dcElements] at hok
    cases hde : dcElement fuel c e v (depth + 1) maxDepth with
    | error e1 => rw [hde] at hok; simp at hok
    | ok pr =>
      obtain ⟨c1, ce⟩ := pr
      rw [hde] at hok
      dsimp only at hok
      cases hds : dcElements fuel c1 es v depth maxDepth with
      | error e1 => rw [hds] at hok; simp at hok
      | ok pr2 =>
        obtain ⟨c2, ces⟩ := pr2
        rw [hds] at hok
        simp only [Except.ok.injEq, Prod.mk.injEq] at hok
        obtain ⟨hc', hels⟩ := hok
        subst hc'
        subst hels
        obtain ⟨S1, S2⟩ := ihDE c e (depth + 1) maxDepth c1 ce hinv
          (hvr e (List.mem_cons_self e es)).1
          (hvr e (List.mem_cons_self e es)).2 hde
        obtain ⟨T1, T2⟩ := ihDEs c1 es depth maxDepth c2 ces S1.1
          (fun e0 he0 =>
            ⟨validR_of_varsPres c c1 S1.2.2 e0.prime
              (hvr e0 (List.mem_cons_of_mem e he0)).1,
             validR_of_varsPres c c1 S1.2.2 e0.sub
              (hvr e0 (List.mem_cons_of_mem e he0)).2⟩) hds
        refine ⟨pres_trans v c c1 c2 S1 T1, ?_⟩
        intro e' he'
        rcases List.mem_cons.mp he' with h | h
        · subst h
          exact ⟨e, List.mem_cons_self e es,
            elemDeriv_transport v c c1 c2 T1 e e' S2⟩
        · obtain ⟨e0, he0, hd0⟩ := T2 e' h
          exact ⟨e0, List.mem_cons_of_mem e he0,
            elemDeriv_precompose v c c1 c2 S1.2.2 e0 e'
              (hvr e0 (List.mem_cons_of_mem e he0)).1
              (hvr e0 (List.mem_cons_of_mem e he0)).2 hd0⟩

theorem gateElems_eq_of_lookup (c : Circuit) (p : ℕ) (g : ArenaGate)
    (h : c.gates[p]? = some g) : gateElems c p = g.elements := by
  rw [gateElems, h]
  rfl

theorem gateVars_eq_of_lookup (c : Circuit) (p : ℕ) (g : ArenaGate)
    (h : c.gates[p]? = some g) : gateVars c p = g.vtreeVars := by
  rw [gateVars, h]
  rfl

theorem dcNodeStep (v fuel : ℕ) (ihDEs : DcElemsSpec v fuel) :
    DcNodeSpec v (fuel + 1) := by
  intro c r depth maxDepth c' r' hinv hok
  cases r with
  | term i =>
    simp only [dcNode, Except.ok.injEq, Prod.mk.injEq] at hok
    obtain ⟨hc', hr'⟩ := hok
    subst hc'
    subst hr'
    exact ⟨pres_refl c v hinv, trivial, rfl⟩
  | gate p =>
    simp only [dcNode] at hok
    cases hg : c.gates[p]? with
    | none => rw [hg] at hok; simp at hok
    | some g =>
      rw [hg] at hok
      dsimp only at hok
      by_cases hne : g.elements.isEmpty = true
      · rw [if_pos hne] at hok; simp at hok
      · rw [if_neg hne] at hok
        cases hds : dcElements fuel c g.elements v depth maxDepth with
        | error e1 => rw [hds] at hok; simp at hok
        | ok pr =>
          obtain ⟨c1, copiedEls⟩ := pr
          rw [hds] at hok
          simp only [Except.ok.injEq, Prod.mk.injEq] at hok
          obtain ⟨hc', hr'⟩ := hok
          have hgelems : gateElems c p = g.elements :=
            gateElems_eq_of_lookup c p g hg
          have hgvars : gateVars c p = g.vtreeVars :=
            gateVars_eq_of_lookup c p g hg
          obtain ⟨S1, S2⟩ := ihDEs c g.elements depth maxDepth c1 copiedEls
            hinv
            (fun e he => hinv.2.2.1 p e (hgelems ▸ he)) hds
          have helems2 : ∀ e' ∈ copiedEls,
              (∀ x ∈ refVtreeVars c1 e'.prime, x ∈ g.vtreeVars) ∧
              (∀ x ∈ refVtreeVars c1 e'.sub, x ∈ g.vtreeVars) ∧
              (∀ x ∈ e'.splittable, x ∈ g.vtreeVars) ∧
              ¬(v ∈ refVtreeVars c1 e'.prime ∧ v ∈ refVtreeVars c1 e'.sub) ∧
              ValidR c1 e'.prime ∧ ValidR c1 e'.sub := by
            intro e' he'
            obtain ⟨e, he, hd⟩ := S2 e' he'
            obtain ⟨hd1, hd2, hd3, hd4, hd5⟩ := hd
            obtain ⟨hw1, hw2, hw3, hw4⟩ := hinv.1 p e (hgelems ▸ he)
            rw [hgvars] at hw1 hw2 hw3
            refine ⟨fun x hx => hw1 x (hd1 x hx),
              fun x hx => hw2 x (hd2 x hx),
              fun x hx => hw3 x (hd3 x hx), ?_, hd4, hd5⟩
            intro hx
            exact hw4 ⟨hd1 v hx.1, hd2 v hx.2⟩
          have hclean2 : v ∉ g.vtreeVars → ∀ e' ∈ copiedEls,
              CleanEl c1 v e' := by
            intro hvg e' he'
            obtain ⟨h1, h2, h3, h4, h5, h6⟩ := helems2 e' he'
            refine ⟨fun hv0 => hvg (h3 v hv0), ?_, ?_⟩
            · refine pathVClean_of_not_mem_vars c1 v e'.prime S1.1 ?_
              intro hv0
              exact hvg (h1 v hv0)
            · refine pathVClean_of_not_mem_vars c1 v e'.sub S1.1 ?_
              intro hv0
              exact hvg (h2 v hv0)
          have happ := pres_append c1 v (c1.largestIndex + 1)
            (⟨c1.largestIndex + 1, g.vtreeIndex, g.vtreeVars, copiedEls, 0⟩ :
              ArenaGate) helems2 hclean2 S1.1
          subst hc'
          subst hr'
          refine ⟨pres_trans v c c1 _ S1 happ, isSome_append_new c1
            (c1.largestIndex + 1) _, ?_⟩
          rw [refVtreeVars_gate, refVtreeVars_gate, hgvars]
          exact gateVars_append_new c1 (c1.largestIndex + 1) _

theorem pres_condInc (c : Circuit) (v : ℕ) (b : Bool) (r : NodeRef)
    (hinv : MutInv c v) : Pres v c (if b then incRefParents c r else c) := by
  cases b with
  | false => exact pres_refl c v hinv
  | true => exact pres_incRef c v r hinv

/-- The tail of `_copy_and_modify_element_for_split` (lines 405-422): given
the walk results and their hygiene facts, the rebuilt original and the
copied element are hygienic and derived from the input element. -/
theorem cmFinish (v : ℕ) (c c2 : Circuit) (el el1 : ArenaElem)
    (op os : Option NodeRef) (pW sW : Bool)
    (copiedEl : Option ArenaElem) (c' : Circuit) (oe ce : Option ArenaElem)
    (hP : Pres v c c2)
    (hspl1 : v ∉ el1.splittable)
    (hspl2 : ∀ x ∈ el1.splittable, x ∈ el.splittable)
    (hop : ∀ r', op = some r' → PathVClean c2 v r' ∧ ValidR c2 r' ∧
      (∀ x ∈ refVtreeVars c2 r', x ∈ refVtreeVars c el.prime))
    (hos : ∀ r', os = some r' → PathVClean c2 v r' ∧ ValidR c2 r' ∧
      (∀ x ∈ refVtreeVars c2 r', x ∈ refVtreeVars c el.sub))
    (hcop : ∀ e', copiedEl = some e' →
      CleanEl c2 v e' ∧ ElemDeriv c c2 el e')
    (hok :
      ((match (op, pW), (os, sW) with
        | (some p, pWalked), (some s, sWalked) =>
          Except.ok
            (if sWalked then
                incRefParents (if pWalked then incRefParents c2 p else c2) s
              else if pWalked then incRefParents c2 p else c2,
              some { el1 with prime := p, sub := s }, copiedEl)
        | _, _ => Except.ok (c2, none, copiedEl)) :
        Except String (Circuit × Option ArenaElem × Option ArenaElem)) =
        .ok (c', oe, ce)) :
    Pres v c c' ∧
    (∀ e', oe = some e' → CleanEl c' v e' ∧ ElemDeriv c c' el e') ∧
    (∀ e', ce = some e' → CleanEl c' v e' ∧ ElemDeriv c c' el e') := by
  cases op with
  | none =>
    simp only [Except.ok.injEq, Prod.mk.injEq] at hok
    obtain ⟨h1, h2, h3⟩ := hok
    subst h1
    subst h2
    subst h3
    exact ⟨hP, fun e' he' => Option.noConfusion he', hcop⟩
  | some po =>
    cases os with
    | none =>
      simp only [Except.ok.injEq, Prod.mk.injEq] at hok
      obtain ⟨h1, h2, h3⟩ := hok
      subst h1
      subst h2
      subst h3
      exact ⟨hP, fun e' he' => Option.noConfusion he', hcop⟩
    | some so =>
      simp only [Except.ok.injEq, Prod.mk.injEq] at hok
      obtain ⟨h1, h2, h3⟩ := hok
      obtain ⟨hop1, hop2, hop3⟩ := hop po rfl
      obtain ⟨hos1, hos2, hos3⟩ := hos so rfl
      have hP3 : Pres v c2 (if pW then incRefParents c2 po else c2) :=
        pres_condInc c2 v pW po hP.1
      have hP4 : Pres v (if pW then incRefParents c2 po else c2)
          (if sW then
              incRefParents (if pW then incRefParents c2 po else c2) so
            else if pW then incRefParents c2 po else c2) :=
        pres_condInc _ v sW so hP3.1
      have hPf : Pres v c2
          (if sW then
              incRefParents (if pW then incRefParents c2 po else c2) so
            else if pW then incRefParents c2 po else c2) :=
        pres_trans v c2 _ _ hP3 hP4
      subst h1
      subst h2
      subst h3
      refine ⟨pres_trans v c c2 _ hP hPf, ?_, ?_⟩
      · intro e' he'
        injection he' with he2
        subst he2
        refine ⟨⟨hspl1, hPf.2.1 po hop2 hop1, hPf.2.1 so hos2 hos1⟩,
          ?_, ?_, hspl2, validR_of_varsPres c2 _ hPf.2.2 po hop2,
          validR_of_varsPres c2 _ hPf.2.2 so hos2⟩
        · show ∀ x ∈ refVtreeVars _ po, _
          rw [refVars_of_varsPres c2 _ hPf.2.2 po hop2]
          exact hop3
        · show ∀ x ∈ refVtreeVars _ so, _
          rw [refVars_of_varsPres c2 _ hPf.2.2 so hos2]
          exact hos3
      · intro e' he'
        obtain ⟨hc1, hc2⟩ := hcop e' he'
        exact ⟨cleanEl_transport v c2 _ hPf e' hc2.2.2.2.1 hc2.2.2.2.2 hc1,
          elemDeriv_transport v c c2 _ hPf el e' hc2⟩

theorem nodeOut_transport (v : ℕ) (ca cb : Circuit) (L : List ℕ)
    (r : NodeRef) (h : Pres v ca cb)
    (h1 : PathVClean ca v r) (h2 : ValidR ca r)
    (h3 : ∀ x ∈ refVtreeVars ca r, x ∈ L) :
    PathVClean cb v r ∧ ValidR cb r ∧ ∀ x ∈ refVtreeVars cb r, x ∈ L := by
  refine ⟨h.2.1 r h2 h1, validR_of_varsPres ca cb h.2.2 r h2, ?_⟩
  rw [refVars_of_varsPres ca cb h.2.2 r h2]
  exact h3

/-- Lines 405-412: the copied element built by `AndGate` from the two
copied children inherits the (already reduced) splittable set and is
hygienic whenever its children are. -/
theorem mkCopiedFacts (v : ℕ) (c cw : Circuit) (el : ArenaElem)
    (spl : List ℕ) (pr sr : NodeRef) (par : ℚ)
    (hinvw : MutInv cw v)
    (hspl1 : v ∉ spl) (hspl2 : ∀ x ∈ spl, x ∈ el.splittable)
    (hp1 : PathVClean cw v pr) (hp2 : ValidR cw pr)
    (hp3 : ∀ x ∈ refVtreeVars cw pr, x ∈ refVtreeVars c el.prime)
    (hs1 : PathVClean cw v sr) (hs2 : ValidR cw sr)
    (hs3 : ∀ x ∈ refVtreeVars cw sr, x ∈ refVtreeVars c el.sub) :
    Pres v cw (mkAndGate cw pr sr par).1 ∧
    CleanEl (mkAndGate cw pr sr par).1 v
      { (mkAndGate cw pr sr par).2 with splittable := spl } ∧
    ElemDeriv c (mkAndGate cw pr sr par).1 el
      { (mkAndGate cw pr sr par).2 with splittable := spl } := by
  have hPmk : Pres v cw (mkAndGate cw pr sr par).1 :=
    pres_mkAndGate cw v pr sr par hinvw
  refine ⟨hPmk, ⟨hspl1, hPmk.2.1 pr hp2 hp1, hPmk.2.1 sr hs2 hs1⟩,
    ?_, ?_, hspl2, validR_of_varsPres cw _ hPmk.2.2 pr hp2,
    validR_of_varsPres cw _ hPmk.2.2 sr hs2⟩
  · show ∀ x ∈ refVtreeVars (mkAndGate cw pr sr par).1 pr, _
    rw [refVars_of_varsPres cw _ hPmk.2.2 pr hp2]
    exact hp3
  · show ∀ x ∈ refVtreeVars (mkAndGate cw pr sr par).1 sr, _
    rw [refVars_of_varsPres cw _ hPmk.2.2 sr hs2]
    exact hs3

theorem cmElemStep (v fuel : ℕ) (ihN : CmNodeSpec v fuel) :
    CmElemSpec v (fuel + 1) := by
  intro c el depth maxDepth c' oe ce hinv hfacts hok
  obtain ⟨hdisj, hvalP, hvalS⟩ := hfacts
  unfold cmElement at hok
  simp only [removeSplittable] at hok
  have hspl1 : v ∉ el.splittable.filter (fun x => x ≠ v) := by simp
  have hspl2 : ∀ x ∈ el.splittable.filter (fun x => x ≠ v),
      x ∈ el.splittable := fun x hx => List.mem_of_mem_filter hx
  by_cases hdep : maxDepth ≤ depth
  · rw [if_pos hdep] at hok
    by_cases hvp : v ∈ refVtreeVars c el.prime
    · rw [if_pos hvp] at hok
      cases hcm : cmNode fuel c el.prime v depth maxDepth with
      | error e1 => rw [hcm] at hok; simp at hok
      | ok tr =>
        obtain ⟨c1, op, cp⟩ := tr
        rw [hcm] at hok
        dsimp only at hok
        obtain ⟨S1, S2, S3⟩ := ihN c el.prime depth maxDepth c1 op cp hinv hcm
        have hsubfree : v ∉ refVtreeVars c el.sub := fun h2 => hdisj ⟨hvp, h2⟩
        have hsc : PathVClean c v el.sub :=
          pathVClean_of_not_mem_vars c v el.sub hinv hsubfree
        have hsub1 := nodeOut_transport v c c1 (refVtreeVars c el.sub)
          el.sub S1 hsc hvalS (fun x hx => hx)
        cases cp with
        | none =>
          refine cmFinish v c c1 el ({ el with splittable := el.splittable.filter (fun x => x ≠ v), flag := true }) op (some el.sub) true false none c' oe ce S1
            hspl1 hspl2 S2 ?_ (fun e' he' => Option.noConfusion he') hok
          intro r' hr'
          injection hr' with h
          subst h
          exact hsub1
        | some pc =>
          simp only [mkAndGate] at hok
          obtain ⟨hcp1, hcp2, hcp3⟩ := S3 pc rfl
          obtain ⟨hPmk, hCE, hDV⟩ := mkCopiedFacts v c c1 el
            (el.splittable.filter (fun x => x ≠ v)) pc el.sub el.parameter
            S1.1 hspl1 hspl2 hcp1 hcp2 hcp3 hsub1.1 hsub1.2.1 hsub1.2.2
          refine cmFinish v c _ el ({ el with splittable := el.splittable.filter (fun x => x ≠ v), flag := true }) op (some el.sub) true false _ c' oe ce
            (pres_trans v c c1 _ S1 hPmk) hspl1 hspl2 ?_ ?_ ?_ hok
          · intro r' hr'
            obtain ⟨f1, f2, f3⟩ := S2 r' hr'
            exact nodeOut_transport v c1 _ _ r' hPmk f1 f2 f3
          · intro r' hr'
            injection hr' with h
            subst h
            exact nodeOut_transport v c1 _ _ el.sub hPmk hsub1.1 hsub1.2.1
              hsub1.2.2
          · intro e' he'
            injection he' with h
            subst h
            exact ⟨hCE, hDV⟩
    · rw [if_neg hvp] at hok
      by_cases hvs2 : v ∈ refVtreeVars c el.sub
      · rw [if_pos hvs2] at hok
        cases hcm : cmNode fuel c el.sub v depth maxDepth with
        | error e1 => rw [hcm] at hok; simp at hok
        | ok tr =>
          obtain ⟨c1, os, cs⟩ := tr
          rw [hcm] at hok
          dsimp only at hok
          obtain ⟨S1, S2, S3⟩ := ihN c el.sub depth maxDepth c1 os cs hinv hcm
          have hpc0 : PathVClean c v el.prime :=
            pathVClean_of_not_mem_vars c v el.prime hinv hvp
          have hpr1 := nodeOut_transport v c c1 (refVtreeVars c el.prime)
            el.prime S1 hpc0 hvalP (fun x hx => hx)
          cases cs with
          | none =>
            refine cmFinish v c c1 el ({ el with splittable := el.splittable.filter (fun x => x ≠ v), flag := true }) (some el.prime) os false true none c' oe ce S1
              hspl1 hspl2 ?_ S2 (fun e' he' => Option.noConfusion he') hok
            intro r' hr'
            injection hr' with h
            subst h
            exact hpr1
          | some sc =>
            simp only [mkAndGate] at hok
            obtain ⟨hcs1, hcs2, hcs3⟩ := S3 sc rfl
            obtain ⟨hPmk, hCE, hDV⟩ := mkCopiedFacts v c c1 el
              (el.splittable.filter (fun x => x ≠ v)) el.prime sc
              el.parameter S1.1 hspl1 hspl2 hpr1.1 hpr1.2.1 hpr1.2.2 hcs1
              hcs2 hcs3
            refine cmFinish v c _ el ({ el with splittable := el.splittable.filter (fun x => x ≠ v), flag := true }) (some el.prime) os false true _ c' oe ce
              (pres_trans v c c1 _ S1 hPmk) hspl1 hspl2 ?_ ?_ ?_ hok
            · intro r' hr'
              injection hr' with h
              subst h
              exact nodeOut_transport v c1 _ _ el.prime hPmk hpr1.1 hpr1.2.1
                hpr1.2.2
            · intro r' hr'
              obtain ⟨f1, f2, f3⟩ := S2 r' hr'
              exact nodeOut_transport v c1 _ _ r' hPmk f1 f2 f3
            · intro e' he'
              injection he' with h
              subst h
              exact ⟨hCE, hDV⟩
      · rw [if_neg hvs2] at hok
        simp only [mkAndGate] at hok
        have hpc0 : PathVClean c v el.prime :=
          pathVClean_of_not_mem_vars c v el.prime hinv hvp
        have hsc0 : PathVClean c v el.sub :=
          pathVClean_of_not_mem_vars c v el.sub hinv hvs2
        obtain ⟨hPmk, hCE, hDV⟩ := mkCopiedFacts v c c el
          (el.splittable.filter (fun x => x ≠ v)) el.prime el.sub
          el.parameter hinv hspl1 hspl2 hpc0 hvalP (fun x hx => hx) hsc0
          hvalS (fun x hx => hx)
        refine cmFinish v c _ el ({ el with splittable := el.splittable.filter (fun x => x ≠ v), flag := true }) (some el.prime) (some el.sub) false false _ c' oe
          ce hPmk hspl1 hspl2 ?_ ?_ ?_ hok
        · intro r' hr'
          injection hr' with h
          subst h
          exact nodeOut_transport v c _ _ el.prime hPmk hpc0 hvalP
            (fun x hx => hx)
        · intro r' hr'
          injection hr' with h
          subst h
          exact nodeOut_transport v c _ _ el.sub hPmk hsc0 hvalS
            (fun x hx => hx)
        · intro e' he'
          injection he' with h
          subst h
          exact ⟨hCE, hDV⟩
  · rw [if_neg hdep] at hok
    cases hcm1 : cmNode fuel c el.prime v depth maxDepth with
    | error e1 => rw [hcm1] at hok; simp at hok
    | ok tr =>
      obtain ⟨c1, op, cp⟩ := tr
      rw [hcm1] at hok
      dsimp only at hok
      cases hcm2 : cmNode fuel c1 el.sub v depth maxDepth with
      | error e1 => rw [hcm2] at hok; simp at hok
      | ok tr2 =>
        obtain ⟨c2n, os, cs⟩ := tr2
        rw [hcm2] at hok
        dsimp only at hok
        obtain ⟨S1, S2, S3⟩ := ihN c el.prime depth maxDepth c1 op cp hinv
          hcm1
        obtain ⟨T1, T2, T3⟩ := ihN c1 el.sub depth maxDepth c2n os cs S1.1
          hcm2
        have hsubeq : refVtreeVars c1 el.sub = refVtreeVars c el.sub :=
          refVars_of_varsPres c c1 S1.2.2 el.sub hvalS
        have hP2 : Pres v c c2n := pres_trans v c c1 c2n S1 T1
        have hopF : ∀ r', op = some r' → PathVClean c2n v r' ∧
            ValidR c2n r' ∧
            ∀ x ∈ refVtreeVars c2n r', x ∈ refVtreeVars c el.prime := by
          intro r' hr'
          obtain ⟨f1, f2, f3⟩ := S2 r' hr'
          exact nodeOut_transport v c1 c2n _ r' T1 f1 f2 f3
        have hosF : ∀ r', os = some r' → PathVClean c2n v r' ∧
            ValidR c2n r' ∧
            ∀ x ∈ refVtreeVars c2n r', x ∈ refVtreeVars c el.sub := by
          intro r' hr'
          obtain ⟨f1, f2, f3⟩ := T2 r' hr'
          exact ⟨f1, f2, fun x hx => hsubeq ▸ f3 x hx⟩
        have hcpF : ∀ r', cp = some r' → PathVClean c2n v r' ∧
            ValidR c2n r' ∧
            ∀ x ∈ refVtreeVars c2n r', x ∈ refVtreeVars c el.prime := by
          intro r' hr'
          obtain ⟨f1, f2, f3⟩ := S3 r' hr'
          exact nodeOut_transport v c1 c2n _ r' T1 f1 f2 f3
        have hcsF : ∀ r', cs = some r' → PathVClean c2n v r' ∧
            ValidR c2n r' ∧
            ∀ x ∈ refVtreeVars c2n r', x ∈ refVtreeVars c el.sub := by
          intro r' hr'
          obtain ⟨f1, f2, f3⟩ := T3 r' hr'
          exact ⟨f1, f2, fun x hx => hsubeq ▸ f3 x hx⟩
        cases cp with
        | none =>
          refine cmFinish v c c2n el ({ el with splittable := el.splittable.filter (fun x => x ≠ v), flag := true }) op os true true none c' oe ce hP2 hspl1 hspl2
            hopF hosF (fun e' he' => Option.noConfusion he') hok
        | some pc =>
          cases cs with
          | none =>
            refine cmFinish v c c2n el ({ el with splittable := el.splittable.filter (fun x => x ≠ v), flag := true }) op os true true none c' oe ce hP2 hspl1 hspl2
              hopF hosF (fun e' he' => Option.noConfusion he') hok
          | some sc =>
            simp only [mkAndGate] at hok
            obtain ⟨g1, g2, g3⟩ := hcpF pc rfl
            obtain ⟨g4, g5, g6⟩ := hcsF sc rfl
            obtain ⟨hPmk, hCE, hDV⟩ := mkCopiedFacts v c c2n el
              (el.splittable.filter (fun x => x ≠ v)) pc sc el.parameter
              hP2.1 hspl1 hspl2 g1 g2 g3 g4 g5 g6
            refine cmFinish v c _ el ({ el with splittable := el.splittable.filter (fun x => x ≠ v), flag := true }) op os true true _ c' oe ce
              (pres_trans v c c2n _ hP2 hPmk) hspl1 hspl2 ?_ ?_ ?_ hok
            · intro r' hr'
              obtain ⟨f1, f2, f3⟩ := hopF r' hr'
              exact nodeOut_transport v c2n _ _ r' hPmk f1 f2 f3
            · intro r' hr'
              obtain ⟨f1, f2, f3⟩ := hosF r' hr'
              exact nodeOut_transport v c2n _ _ r' hPmk f1 f2 f3
            · intro e' he'
              injection he' with h
              subst h
              exact ⟨hCE, hDV⟩

/-- Hygiene of the node returned by the write-back tail of
`_copy_and_modify_node_for_split`. -/
theorem cmNodeTailSpec (v : ℕ) (c ca c2 : Circuit) (p p1 : ℕ)
    (survivors copies : List ArenaElem) (c' : Circuit)
    (rn cn : Option NodeRef)
    (hPa : Pres v c ca)
    (hV1 : ValidR ca (.gate p1))
    (hVar1 : refVtreeVars ca (.gate p1) = refVtreeVars c (.gate p))
    (hPes : Pres v ca c2)
    (hsurv : ∀ e' ∈ survivors, CleanEl c2 v e' ∧
      ∃ e ∈ gateElems ca p1, ElemDeriv ca c2 e e')
    (hcops : ∀ e' ∈ copies, CleanEl c2 v e' ∧
      ∃ e ∈ gateElems ca p1, ElemDeriv ca c2 e e')
    (hok : cmNodeTail c2 p1 survivors copies = (c', rn, cn)) :
    Pres v c c' ∧
    (∀ r', rn = some r' → PathVClean c' v r' ∧ ValidR c' r' ∧
      (∀ x ∈ refVtreeVars c' r', x ∈ refVtreeVars c (.gate p))) ∧
    (∀ r', cn = some r' → PathVClean c' v r' ∧ ValidR c' r' ∧
      (∀ x ∈ refVtreeVars c' r', x ∈ refVtreeVars c (.gate p))) := by
  have hV2 : ValidR c2 (.gate p1) := validR_of_varsPres ca c2 hPes.2.2 _ hV1
  have hgv2 : gateVars c2 p1 = gateVars ca p1 := (hPes.2.2.2.2 p1 hV1).2
  have hwAll : ∀ e',
      (CleanEl c2 v e' ∧ ∃ e ∈ gateElems ca p1, ElemDeriv ca c2 e e') →
      (∀ x ∈ refVtreeVars c2 e'.prime, x ∈ gateVars c2 p1) ∧
      (∀ x ∈ refVtreeVars c2 e'.sub, x ∈ gateVars c2 p1) ∧
      (∀ x ∈ e'.splittable, x ∈ gateVars c2 p1) ∧
      ¬(v ∈ refVtreeVars c2 e'.prime ∧ v ∈ refVtreeVars c2 e'.sub) ∧
      ValidR c2 e'.prime ∧ ValidR c2 e'.sub := by
    rintro e' ⟨hcl, e, he, hd1, hd2, hd3, hd4, hd5⟩
    obtain ⟨hw1, hw2, hw3, hw4⟩ := hPa.1.1 p1 e he
    rw [hgv2]
    refine ⟨fun x hx => hw1 x (hd1 x hx), fun x hx => hw2 x (hd2 x hx),
      fun x hx => hw3 x (hd3 x hx), ?_, hd4, hd5⟩
    intro hx
    exact hw4 ⟨hd1 v hx.1, hd2 v hx.2⟩
  unfold cmNodeTail at hok
  dsimp only at hok
  set c2b := modifyGateAt c2 p1 (fun g1 => { g1 with elements := survivors })
    with hc2bdef
  have hrw : Pres v c2 c2b :=
    pres_rewrite c2 v p1 survivors (fun e' he' => (hsurv e' he').1)
      (fun e' he' => hwAll e' (hsurv e' he'))
      hPes.1
  have hsurvb : ∀ e' ∈ survivors, CleanEl c2b v e' := by
    intro e' he'
    obtain ⟨-, -, -, -, h5, h6⟩ := hwAll e' (hsurv e' he')
    exact cleanEl_transport v c2 _ hrw e' h5 h6 (hsurv e' he').1
  have hcopsb : ∀ e' ∈ copies, CleanEl c2b v e' := by
    intro e' he'
    obtain ⟨-, -, -, -, h5, h6⟩ := hwAll e' (hcops e' he')
    exact cleanEl_transport v c2 _ hrw e' h5 h6 (hcops e' he').1
  have hV2b : ValidR c2b (.gate p1) := validR_of_varsPres c2 _ hrw.2.2 _ hV2
  have hgv2b : gateVars c2b p1 = gateVars c2 p1 := (hrw.2.2.2.2 p1 hV2).2
  have hgelemsb : gateElems c2b p1 = survivors :=
    gateElems_rewrite_self c2 p1 survivors hV2
  have hvarChain : gateVars c2b p1 = refVtreeVars c (.gate p) := by
    rw [hgv2b, hgv2, ← refVtreeVars_gate, hVar1]
  by_cases hemp : copies.isEmpty = true
  · rw [if_pos hemp] at hok
    dsimp only at hok
    simp only [Prod.mk.injEq] at hok
    obtain ⟨h1, h2, h3⟩ := hok
    subst h1
    subst h2
    subst h3
    refine ⟨pres_trans v c c2 _ (pres_trans v c ca c2 hPa hPes) hrw, ?_, ?_⟩
    · intro r' hr'
      by_cases hse : survivors.isEmpty = true
      · rw [if_pos hse] at hr'
        exact Option.noConfusion hr'
      · rw [if_neg hse] at hr'
        injection hr' with h
        subst h
        refine ⟨?_, hV2b, ?_⟩
        · rw [pathVClean_gate_iff, hgelemsb]
          exact hsurvb
        · rw [refVtreeVars_gate, hvarChain]
          exact fun x hx => hx
    · intro r' hr'
      exact Option.noConfusion hr'
  · rw [if_neg hemp] at hok
    dsimp only at hok
    simp only [Prod.mk.injEq] at hok
    obtain ⟨h1, h2, h3⟩ := hok
    have helems3 : ∀ e' ∈ copies,
        (∀ x ∈ refVtreeVars c2b e'.prime, x ∈ gateVars c2b p1) ∧
        (∀ x ∈ refVtreeVars c2b e'.sub, x ∈ gateVars c2b p1) ∧
        (∀ x ∈ e'.splittable, x ∈ gateVars c2b p1) ∧
        ¬(v ∈ refVtreeVars c2b e'.prime ∧ v ∈ refVtreeVars c2b e'.sub) ∧
        ValidR c2b e'.prime ∧ ValidR c2b e'.sub := by
      intro e' he'
      obtain ⟨hw1, hw2, hw3, hw4, hw5, hw6⟩ := hwAll e' (hcops e' he')
      have hvp2 := refVars_of_varsPres c2 _ hrw.2.2 e'.prime hw5
      have hvs2 := refVars_of_varsPres c2 _ hrw.2.2 e'.sub hw6
      rw [hvp2, hvs2, hgv2b]
      exact ⟨hw1, hw2, hw3, hw4, validR_of_varsPres c2 _ hrw.2.2 _ hw5,
        validR_of_varsPres c2 _ hrw.2.2 _ hw6⟩
    have hgclean3 : v ∉ gateVars c2b p1 → ∀ e' ∈ copies, CleanEl c2b v e' :=
      fun _ => hcopsb
    have happ := pres_append c2b v (c2b.largestIndex + 1)
      (⟨c2b.largestIndex + 1,
        ((c2b.gates[p1]?).map (fun g0 : ArenaGate => g0.vtreeIndex)).getD 0,
        ((c2b.gates[p1]?).map (fun g0 : ArenaGate => g0.vtreeVars)).getD [],
        copies, 0⟩ : ArenaGate) helems3 hgclean3 hrw.1
    subst h1
    subst h2
    subst h3
    have hPtot : Pres v c2 _ := pres_trans v c2 _ _ hrw happ
    refine ⟨pres_trans v c c2 _ (pres_trans v c ca c2 hPa hPes) hPtot,
      ?_, ?_⟩
    · intro r' hr'
      by_cases hse : survivors.isEmpty = true
      · rw [if_pos hse] at hr'
        exact Option.noConfusion hr'
      · rw [if_neg hse] at hr'
        injection hr' with h
        subst h
        have hplt : p1 < c2b.gates.length := by
          cases hg0 : c2b.gates[p1]? with
          | none => rw [ValidR, hg0] at hV2b; cases hV2b
          | some g0 => exact (List.getElem?_eq_some.mp hg0).1
        refine ⟨?_, validR_of_varsPres _ _ happ.2.2 _ hV2b, ?_⟩
        · rw [pathVClean_gate_iff, gateElems_append_lt _ _ _ p1 hplt,
            hgelemsb]
          intro e' he'
          obtain ⟨-, -, -, -, h5, h6⟩ := hwAll e' (hsurv e' he')
          exact cleanEl_transport v _ _ happ e'
            (validR_of_varsPres c2 _ hrw.2.2 _ h5)
            (validR_of_varsPres c2 _ hrw.2.2 _ h6) (hsurvb e' he')
        · rw [refVtreeVars_gate, (happ.2.2.2.2 p1 hV2b).2, hvarChain]
          exact fun x hx => hx
    · intro r' hr'
      injection hr' with h
      subst h
      refine ⟨?_, isSome_append_new _ _ _, ?_⟩
      · rw [pathVClean_gate_iff, gateElems_append_new]
        intro e' he'
        obtain ⟨-, -, -, -, h5, h6⟩ := hwAll e' (hcops e' he')
        exact cleanEl_transport v _ _ happ e'
          (validR_of_varsPres c2 _ hrw.2.2 _ h5)
          (validR_of_varsPres c2 _ hrw.2.2 _ h6) (hcopsb e' he')
      · rw [refVtreeVars_gate, gateVars_append_new]
        show ∀ x ∈ gateVars c2b p1, _
        rw [hvarChain]
        exact fun x hx => hx

theorem cmElemsStep (v fuel : ℕ) (ihE : CmElemSpec v fuel)
    (ihEs : CmElemsSpec v fuel) : CmElemsSpec v (fuel + 1) := by
  intro c els depth maxDepth c' survivors copies hinv hfs hok
  cases els with
  | nil =>
    simp only [cmElements, Except.ok.injEq, Prod.mk.injEq] at hok
    obtain ⟨h1, h2, h3⟩ := hok
    subst h1
    subst h2
    subst h3
    exact ⟨pres_refl c v hinv,
      fun e' he' => absurd he' (List.not_mem_nil e'),
      fun e' he' => absurd he' (List.not_mem_nil e')⟩
  | cons e es =>
    simp only [cmElements] at hok
    cases hce : cmElement fuel c e v (depth + 1) maxDepth with
    | error e1 => rw [hce] at hok; simp at hok
    | ok tr =>
      obtain ⟨c1, oe1, ce1⟩ := tr
      rw [hce] at hok
      dsimp only at hok
      cases hcs : cmElements fuel c1 es v depth maxDepth with
      | error e1 => rw [hcs] at hok; simp at hok
      | ok tr2 =>
        obtain ⟨c2, surv2, cop2⟩ := tr2
        rw [hcs] at hok
        simp only [Except.ok.injEq, Prod.mk.injEq] at hok
        obtain ⟨h1, h2, h3⟩ := hok
        subst h1
        subst h2
        subst h3
        obtain ⟨S1, S2, S3⟩ := ihE c e (depth + 1) maxDepth c1 oe1 ce1 hinv
          (hfs e (List.mem_cons_self e es)) hce
        obtain ⟨T1, T2, T3⟩ := ihEs c1 es depth maxDepth c2 surv2 cop2 S1.1
          (fun e0 he0 => elemFacts_transport v c c1 S1 e0
            (hfs e0 (List.mem_cons_of_mem e he0))) hcs
        have hTail : ∀ e' ∈ surv2, CleanEl c2 v e' ∧
            ∃ e0 ∈ e :: es, ElemDeriv c c2 e0 e' := by
          intro e' he'
          obtain ⟨hc1, e0, he0, hd0⟩ := T2 e' he'
          exact ⟨hc1, e0, List.mem_cons_of_mem e he0,
            elemDeriv_precompose v c c1 c2 S1.2.2 e0 e'
              (hfs e0 (List.mem_cons_of_mem e he0)).2.1
              (hfs e0 (List.mem_cons_of_mem e he0)).2.2 hd0⟩
        have hTailC : ∀ e' ∈ cop2, CleanEl c2 v e' ∧
            ∃ e0 ∈ e :: es, ElemDeriv c c2 e0 e' := by
          intro e' he'
          obtain ⟨hc1, e0, he0, hd0⟩ := T3 e' he'
          exact ⟨hc1, e0, List.mem_cons_of_mem e he0,
            elemDeriv_precompose v c c1 c2 S1.2.2 e0 e'
              (hfs e0 (List.mem_cons_of_mem e he0)).2.1
              (hfs e0 (List.mem_cons_of_mem e he0)).2.2 hd0⟩
        refine ⟨pres_trans v c c1 c2 S1 T1, ?_, ?_⟩
        · intro e' he'
          rcases oe1 with _ | oeV
          · exact hTail e' he'
          · rcases List.mem_cons.mp he' with h | h
            · subst h
              obtain ⟨hc1, hd1⟩ := S2 e' rfl
              exact ⟨cleanEl_transport v c1 c2 T1 e' hd1.2.2.2.1
                  hd1.2.2.2.2 hc1,
                e, List.mem_cons_self e es,
                elemDeriv_transport v c c1 c2 T1 e e' hd1⟩
            · exact hTail e' h
        · intro e' he'
          rcases ce1 with _ | ceV
          · exact hTailC e' he'
          · rcases List.mem_cons.mp he' with h | h
            · subst h
              obtain ⟨hc1, hd1⟩ := S3 e' rfl
              exact ⟨cleanEl_transport v c1 c2 T1 e' hd1.2.2.2.1
                  hd1.2.2.2.2 hc1,
                e, List.mem_cons_self e es,
                elemDeriv_transport v c c1 c2 T1 e e' hd1⟩
            · exact hTailC e' h

theorem cmNodeStep (v fuel : ℕ) (ihDN : DcNodeSpec v fuel)
    (ihEs : CmElemsSpec v fuel) : CmNodeSpec v (fuel + 1) := by
  intro c r depth maxDepth c' rn cn hinv hok
  unfold cmNode at hok
  by_cases h0 : refNumParents c r = 0
  · rw [if_pos h0] at hok
    simp at hok
  · rw [if_neg h0] at hok
    dsimp only at hok
    have hPdec : Pres v c (decRefParents c r) := pres_decRef c v r hinv
    cases r with
    | term i =>
      dsimp only at hok
      cases ht : (decRefParents c (.term i)).terms[i]? with
      | none => rw [ht] at hok; simp at hok
      | some t =>
        rw [ht] at hok
        dsimp only at hok
        have hveq : refVtreeVars (decRefParents c (.term i)) (.term i) =
            refVtreeVars c (.term i) :=
          refVars_of_varsPres c _ hPdec.2.2 (.term i) trivial
        by_cases hvi : t.varIndex = v
        · rw [if_pos hvi] at hok
          by_cases hvv : t.varValue = true
          · rw [if_pos hvv] at hok
            simp only [Except.ok.injEq, Prod.mk.injEq] at hok
            obtain ⟨h1, h2, h3⟩ := hok
            subst h1
            subst h2
            subst h3
            refine ⟨hPdec, ?_, fun r' hr' => Option.noConfusion hr'⟩
            intro r' hr'
            injection hr' with h
            subst h
            refine ⟨pathVClean_term _ v i, trivial, ?_⟩
            rw [hveq]
            exact fun x hx => hx
          · rw [if_neg hvv] at hok
            simp only [Except.ok.injEq, Prod.mk.injEq] at hok
            obtain ⟨h1, h2, h3⟩ := hok
            subst h1
            subst h2
            subst h3
            refine ⟨hPdec, fun r' hr' => Option.noConfusion hr', ?_⟩
            intro r' hr'
            injection hr' with h
            subst h
            refine ⟨pathVClean_term _ v _, trivial, ?_⟩
            have hvv2 : t.varValue = false := by
              revert hvv
              cases t.varValue <;> simp
            have hflip := hPdec.1.2.2.2 i t ht hvv2
            rw [hvi] at hflip
            have hL : refVtreeVars (decRefParents c (.term i))
                (.term ((decRefParents c (.term i)).numVariables + v - 1)) =
                t.vtreeVars := by
              show ((((decRefParents c (.term i)).terms[(decRefParents c
                (.term i)).numVariables + v - 1]?).map (·.vtreeVars))).getD
                [] = t.vtreeVars
              rw [hflip]
              rfl
            have hR : refVtreeVars c (.term i) = t.vtreeVars := by
              rw [← hveq]
              show (((decRefParents c (.term i)).terms[i]?).map
                (·.vtreeVars)).getD [] = t.vtreeVars
              rw [ht]
              rfl
            rw [hL, hR]
            exact fun x hx => hx
        · rw [if_neg hvi] at hok
          simp only [Except.ok.injEq, Prod.mk.injEq] at hok
          obtain ⟨h1, h2, h3⟩ := hok
          subst h1
          subst h2
          subst h3
          have hfact : PathVClean (decRefParents c (.term i)) v (.term i) ∧
              ValidR (decRefParents c (.term i)) (.term i) ∧
              ∀ x ∈ refVtreeVars (decRefParents c (.term i)) (.term i),
                x ∈ refVtreeVars c (.term i) := by
            refine ⟨pathVClean_term _ v i, trivial, ?_⟩
            rw [hveq]
            exact fun x hx => hx
          refine ⟨hPdec, ?_, ?_⟩ <;>
            (intro r' hr'; injection hr' with h; subst h; exact hfact)
    | gate p =>
      dsimp only at hok
      have hpsome : (c.gates[p]?).isSome = true :=
        isSome_of_refNumParents_pos c p h0
      have hstep : ∀ (ca : Circuit) (p1 : ℕ), Pres v c ca →
          ValidR ca (.gate p1) →
          refVtreeVars ca (.gate p1) = refVtreeVars c (.gate p) →
          ((match cmElements fuel ca (gateElems ca p1) v depth maxDepth with
            | .error e => .error e
            | .ok (c2, survivors, copiedElements) =>
              Except.ok (cmNodeTail c2 p1 survivors copiedElements)) :
            Except String (Circuit × Option NodeRef × Option NodeRef)) =
            .ok (c', rn, cn) →
          Pres v c c' ∧
          (∀ r', rn = some r' → PathVClean c' v r' ∧ ValidR c' r' ∧
            (∀ x ∈ refVtreeVars c' r', x ∈ refVtreeVars c (.gate p))) ∧
          (∀ r', cn = some r' → PathVClean c' v r' ∧ ValidR c' r' ∧
            (∀ x ∈ refVtreeVars c' r', x ∈ refVtreeVars c (.gate p))) := by
        intro ca p1 hPa hV1 hVar1 hok2
        cases hcm : cmElements fuel ca (gateElems ca p1) v depth
            maxDepth with
        | error e1 => rw [hcm] at hok2; simp at hok2
        | ok tr =>
          obtain ⟨c2, survivors, copies⟩ := tr
          rw [hcm] at hok2
          simp only [Except.ok.injEq] at hok2
          obtain ⟨S1, S2, S3⟩ := ihEs ca (gateElems ca p1) depth maxDepth
            c2 survivors copies hPa.1
            (fun e he => elemFacts_of_mem ca v p1 e hPa.1 he) hcm
          exact cmNodeTailSpec v c ca c2 p p1 survivors copies c' rn cn hPa
            hV1 hVar1 S1 S2 S3 hok2
      by_cases hnp : 0 < refNumParents (decRefParents c (.gate p)) (.gate p)
      · rw [if_pos hnp] at hok
        cases hdc : dcNode fuel (decRefParents c (.gate p)) (.gate p) v
            depth maxDepth with
        | error e1 => rw [hdc] at hok; simp at hok
        | ok pr =>
          obtain ⟨ca, rr⟩ := pr
          rw [hdc] at hok
          cases rr with
          | term j => dsimp only at hok; simp at hok
          | gate p1 =>
            dsimp only at hok
            obtain ⟨D1, D2, D3⟩ := ihDN (decRefParents c (.gate p))
              (.gate p) depth maxDepth ca (.gate p1) hPdec.1 hdc
            refine hstep ca p1 (pres_trans v c _ ca hPdec D1) D2 ?_ hok
            rw [D3]
            exact refVars_of_varsPres c _ hPdec.2.2 (.gate p)
              (by exact hpsome)
      · rw [if_neg hnp] at hok
        dsimp only at hok
        refine hstep (decRefParents c (.gate p)) p hPdec ?_ ?_ hok
        · exact validR_of_varsPres c _ hPdec.2.2 (.gate p) hpsome
        · exact refVars_of_varsPres c _ hPdec.2.2 (.gate p) hpsome

/-- The combined specification of the four mutually recursive walks of the
split mutator, by induction on the shared fuel. -/
theorem mutatorSpec (v : ℕ) : ∀ fuel : ℕ,
    CmElemSpec v fuel ∧ CmNodeSpec v fuel ∧ CmElemsSpec v fuel ∧
    DcNodeSpec v fuel ∧ DcElemsSpec v fuel ∧ DcElemSpec v fuel := by
  intro fuel
  induction fuel with
  | zero =>
    refine ⟨?_, ?_, ?_, ?_, ?_, ?_⟩
    · intro c el depth maxDepth c' oe ce _ _ h
      simp [cmElement] at h
    · intro c r depth maxDepth c' rn cn _ h
      simp [cmNode] at h
    · intro c els depth maxDepth c' s1 s2 _ _ h
      simp [cmElements] at h
    · intro c r depth maxDepth c' r' _ h
      simp [dcNode] at h
    · intro c els depth maxDepth c' els' _ _ h
      simp [dcElements] at h
    · intro c el depth maxDepth c' el' _ _ _ h
      simp [dcElement] at h
  | succ fuel ih =>
    obtain ⟨ihE, ihN, ihEs, ihDN, ihDEs, ihDE⟩ := ih
    exact ⟨cmElemStep v fuel ihN, cmNodeStep v fuel ihDN ihEs,
      cmElemsStep v fuel ihE ihEs, dcNodeStep v fuel ihDEs,
      dcElemsStep v fuel ihDE ihDEs, dcElemStep v fuel ihDN⟩

theorem elem_mem_of_getElem (c : Circuit) (pe : ℕ × ℕ) (el : ArenaElem)
    (h : getElem c pe = some el) :
    el ∈ gateElems c pe.1 ∧ (c.gates[pe.1]?).isSome = true := by
  unfold getElem at h
  cases hg : c.gates[pe.1]? with
  | none => rw [hg] at h; cases h
  | some g =>
    rw [hg] at h
    dsimp only [Option.bind] at h
    constructor
    · rw [gateElems, hg]
      exact List.getElem?_mem h
    · rfl

theorem gateElems_writeback (c : Circuit) (p i : ℕ) (oe ce : ArenaElem)
    (hp : (c.gates[p]?).isSome = true) :
    gateElems (modifyGateAt c p (fun g =>
      { g with elements := (g.elements.set i oe) ++ [ce] })) p =
      ((gateElems c p).set i oe) ++ [ce] := by
  obtain ⟨g, hg⟩ := Option.isSome_iff_exists.mp hp
  obtain ⟨hlt, -⟩ := List.getElem?_eq_some.mp hg
  unfold modifyGateAt gateElems
  rw [hg]
  simp [List.getElem?_set_self hlt]

/-! ## C9: the claim theorem and its concrete witness -/

theorem validR_of_validRB (c : Circuit) (n : NodeRef)
    (h : validRB c n = true) : ValidR c n := by
  cases n with
  | term i => trivial
  | gate p => exact h

theorem wfSplit_of_bounded (c : Circuit) (v : ℕ)
    (h : ∀ p < c.gates.length, ∀ e ∈ gateElems c p,
      (∀ x ∈ refVtreeVars c e.prime, x ∈ gateVars c p) ∧
      (∀ x ∈ refVtreeVars c e.sub, x ∈ gateVars c p) ∧
      (∀ x ∈ e.splittable, x ∈ gateVars c p) ∧
      ¬(v ∈ refVtreeVars c e.prime ∧ v ∈ refVtreeVars c e.sub)) :
    WfSplit c v := by
  intro p e he
  by_cases hlt : p < c.gates.length
  · exact h p hlt e he
  · rw [gateElems_oob c p (Nat.le_of_not_lt hlt)] at he
    cases he

theorem hFreeP_of_all_contain (c : Circuit) (v : ℕ)
    (h : ∀ p < c.gates.length, v ∈ gateVars c p) : HFreeP c v := by
  intro p hvp
  by_cases hlt : p < c.gates.length
  · exact absurd (h p hlt) hvp
  · exact pathVClean_of_elems_nil c v p (gateElems_oob c p
      (Nat.le_of_not_lt hlt))

theorem noDangling_of_bounded (c : Circuit)
    (h : ∀ p < c.gates.length, ∀ e ∈ gateElems c p,
      validRB c e.prime = true ∧ validRB c e.sub = true) : NoDangling c := by
  intro p e he
  by_cases hlt : p < c.gates.length
  · exact ⟨validR_of_validRB c e.prime (h p hlt e he).1,
      validR_of_validRB c e.sub (h p hlt e he).2⟩
  · rw [gateElems_oob c p (Nat.le_of_not_lt hlt)] at he
    cases he

theorem flipConsistent_of_bounded (c : Circuit)
    (h : ∀ i < c.terms.length, flipOkB c i = true) : FlipConsistent c := by
  intro i t ht hv
  have hlt : i < c.terms.length := (List.getElem?_eq_some.mp ht).1
  have hb := h i hlt
  rw [flipOkB, ht] at hb
  dsimp only at hb
  rw [hv] at hb
  simp only [Bool.false_or, beq_iff_eq] at hb
  exact hb

/-- C9 (amended scope): on a well-formed circuit — vtree variable sets
nest along the structure, the split variable never occurs on both sides of
an element, references are in bounds, the negative literal of each
variable sits at the position used by the terminal flip, and every gate
avoiding the variable is already hygienic — a successful split of the
element at `loc` on variable `v` yields a retained original and an
appended copy that both lack `v` in their splittable sets, and no element
reachable below either of them keeps `v` splittable; the parent gate of
the final circuit holds exactly the rewritten original at the split index
and the copy at the end. -/
theorem C9_split_monotonic_splittability
    (c : Circuit) (v depth fuel : ℕ) (loc : ℕ × ℕ) (el : ArenaElem)
    (c1 c' : Circuit) (oe ce : ArenaElem)
    (hinv : MutInv c v)
    (hel : getElem c loc = some el)
    (hcm : cmElement fuel c el v 0 depth = .ok (c1, some oe, some ce))
    (hsp : splitElement c loc v depth fuel = .ok c') :
    (v ∉ oe.splittable ∧ PathVClean c1 v oe.prime ∧
      PathVClean c1 v oe.sub) ∧
    (v ∉ ce.splittable ∧ PathVClean c1 v ce.prime ∧
      PathVClean c1 v ce.sub) ∧
    gateElems c' loc.1 = ((gateElems c1 loc.1).set loc.2 oe) ++ [ce] := by
  obtain ⟨hmem, hps⟩ := elem_mem_of_getElem c loc el hel
  have hfacts := elemFacts_of_mem c v loc.1 el hinv hmem
  obtain ⟨S1, S2, S3⟩ := (mutatorSpec v fuel).1 c el 0 depth c1 (some oe)
    (some ce) hinv hfacts hcm
  obtain ⟨hoe1, hoe2⟩ := S2 oe rfl
  obtain ⟨hce1, hce2⟩ := S3 ce rfl
  unfold splitElement at hsp
  rw [hel] at hsp
  dsimp only at hsp
  rw [hcm] at hsp
  dsimp only at hsp
  simp only [Except.ok.injEq] at hsp
  subst hsp
  refine ⟨hoe1, hce1, ?_⟩
  exact gateElems_writeback c1 loc.1 loc.2 oe ce
    (validR_of_varsPres c c1 S1.2.2 (.gate loc.1) hps)

theorem sharedGateCircuit_mutInv : MutInv sharedGateCircuit 2 := by
  refine ⟨wfSplit_of_bounded _ _ (by decide),
    hFreeP_of_all_contain _ _ (by decide),
    noDangling_of_bounded _ (by decide),
    flipConsistent_of_bounded _ (by decide)⟩

/-- Witness: the concrete split of the shared-gate circuit's element
`(0, 0)` on variable 2, instantiating the C9 theorem. -/
theorem C9_split_monotonic_splittability_witness :
    (2 ∉ c9Orig.splittable ∧ PathVClean c9Walked 2 c9Orig.prime ∧
      PathVClean c9Walked 2 c9Orig.sub) ∧
    (2 ∉ c9Copy.splittable ∧ PathVClean c9Walked 2 c9Copy.prime ∧
      PathVClean c9Walked 2 c9Copy.sub) ∧
    gateElems c9Final 0 = ((gateElems c9Walked 0).set 0 c9Orig) ++
      [c9Copy] :=
  C9_split_monotonic_splittability sharedGateCircuit 2 20 100 (0, 0)
    c9TopElem c9Walked c9Final c9Orig c9Copy sharedGateCircuit_mutInv
    (by rfl) (by rfl) (by rfl)

/-! ## C6: the save/load round trip -/

theorem pySort_eq_self (lt : α → α → Bool) (l : List α)
    (h : l.Pairwise (fun x y => lt y x = false)) : pySort lt l = l := by
  induction l with
  | nil => rfl
  | cons a as ih =>
    rw [List.pairwise_cons] at h
    rw [pySort, ih h.2]
    cases as with
    | nil => rfl
    | cons b bs =>
      rw [pyInsert, h.1 b (List.mem_cons_self b bs)]
      simp

theorem insertReplace_notMem (l : List (ℕ × α)) (k : ℕ) (v : α)
    (h : k ∉ l.map (fun kv => kv.1)) : insertReplace l k v = l ++ [(k, v)] := by
  induction l with
  | nil => rfl
  | cons kv rest ih =>
    obtain ⟨k0, v0⟩ := kv
    rw [List.map_cons, List.mem_cons] at h
    push_neg at h
    rw [insertReplace, if_neg (fun hh => h.1 hh.symm), ih h.2]
    rfl

theorem lookupAssoc_isSome_of_mem (l : List (ℕ × α)) (k : ℕ)
    (h : k ∈ l.map (fun kv => kv.1)) : (lookupAssoc l k).isSome = true := by
  induction l with
  | nil => cases h
  | cons kv rest ih =>
    obtain ⟨k0, v0⟩ := kv
    rw [lookupAssoc]
    by_cases hk : k0 = k
    · rw [if_pos hk]; rfl
    · rw [if_neg hk]
      rw [List.map_cons, List.mem_cons] at h
      rcases h with h | h
      · exact absurd h.symm hk
      · exact ih h

theorem parseTerminals_append (vtreeNodes : List (ℕ × PyVtree))
    (l0 : SrcLine) (rest : List SrcLine) (hl0 : isTFLine l0 = false) :
    ∀ (ts : List ArenaTerm) (acc : List (ℕ × (PyTerminal × List ℤ))),
    (∀ t ∈ ts, (lookupAssoc vtreeNodes t.vtreeIndex).isSome = true) →
    (∀ t ∈ ts, t.index ∉ acc.map (fun kv => kv.1)) →
    ((ts.map (·.index)).Nodup) →
    parseTerminals vtreeNodes (ts.map termSaveLine ++ (l0 :: rest)) acc =
      .ok (acc ++ ts.map (fun t => (t.index, (toPyTerminal t, termLit t))),
        l0 :: rest) := by
  intro ts
  induction ts with
  | nil =>
    intro acc _ _ _
    cases l0 with
    | T a b c d => simp [isTFLine] at hl0
    | F a b c d => simp [isTFLine] at hl0
    | comment => simp [parseTerminals]
    | D a b c d => simp [parseTerminals]
    | B a => simp [parseTerminals]
    | V a => simp [parseTerminals]
    | other => simp [parseTerminals]
  | cons t ts ih =>
    intro acc hlook hnew hnodup
    rw [List.map_cons, List.nodup_cons] at hnodup
    obtain ⟨vt0, hvt0⟩ := Option.isSome_iff_exists.mp
      (hlook t (List.mem_cons_self t ts))
    have hrepl := insertReplace_notMem acc t.index
      (toPyTerminal t, termLit t) (hnew t (List.mem_cons_self t ts))
    have hih := ih (acc ++ [(t.index, (toPyTerminal t, termLit t))])
      (fun t2 ht2 => hlook t2 (List.mem_cons_of_mem t ht2))
      (fun t2 ht2 => by
        rw [List.map_append, List.mem_append]
        push_neg
        refine ⟨hnew t2 (List.mem_cons_of_mem t ht2), ?_⟩
        intro hmem
        simp only [List.map_cons, List.map_nil, List.mem_singleton] at hmem
        exact hnodup.1 (hmem ▸ List.mem_map_of_mem (·.index) ht2))
      hnodup.2
    have hrec : ({ index := t.index, vtreeIndex := t.vtreeIndex, varIndex := t.varIndex, varValue := t.varValue, parameter := t.parameter } : PyTerminal) = toPyTerminal t := rfl
    cases hv : t.varValue with
    | true =>
      have hline : termSaveLine t =
          .T t.index t.vtreeIndex t.varIndex t.parameter := by
        rw [termSaveLine, if_pos hv]
      rw [List.map_cons, hline, List.cons_append]
      simp only [parseTerminals, hvt0]
      have hrec2 : ({ index := t.index, vtreeIndex := t.vtreeIndex, varIndex := t.varIndex, varValue := true, parameter := t.parameter } : PyTerminal) = toPyTerminal t := by
        rw [← hv]
        exact hrec
      have hlit : ([(t.varIndex : ℤ)] : List ℤ) = termLit t := by
        rw [termLit, if_pos hv]
      rw [hrec2, hlit, hrepl, hih]
      simp
    | false =>
      have hline : termSaveLine t =
          .F t.index t.vtreeIndex t.varIndex t.parameter := by
        rw [termSaveLine, if_neg (by rw [hv]; exact Bool.false_ne_true)]
      rw [List.map_cons, hline, List.cons_append]
      simp only [parseTerminals, hvt0]
      have hrec2 : ({ index := t.index, vtreeIndex := t.vtreeIndex, varIndex := t.varIndex, varValue := false, parameter := t.parameter } : PyTerminal) = toPyTerminal t := by
        rw [← hv]
        exact hrec
      have hlit : ([-(t.varIndex : ℤ)] : List ℤ) = termLit t := by
        rw [termLit, if_neg (by rw [hv]; exact Bool.false_ne_true)]
      rw [hrec2, hlit, hrepl, hih]
      simp

theorem buildElements_ok (nodes : List (ℕ × (LoadedNode × List ℤ))) :
    ∀ entries : List (ℕ × ℕ × ℚ),
    (∀ en ∈ entries, en.1 ∈ nodes.map (fun kv => kv.1) ∧
      en.2.1 ∈ nodes.map (fun kv => kv.1)) →
    ∃ els vars, buildElements nodes entries.length entries = .ok (els, vars) ∧
      els.map (·.parameter) = entries.map (fun en => en.2.2) := by
  intro entries
  induction entries with
  | nil => exact fun _ => ⟨[], [], rfl, rfl⟩
  | cons en es ih =>
    intro hlook
    obtain ⟨pI, sI, pq⟩ := en
    obtain ⟨h1, h2⟩ := hlook (pI, sI, pq) (List.mem_cons_self _ es)
    obtain ⟨n1, hn1⟩ := Option.isSome_iff_exists.mp
      (lookupAssoc_isSome_of_mem nodes pI h1)
    obtain ⟨n2, hn2⟩ := Option.isSome_iff_exists.mp
      (lookupAssoc_isSome_of_mem nodes sI h2)
    obtain ⟨pN, pV⟩ := n1
    obtain ⟨sN, sV⟩ := n2
    obtain ⟨els, vars, hbe, hpar⟩ :=
      ih (fun en2 he2 => hlook en2 (List.mem_cons_of_mem _ he2))
    refine ⟨({ prime := pN, sub := sN, parameter := pq, splittable := computeSplittable (unionVars pV sV) } : LoadedElement) :: els, unionVars (unionVars pV sV) vars, ?_, ?_⟩
    · show buildElements nodes (es.length + 1) ((pI, sI, pq) :: es) = _
      rw [buildElements, hn1, hn2, hbe]
    · simp [hpar]

theorem parseDecisions_save (c : Circuit) (vtreeNodes : List (ℕ × PyVtree))
    (bs : List ℚ) (restV : List SrcLine) :
    ∀ (ds : List ℕ) (nodes : List (ℕ × (LoadedNode × List ℤ)))
      (gates : List LoadedGate) (root : Option ℕ),
    (∀ p ∈ ds, (c.gates[p]?).isSome = true) →
    (∀ p ∈ ds, (lookupAssoc vtreeNodes (gateVtreeIdxAt c p)).isSome = true) →
    ((ds.map (gateIndexAt c)).Nodup) →
    (∀ k ∈ ds.map (gateIndexAt c), k ∉ nodes.map (fun kv => kv.1)) →
    (∀ (k : ℕ) (p : ℕ), ds[k]? = some p → ∀ e ∈ gateElems c p,
      (refIndex c e.prime ∈ nodes.map (fun kv => kv.1) ++
        (ds.take k).map (gateIndexAt c)) ∧
      (refIndex c e.sub ∈ nodes.map (fun kv => kv.1) ++
        (ds.take k).map (gateIndexAt c))) →
    ∃ nodesF gatesNew,
      parseDecisions vtreeNodes
        (ds.map (gateSaveLine c) ++ (.B bs :: restV)) nodes gates root =
        .ok (nodesF, gates ++ gatesNew,
          (if ds.isEmpty then root
            else some (gates.length + ds.length - 1)),
          .B bs :: restV) ∧
      gatesNew.map (fun g => (g.index, g.vtreeIndex,
        g.elements.map (·.parameter))) =
        ds.map (fun p => (gateIndexAt c p, gateVtreeIdxAt c p,
          (gateElems c p).map (·.parameter))) ∧
      nodesF.map (fun kv => kv.1) =
        nodes.map (fun kv => kv.1) ++ ds.map (gateIndexAt c) := by
  intro ds
  induction ds with
  | nil =>
    intro nodes gates root _ _ _ _ _
    refine ⟨nodes, [], ?_, rfl, by simp⟩
    simp [parseDecisions]
  | cons p ds ih =>
    intro nodes gates root hval hvlook hnodup hnewkeys hchild
    obtain ⟨g, hg⟩ := Option.isSome_iff_exists.mp
      (hval p (List.mem_cons_self p ds))
    obtain ⟨vtn, hvtn⟩ := Option.isSome_iff_exists.mp
      (hvlook p (List.mem_cons_self p ds))
    have hgelems : gateElems c p = g.elements :=
      gateElems_eq_of_lookup c p g hg
    have hgidx : gateIndexAt c p = g.index := by rw [gateIndexAt, hg]; rfl
    have hgvidx : gateVtreeIdxAt c p = g.vtreeIndex := by
      rw [gateVtreeIdxAt, hg]
      rfl
    rw [hgvidx] at hvtn
    have hline : gateSaveLine c p = .D g.index g.vtreeIndex
        g.elements.length (g.elements.map (fun e =>
          (refIndex c e.prime, refIndex c e.sub, e.parameter))) := by
      rw [gateSaveLine, hg]
    obtain ⟨els, vars, hbe, hpar⟩ := buildElements_ok nodes
      (g.elements.map (fun e =>
        (refIndex c e.prime, refIndex c e.sub, e.parameter)))
      (by
        intro en hen
        obtain ⟨e, he, rfl⟩ := List.mem_map.mp hen
        have := hchild 0 p (by simp) e (hgelems ▸ he)
        simpa using this)
    rw [List.map_cons, hline, List.cons_append]
    rw [List.map_cons, List.nodup_cons] at hnodup
    have hbe2 : buildElements nodes g.elements.length
        (g.elements.map (fun e =>
          (refIndex c e.prime, refIndex c e.sub, e.parameter))) =
        .ok (els, vars) := by
      rw [show g.elements.length = (g.elements.map (fun e =>
        (refIndex c e.prime, refIndex c e.sub, e.parameter))).length by
          rw [List.length_map]]
      exact hbe
    have hrepl : insertReplace nodes (gateIndexAt c p)
        (LoadedNode.gate gates.length, vars) =
        nodes ++ [(gateIndexAt c p, (LoadedNode.gate gates.length, vars))] :=
      insertReplace_notMem nodes (gateIndexAt c p) _
        (hnewkeys (gateIndexAt c p)
          (List.mem_cons_self (gateIndexAt c p) _))
    obtain ⟨nodesF, gatesNew, hrec, hsig, hkeys⟩ := ih
      (nodes ++ [(gateIndexAt c p, (LoadedNode.gate gates.length, vars))])
      (gates ++ [({ index := g.index, vtreeIndex := g.vtreeIndex, elements := els } : LoadedGate)])
      (some gates.length)
      (fun q hq => hval q (List.mem_cons_of_mem p hq))
      (fun q hq => hvlook q (List.mem_cons_of_mem p hq))
      hnodup.2
      (by
        intro k hk
        rw [List.map_append, List.mem_append]
        push_neg
        refine ⟨hnewkeys k (List.mem_cons_of_mem _ hk), ?_⟩
        intro hmem
        simp only [List.map_cons, List.map_nil, List.mem_singleton] at hmem
        exact hnodup.1 (hmem ▸ hk)
      )
      (by
        intro k q hkq e he
        have := hchild (k + 1) q (by rw [List.getElem?_cons_succ]; exact hkq)
          e he
        rw [List.take_succ_cons, List.map_cons] at this
        rw [List.map_append, List.append_assoc]
        simp only [List.map_cons, List.map_nil] at this ⊢
        rw [List.singleton_append]
        exact this
      )
    refine ⟨nodesF, ({ index := g.index, vtreeIndex := g.vtreeIndex, elements := els } : LoadedGate) :: gatesNew, ?_, ?_, ?_⟩
    · rw [parseDecisions, hbe2]
      dsimp only
      rw [hvtn]
      dsimp only
      rw [hgidx] at hrepl
      rw [hgidx] at hrec
      rw [hrepl, hrec]
      have hroot : (if ds.isEmpty = true then some gates.length
          else some ((gates ++ [({ index := g.index, vtreeIndex := g.vtreeIndex, elements := els } : LoadedGate)]).length + ds.length - 1)) = some (gates.length + ds.length) := by
        by_cases hde : ds.isEmpty = true
        · have hds : ds = [] := List.isEmpty_iff.mp hde
          subst hds
          simp
        · rw [if_neg hde]
          have hlen : 0 < ds.length := by
            cases ds with
            | nil => simp at hde
            | cons a as => simp
          congr 1
          simp only [List.length_append, List.length_cons, List.length_nil]
          omega
      rw [hroot]
      have hroot2 : (if (p :: ds).isEmpty = true then root
          else some (gates.length + (p :: ds).length - 1)) =
          some (gates.length + ds.length) := by
        simp
      rw [hroot2]
      simp
    · rw [List.map_cons, hsig, List.map_cons, hgidx, hgvidx, hgelems, hpar]
      simp
    · rw [hkeys]
      simp [hgidx]

/-- C6: on a well-formed circuit — terminals stored positive-then-negative
in variable order, one terminal pair per vtree variable, all node indices
distinct, every referenced vtree index present in the bound vtree, at
least one decision node, and every element child resolvable when its gate
is written (terminals, or gates serialized later in the breadth-first
discovery order) — `load` accepts the output of `save` and reproduces the
terminals, the bias and, gate by gate in reversed discovery order, the
node indices, vtree indices and element parameters (exact rational
equality, hence within any floating tolerance). -/
theorem C6_save_load_roundtrip (c : Circuit) (vt : PyVtree)
    (hsorted : (c.terms.map toPyTerminal).Pairwise
      (fun x y => termSortLt y x = false))
    (hcount : c.terms.length = 2 * vt.varCount)
    (htlook : ∀ t ∈ c.terms,
      (lookupAssoc (collectVtreeNodes vt.size [vt] [])
        t.vtreeIndex).isSome = true)
    (hds : (serializeDecisions c).reverse ≠ [])
    (hval : ∀ p ∈ (serializeDecisions c).reverse,
      (c.gates[p]?).isSome = true)
    (hvlook : ∀ p ∈ (serializeDecisions c).reverse,
      (lookupAssoc (collectVtreeNodes vt.size [vt] [])
        (gateVtreeIdxAt c p)).isSome = true)
    (hnodup : (c.terms.map (·.index) ++
      ((serializeDecisions c).reverse).map (gateIndexAt c)).Nodup)
    (hchild : ∀ (k p : ℕ),
      ((serializeDecisions c).reverse)[k]? = some p →
      ∀ e ∈ gateElems c p,
      (refIndex c e.prime ∈ c.terms.map (·.index) ++
        (((serializeDecisions c).reverse).take k).map (gateIndexAt c)) ∧
      (refIndex c e.sub ∈ c.terms.map (·.index) ++
        (((serializeDecisions c).reverse).take k).map (gateIndexAt c))) :
    ∃ res, loadLines vt (saveLines c) = .ok res ∧
      res.terminalNodes = c.terms.map toPyTerminal ∧
      res.bias = c.bias ∧
      res.gates.length = (serializeDecisions c).length ∧
      res.gates.map (fun g => (g.index, g.vtreeIndex,
        g.elements.map (·.parameter))) =
        ((serializeDecisions c).reverse).map (fun p => (gateIndexAt c p,
          gateVtreeIdxAt c p, (gateElems c p).map (·.parameter))) := by
  obtain ⟨d0, ds', hds0⟩ : ∃ d0 ds',
      (serializeDecisions c).reverse = d0 :: ds' := by
    cases hc : (serializeDecisions c).reverse with
    | nil => exact absurd hc hds
    | cons a as => exact ⟨a, as, rfl⟩
  rw [hds0] at hval hvlook hnodup hchild ⊢
  have hl0 : isTFLine (gateSaveLine c d0) = false := by
    obtain ⟨g, hg⟩ := Option.isSome_iff_exists.mp
      (hval d0 (List.mem_cons_self d0 ds'))
    rw [gateSaveLine, hg]
    rfl
  rw [List.nodup_append] at hnodup
  have hterm := parseTerminals_append (collectVtreeNodes vt.size [vt] [])
    (gateSaveLine c d0)
    (ds'.map (gateSaveLine c) ++
      (.B c.bias :: c.covariance.map (fun m => SrcLine.V m.flatten)))
    hl0 c.terms []
    htlook (fun t _ => List.not_mem_nil t.index)
    (by
      have := hnodup.1
      simpa using this)
  rw [loadLines, loadUpToBias]
  have hskip : skipComments (saveLines c) =
      .ok (SrcLine.other :: (c.terms.map termSaveLine ++
        ((d0 :: ds').map (gateSaveLine c) ++
          (.B c.bias :: c.covariance.map (fun m => SrcLine.V
            m.flatten))))) := by
    rw [saveLines, hds0]
    simp [skipComments]
  rw [hskip]
  dsimp only [List.tail_cons]
  rw [List.map_cons, List.cons_append]
  rw [hterm]
  dsimp only
  have hsort : pySort termSortLt
      ((([] : List (ℕ × (PyTerminal × List ℤ))) ++
        c.terms.map (fun t => (t.index, (toPyTerminal t, termLit t)))).map
          (fun kv => kv.2.1)) = c.terms.map toPyTerminal := by
    rw [List.nil_append, List.map_map]
    rw [show ((fun kv => kv.2.1) ∘
      (fun t : ArenaTerm => (t.index, (toPyTerminal t, termLit t)))) =
      toPyTerminal from rfl]
    exact pySort_eq_self termSortLt (c.terms.map toPyTerminal) hsorted
  rw [hsort]
  rw [if_pos (by rw [List.length_map]; exact hcount)]
  have hkeys0 : ((([] : List (ℕ × (PyTerminal × List ℤ))) ++
      c.terms.map (fun t => (t.index, (toPyTerminal t, termLit t)))).map
        (fun kv => (kv.1, (LoadedNode.term kv.2.1, kv.2.2)))).map
        (fun kv => kv.1) = c.terms.map (·.index) := by
    simp
  obtain ⟨nodesF, gatesNew, hpd, hsig, hkeysF⟩ :=
    parseDecisions_save c (collectVtreeNodes vt.size [vt] []) c.bias
      (c.covariance.map (fun m => SrcLine.V m.flatten)) (d0 :: ds')
      ((([] : List (ℕ × (PyTerminal × List ℤ))) ++
        c.terms.map (fun t => (t.index, (toPyTerminal t, termLit t)))).map
          (fun kv => (kv.1, (LoadedNode.term kv.2.1, kv.2.2))))
      [] none hval hvlook hnodup.2.1
      (by
        intro k hk
        rw [hkeys0]
        exact fun hmem => hnodup.2.2 hmem hk)
      (by
        intro k p hkp e he
        rw [hkeys0]
        exact hchild k p hkp e he)
  rw [List.map_cons, List.cons_append] at hpd
  rw [hpd]
  dsimp only
  rw [if_neg (by simp)]
  dsimp only
  refine ⟨_, rfl, rfl, rfl, ?_, ?_⟩
  · have := congrArg List.length hsig
    rw [List.length_map, List.length_map] at this
    rw [List.nil_append, this, ← hds0, List.length_reverse]
  · rw [List.nil_append]
    exact hsig

/-- Witness: the round-trip theorem applies to the concrete two-variable
single-decision circuit `splitFailCircuit` bound to the vtree
`1 — 0 — 2`. -/
theorem C6_save_load_roundtrip_witness :
    ∃ res, loadLines c6Vtree (saveLines splitFailCircuit) = .ok res ∧
      res.terminalNodes = splitFailCircuit.terms.map toPyTerminal ∧
      res.bias = splitFailCircuit.bias ∧
      res.gates.length = (serializeDecisions splitFailCircuit).length ∧
      res.gates.map (fun g => (g.index, g.vtreeIndex,
        g.elements.map (·.parameter))) =
        ((serializeDecisions splitFailCircuit).reverse).map
          (fun p => (gateIndexAt splitFailCircuit p,
            gateVtreeIdxAt splitFailCircuit p,
            (gateElems splitFailCircuit p).map (·.parameter))) :=
  C6_save_load_roundtrip splitFailCircuit c6Vtree (by decide) (by decide)
    (by decide) (by decide) (by decide) (by decide) (by decide)
    (by
      intro k p hkp
      have hrev : (serializeDecisions splitFailCircuit).reverse = [0] :=
        by decide
      rw [hrev] at hkp
      cases k with
      | zero =>
        have hp : p = 0 := by
          simpa using hkp.symm
        subst hp
        decide
      | succ k =>
        simp at hkp)

end RegressionCircuit
